import Mathlib

deriving instance DecidableEq for Except

/-!
# Verification of the MidiTok CPWord / MuMIDI tokenizers

Shallow embedding of `src/miditok/tokenizations/cp_word.py` and
`src/miditok/tokenizations/mumidi.py`, together with theorems settling the
frozen claims about encoding (`_add_time_events`, `_midi_to_tokens`),
decoding (`_tokens_to_midi`), vocabulary growth and the grammar validators
(`_tokens_errors`).

Conventions of the embedding:
* ticks are `Int`; Python `//` and `%` are `Int./` and `Int.%` (both floor
  towards minus infinity for the positive divisors used here, exactly like
  Python's floor division);
* token strings `"Type_Value"` are structured values; the `"..._None"`
  absent placeholder is `Option.none`;
* Python exceptions (`ValueError`, `KeyError`, `IndexError`,
  `RuntimeError`) are `Except.error`;
* tempo values (Python floats rounded to two decimals) are `ℚ`.
-/

namespace MidiTok

/-- A note, mirroring symusic's `Note(time, duration, pitch, velocity)`.
The note's end tick is `start + dur`. -/
structure Note where
  start : Int
  dur : Int
  pitch : Int
  vel : Int
deriving DecidableEq, Repr

/-- A duration / rest token value: the `(beats, subdivisions, resolution)`
triple rendered as `"b.s.r"` in token strings. -/
structure DurTriple where
  beats : Nat
  subs : Nat
  res : Nat
deriving DecidableEq, Repr

/-- Modelled from the spec: the base-class `_token_duration_to_ticks` is not
under `src/`; per §3/§6 a `Duration_b.s.r` entry stands for the exact tick
length `(b * r + s) * time_division / r` (e.g. `Duration_1.0.8` is one
quarter note, 8 ticks at `time_division = 8`, as in the spec's scenario). -/
def durationToTicks (d : DurTriple) (td : Int) : Int :=
  ((d.beats * d.res + d.subs : Nat) : Int) * td / (d.res : Int)

/-- Tokenizer configuration flags, the subset of `TokenizerConfig` the two
tokenizations read (`use_*`, `remove_duplicated_notes`, `programs`). -/
structure Config where
  usePrograms : Bool
  useChords : Bool
  useRests : Bool
  useTempos : Bool
  useTimeSignatures : Bool
  removeDuplicatedNotes : Bool
  programs : List Int
deriving DecidableEq, Repr

/-- Numeric / table parameters of a tokenizer: `time_division`,
`max(config.beat_res.values())`, the precomputed duration and rest tables,
`_min_rest` and the default tempo. -/
structure Params where
  timeDivision : Int
  maxBeatRes : Int
  durations : List DurTriple
  rests : List DurTriple
  minRest : Int
  defaultTempo : ℚ
deriving DecidableEq, Repr

/-- The `TIME_SIGNATURE` constant (4/4). -/
def timeSignatureDefault : Nat × Nat := (4, 4)

/-- Modelled from the spec (§3): the base-class `_compute_ticks_per_bar` is
not under `src/`; `ticks_per_bar = numerator * time_division * 4 /
denominator` (all quantities positive in any valid configuration, so floor
division agrees with Python's `int(...)`). -/
def computeTicksPerBar (num den : Nat) (td : Int) : Int :=
  (num : Int) * td * 4 / (den : Int)

/-- Modelled from the spec (§3): nearest-entry matching into a quantization
table, ties broken by table order, first closest wins (`np.argmin` over
absolute differences, as done literally in `MuMIDI._track_to_tokens`). -/
def nearestIdx (tbl : List Int) (target : Int) : Nat :=
  let step := fun (acc : Nat × Option (Nat × Nat)) (t : Int) =>
    let d := (t - target).natAbs
    match acc.2 with
    | none => (acc.1 + 1, some (acc.1, d))
    | some b => if d < b.2 then (acc.1 + 1, some (acc.1, d)) else (acc.1 + 1, some b)
  ((tbl.foldl step (0, none)).2.map Prod.fst).getD 0

/-- Tick lengths of the duration table (`self._durations_ticks`). -/
def durationsTicks (p : Params) : List Int :=
  p.durations.map (fun d => durationToTicks d p.timeDivision)

/-- The duration-table triple nearest to a raw tick duration (what the event
normalizer puts in a `Duration` event, and what
`MuMIDI._track_to_tokens` computes with `np.argmin`). -/
def nearestDurTriple (p : Params) (d : Int) : DurTriple :=
  p.durations.getD (nearestIdx (durationsTicks p) d) ⟨0, 0, 1⟩

/-- Atomic input events of `_add_time_events`, as produced by the event
normalizer (base class, spec §4.2): typed payloads instead of the dynamic
`Event.value`; a `Pitch` event's `desc` is its note's end tick. -/
inductive Event
  | pitchE (p : Int) (time : Int) (noteEnd : Int)
  | velocityE (v : Int) (time : Int)
  | durationE (d : DurTriple) (time : Int)
  | tempoE (t : ℚ) (time : Int)
  | timeSigE (num den : Nat) (time : Int)
  | chordE (c : Nat) (time : Int)
  | programE (pr : Int) (time : Int)
deriving DecidableEq, Repr

/-- The `time` attribute of an event. -/
def Event.time : Event → Int
  | .pitchE _ t _ => t
  | .velocityE _ t => t
  | .durationE _ t => t
  | .tempoE _ t => t
  | .timeSigE _ _ t => t
  | .chordE _ _ => 0
  | .programE _ _ => 0

/-- Whether an event is a `TimeSig` event. -/
def Event.isTimeSig : Event → Prop
  | .timeSigE _ _ _ => True
  | _ => False

instance : DecidablePred Event.isTimeSig := fun e => by
  cases e <;> simp [Event.isTimeSig] <;> infer_instance

/-- Family sub-token of a CPWord compound token (`Family_Metric`,
`Family_Note`, or a special token like `PAD_None` whose split yields
family `"None"`). -/
inductive CPFam
  | metric
  | note
  | padNone
deriving DecidableEq, Repr

/-- Index-1 sub-token of a CPWord compound token: `Ignore_None`,
`Bar_None` or `Position_v`. -/
inductive CPBarPos
  | ign
  | bar
  | pos (v : Int)
deriving DecidableEq, Repr

/-- A CPWord compound token. The Python token is a list
`[Family, Bar/Position, Pitch, Velocity, Duration (, Program)(, Chord)
(, Rest)(, Tempo)(, TimeSig)]` whose optional slots exist only under the
corresponding config flag; here every slot is a field, `none` standing for
the `Ignore_None` / `..._None` placeholder (fields whose flag is disabled
are never read, as in the source). `time` is the tick carried by the
first `Event` of the Python token (used for ordering only). -/
structure CPTok where
  time : Int
  family : CPFam
  barPos : CPBarPos
  pitch : Option Int
  vel : Option Int
  dur : Option DurTriple
  program : Option Int
  chord : Option Nat
  rest : Option DurTriple
  tempo : Option ℚ
  timeSig : Option (Nat × Nat)
deriving DecidableEq, Repr

/-- `CPWord.__create_cp_token`: build a compound token, branch priority
`bar` / `pos` / `rest` / `pitch` exactly as in the source. -/
def createCPToken (time : Int) (bar : Bool) (pos : Option Int)
    (pitch vel : Option Int) (dur : Option DurTriple) (chord : Option Nat)
    (rest : Option DurTriple) (tempo : Option ℚ)
    (timeSignature : Option (Nat × Nat)) (program : Option Int) : CPTok :=
  let base : CPTok :=
    ⟨time, .metric, .ign, none, none, none, none, none, none, none, none⟩
  if bar then
    { base with barPos := .bar, timeSig := timeSignature }
  else
    match pos with
    | some v => { base with barPos := .pos v, chord := chord, tempo := tempo }
    | none =>
      match rest with
      | some r => { base with rest := some r }
      | none =>
        match pitch with
        | some pt =>
          { base with family := .note, pitch := some pt, vel := vel,
                      dur := dur, program := program }
        | none => base

/-- A `Bar` compound token (optionally carrying a time signature). -/
def mkBarTok (time : Int) (ts : Option (Nat × Nat)) : CPTok :=
  createCPToken time true none none none none none none none ts none

/-- A `Position` compound token. -/
def mkPosTok (time pos : Int) (chord : Option Nat) (tempo : Option ℚ) : CPTok :=
  createCPToken time false (some pos) none none none chord none tempo none none

/-- A `Rest` compound token. -/
def mkRestTok (time : Int) (r : DurTriple) : CPTok :=
  createCPToken time false none none none none none (some r) none none none

/-- A `Note` compound token. -/
def mkNoteTok (time pitch vel : Int) (dur : DurTriple) (program : Option Int) : CPTok :=
  createCPToken time false none (some pitch) (some vel) (some dur) none none none none program

/-- Mutable loop state of `CPWord._add_time_events`. -/
structure EncState where
  currentBar : Int
  barAtLastTsChange : Int
  previousTick : Int
  previousNoteEnd : Int
  tickAtLastTsChange : Int
  tickAtCurrentBar : Int
  currentTimeSig : Nat × Nat
  currentTempo : ℚ
  currentProgram : Option Int
  ticksPerBar : Int
deriving DecidableEq, Repr

/-- Modelled from the spec (§4.3): the base-class
`_ticks_to_duration_tokens` is not under `src/`; pick the largest table
entry whose tick length is at most the remaining gap (`foldl` keeps the
first of equals, i.e. the earlier table entry). -/
def pickLargestLE (tbl : List (DurTriple × Int)) (gap : Int) : Option (DurTriple × Int) :=
  tbl.foldl
    (fun acc e =>
      if e.2 ≤ gap then
        match acc with
        | none => some e
        | some b => if e.2 > b.2 then some e else some b
      else acc)
    none

/-- Modelled from the spec (§4.3): greedy decomposition of a tick gap into
rest-table entries — repeatedly take the largest entry that fits; the fuel
argument only bounds the recursion (entries have positive tick length in
any valid table). -/
def greedyDecompose (tbl : List (DurTriple × Int)) : Nat → Int → List (DurTriple × Int)
  | 0, _ => []
  | fuel + 1, gap =>
    match pickLargestLE tbl gap with
    | none => []
    | some e =>
      if e.2 ≤ 0 then [] else e :: greedyDecompose tbl fuel (gap - e.2)

/-- The rest table paired with tick lengths. -/
def restsTicksTable (p : Params) : List (DurTriple × Int) :=
  p.rests.map (fun r => (r, durationToTicks r p.timeDivision))

/-- `self._ticks_to_duration_tokens(gap, rest=True)` (see
`greedyDecompose`). -/
def ticksToRestTokens (p : Params) (gap : Int) : List (DurTriple × Int) :=
  greedyDecompose (restsTicksTable p) gap.toNat gap

/-- The `(Rest)` block of `CPWord._add_time_events` (lines 156-189): emit
rest tokens consuming the gap from the previous note's end, then move the
`current_bar` / `tick_at_current_bar` cursor over the bars spanned by the
rest without emitting `Bar` tokens. Returns the state (with
`previousTick` advanced to the end of the rests) and the rest tokens. -/
def restPhase (cfg : Config) (p : Params) (st : EncState) (evTime : Int) :
    EncState × List CPTok :=
  if cfg.useRests ∧ evTime - st.previousNoteEnd ≥ p.minRest then
    let pt := st.previousNoteEnd
    let rv := ticksToRestTokens p (evTime - pt)
    let r := rv.foldl
      (fun (acc : Int × List CPTok) dv => (acc.1 + dv.2, acc.2 ++ [mkRestTok acc.1 dv.1]))
      (pt, [])
    let pt2 := r.1
    let realCurrentBar :=
      st.barAtLastTsChange + (pt2 - st.tickAtLastTsChange) / st.ticksPerBar
    let st :=
      if realCurrentBar > st.currentBar then
        let cb := if st.currentBar = -1 then (0 : Int) else st.currentBar
        { st with
          tickAtCurrentBar := st.tickAtCurrentBar + (realCurrentBar - cb) * st.ticksPerBar,
          currentBar := realCurrentBar,
          previousTick := pt2 }
      else { st with previousTick := pt2 }
    (st, r.2)
  else (st, [])

/-- The time-signature value carried by a `TimeSig` event. -/
def Event.tsVal : Event → Option (Nat × Nat)
  | .timeSigE n d _ => some (n, d)
  | _ => none

/-- The chord value carried by a `Chord` event. -/
def Event.chordVal : Event → Option Nat
  | .chordE c _ => some c
  | _ => none

/-- The `Bar` block of `CPWord._add_time_events` (lines 191-219): one `Bar`
token per elapsed bar, carrying the active time signature (the very last
bar takes the signature of the event itself when that event is a
`TimeSig` event). -/
def barPhase (cfg : Config) (st : EncState) (ev : Event) : EncState × List CPTok :=
  let numNewBars :=
    st.barAtLastTsChange + (ev.time - st.tickAtLastTsChange) / st.ticksPerBar - st.currentBar
  if numNewBars ≥ 1 then
    let tsArgBase : Option (Nat × Nat) :=
      if cfg.useTimeSignatures then some st.currentTimeSig else none
    let toks := (List.range numNewBars.toNat).map fun i =>
      let tsArg :=
        if i = numNewBars.toNat - 1 ∧ ev.isTimeSig then ev.tsVal else tsArgBase
      mkBarTok ((st.currentBar + (i : Int) + 1) * st.ticksPerBar) tsArg
    ({ st with
       currentBar := st.currentBar + numNewBars,
       tickAtCurrentBar :=
         st.tickAtLastTsChange
           + (st.currentBar + numNewBars - st.barAtLastTsChange) * st.ticksPerBar },
     toks)
  else (st, [])

/-- The `Position` block of `CPWord._add_time_events` (lines 221-232): a
`Position` token at the event's intra-bar offset, except for `TimeSig`
events, carrying any co-occurring chord and (when enabled) the running
tempo. -/
def posPhase (cfg : Config) (st : EncState) (ev : Event) : List CPTok :=
  if ¬ ev.isTimeSig then
    [mkPosTok ev.time (ev.time - st.tickAtCurrentBar) ev.chordVal
      (if cfg.useTempos then some st.currentTempo else none)]
  else []

/-- The time-signature state update of `CPWord._add_time_events`
(lines 236-248), run after the time blocks: accumulate the bar index
under the old grid, reset the anchor and `ticks_per_bar`, and decrement
`previous_tick` so the next event re-emits a `Position` token. -/
def tsUpdatePhase (p : Params) (st : EncState) (ev : Event) : EncState :=
  match ev with
  | .timeSigE n d t =>
    { st with
      currentTimeSig := (n, d),
      barAtLastTsChange :=
        st.barAtLastTsChange + (t - st.tickAtLastTsChange) / st.ticksPerBar,
      tickAtLastTsChange := t,
      ticksPerBar := computeTicksPerBar n d p.timeDivision,
      previousTick := st.previousTick - 1 }
  | _ => st

/-- One iteration of the `CPWord._add_time_events` loop (lines 149-269) on
one event. `la` holds `(events[e+1].value, events[e+2].value)` for the
`Pitch` branch; it is `some` exactly when the two following events are the
`Velocity` / `Duration` events of a normalizer-shaped stream (spec §4.2
guarantees the fixed triple ordering, so on the normalizer's output this
coincides with the source's `e + 2 < len(events)` bound check). -/
def stepEnc (cfg : Config) (p : Params) (st : EncState) (ev : Event)
    (la : Option (Int × DurTriple)) : EncState × List CPTok :=
  match ev with
  | .programE pr _ => ({ st with currentProgram := some pr }, [])
  | _ =>
    let st :=
      match ev with
      | .tempoE t _ => { st with currentTempo := t }
      | _ => st
    let r :=
      if ev.time ≠ st.previousTick then
        let r1 := restPhase cfg p st ev.time
        let r2 := barPhase cfg r1.1 ev
        let posToks := posPhase cfg r2.1 ev
        ({ r2.1 with previousTick := ev.time }, r1.2 ++ r2.2 ++ posToks)
      else (st, [])
    let st := tsUpdatePhase p r.1 ev
    match ev with
    | .pitchE pt t ne =>
      match la with
      | some vd =>
        ({ st with previousNoteEnd := max st.previousNoteEnd ne },
         r.2 ++ [mkNoteTok t pt vd.1 vd.2 st.currentProgram])
      | none => (st, r.2)
    | .tempoE _ t => ({ st with previousNoteEnd := max st.previousNoteEnd t }, r.2)
    | .timeSigE _ _ t => ({ st with previousNoteEnd := max st.previousNoteEnd t }, r.2)
    | .chordE _ t => ({ st with previousNoteEnd := max st.previousNoteEnd t }, r.2)
    | _ => (st, r.2)

/-- The main loop of `CPWord._add_time_events`, returning the final loop
state together with the emitted tokens. -/
def addTimeEventsGo (cfg : Config) (p : Params) : EncState → List Event → EncState × List CPTok
  | st, [] => (st, [])
  | st, e :: rest =>
    let la : Option (Int × DurTriple) :=
      match rest with
      | .velocityE v _ :: .durationE d _ :: _ => some (v, d)
      | _ => none
    let r := stepEnc cfg p st e la
    let r2 := addTimeEventsGo cfg p r.1 rest
    (r2.1, r.2 ++ r2.2)

/-- The initial `TimeSig` scan of `CPWord._add_time_events`
(lines 116-132): first `TimeSig` event before any note-ish event. -/
def scanFirstTimeSig : List Event → Option (Nat × Nat)
  | [] => none
  | .timeSigE n d _ :: _ => some (n, d)
  | .pitchE _ _ _ :: _ => none
  | .velocityE _ _ :: _ => none
  | .durationE _ _ :: _ => none
  | _ :: rest => scanFirstTimeSig rest

/-- The initial `Tempo` scan of `CPWord._add_time_events`
(lines 135-147). -/
def scanFirstTempo : List Event → Option ℚ
  | [] => none
  | .tempoE t _ :: _ => some t
  | .pitchE _ _ _ :: _ => none
  | .velocityE _ _ :: _ => none
  | .durationE _ _ :: _ => none
  | _ :: rest => scanFirstTempo rest

/-- Initial state of `CPWord._add_time_events` (lines 96-147; the
`log_tempos` configuration is fixed to its default `False`, so the initial
tempo is `default_tempo` unless a tick-0 `Tempo` event overrides it). -/
def initEncState (cfg : Config) (p : Params) (events : List Event) : EncState :=
  let cts : Nat × Nat :=
    if cfg.useTimeSignatures then (scanFirstTimeSig events).getD timeSignatureDefault
    else timeSignatureDefault
  let ctempo : ℚ :=
    if cfg.useTempos then (scanFirstTempo events).getD p.defaultTempo
    else p.defaultTempo
  { currentBar := -1, barAtLastTsChange := 0, previousTick := -1,
    previousNoteEnd := 0, tickAtLastTsChange := 0, tickAtCurrentBar := 0,
    currentTimeSig := cts, currentTempo := ctempo, currentProgram := none,
    ticksPerBar := computeTicksPerBar cts.1 cts.2 p.timeDivision }

/-- `CPWord._add_time_events`. -/
def addTimeEvents (cfg : Config) (p : Params) (events : List Event) : List CPTok :=
  (addTimeEventsGo cfg p (initEncState cfg p events) events).2

/-! ## CPWord decoding (`CPWord._tokens_to_midi`) -/

/-- A symusic `Track`: program number, drum flag and its notes (instrument
names are presentation only and omitted). -/
structure Track where
  program : Int
  isDrum : Bool
  notes : List Note
deriving DecidableEq, Repr

/-- The decoded MIDI (`symusic.Score`): tracks, tempo changes and
time-signature changes. -/
structure Score where
  tracks : List Track
  tempos : List (Int × ℚ)
  timeSigs : List (Int × Nat × Nat)
deriving DecidableEq, Repr

/-- Python's `round(x, 2)` on the rational tempo values of this model:
`⌊q * 100 + 1/2⌋ / 100`, computed on the reduced fraction so that it
evaluates by kernel reduction (the float half-to-even subtleties of
Python's `round` cannot distinguish the two-decimal table values compared
here). -/
def round2 (q : ℚ) : ℚ :=
  mkRat ((200 * q.num + (q.den : Int)) / (2 * (q.den : Int))) 100

/-- `ticks_per_sample = time_division // max(self.config.beat_res.values())`. -/
def tpsOf (p : Params) : Int := p.timeDivision / p.maxBeatRes

/-- Mutable state of `CPWord._tokens_to_midi`: the `tracks` dict (an
insertion-ordered association list keyed by program, `-1` for drums), the
tempo / time-signature accumulators, the time-grid mirror and the
per-sequence instrument of multi-stream mode. -/
structure DecState where
  tracks : List (Int × List Note)
  tempoChanges : List (Int × ℚ)
  timeSigChanges : List (Int × Nat × Nat)
  currentTick : Int
  tickAtLastTsChange : Int
  tickAtCurrentBar : Int
  currentBar : Int
  barAtLastTsChange : Int
  currentProgram : Int
  curIsDrum : Bool
  curNotes : List Note
  previousNoteEnd : Int
  currentTimeSig : Int × Nat × Nat
  ticksPerBar : Int
  outTracks : List Track
deriving DecidableEq, Repr

/-- `check_inst`: ensure the `tracks` dict has an (insertion-ordered) entry
for a program. -/
def checkInst (l : List (Int × List Note)) (k : Int) : List (Int × List Note) :=
  if (l.lookup k).isSome then l else l ++ [(k, [])]

/-- `tracks[prog].notes.append(note)`. -/
def assocAppendNote (l : List (Int × List Note)) (k : Int) (n : Note) :
    List (Int × List Note) :=
  l.map fun e => if e.1 = k then (e.1, e.2 ++ [n]) else e

/-- One iteration of the token loop of `CPWord._tokens_to_midi`
(lines 457-551). `first` is `si == 0`. -/
def decodeStep (cfg : Config) (p : Params) (oneStream : Bool) (first : Bool)
    (st : DecState) (tok : CPTok) : Except String DecState :=
  match tok.family with
  | .note =>
    -- a `"None"` in any of the slots `2:pad_range_idx` skips the token
    match tok.pitch, tok.vel, tok.dur with
    | some pitch, some vel, some dur =>
      if cfg.usePrograms ∧ tok.program = none then .ok st
      else
        let duration := durationToTicks dur p.timeDivision
        let st :=
          if cfg.usePrograms then { st with currentProgram := tok.program.getD 0 }
          else st
        let newNote : Note := ⟨st.currentTick, duration, pitch, vel⟩
        let st :=
          if oneStream then
            let tr := checkInst st.tracks st.currentProgram
            { st with tracks := assocAppendNote tr st.currentProgram newNote }
          else { st with curNotes := st.curNotes ++ [newNote] }
        .ok { st with previousNoteEnd := max st.previousNoteEnd (st.currentTick + duration) }
    | _, _, _ => .ok st
  | .metric => do
    let st' ←
      match tok.barPos with
      | .bar =>
        let currentBar := st.currentBar + 1
        let currentTick :=
          if currentBar > 0 then st.tickAtCurrentBar + st.ticksPerBar else st.currentTick
        let st := { st with currentBar := currentBar, currentTick := currentTick,
                            tickAtCurrentBar := currentTick }
        if cfg.useTimeSignatures then
          match tok.timeSig with
          | none => .error "ValueError: invalid time-signature token"
          | some nd =>
            -- add a new time signature only if different from the last one
            if nd.1 ≠ st.currentTimeSig.2.1 ∨ nd.2 ≠ st.currentTimeSig.2.2 then
              let cts : Int × Nat × Nat := (st.currentTick, nd.1, nd.2)
              .ok { st with
                currentTimeSig := cts,
                timeSigChanges :=
                  if first then st.timeSigChanges ++ [cts] else st.timeSigChanges,
                tickAtLastTsChange := st.tickAtCurrentBar,
                barAtLastTsChange := st.currentBar,
                ticksPerBar := computeTicksPerBar nd.1 nd.2 p.timeDivision }
            else .ok st
        else .ok st
      | .pos v =>
        let currentBar := if st.currentBar = -1 then 0 else st.currentBar
        let currentTick := st.tickAtCurrentBar + v * tpsOf p
        let st := { st with currentBar := currentBar, currentTick := currentTick }
        if cfg.useTempos ∧ first then
          match tok.tempo with
          | none => .error "ValueError: invalid tempo token"
          | some t =>
            match st.tempoChanges.getLast? with
            | none => .error "IndexError: tempo_changes"
            | some last =>
              -- add a new tempo change only if different from the last one
              if t ≠ round2 last.2 ∧ currentTick ≠ last.1 then
                .ok { st with tempoChanges := st.tempoChanges ++ [(currentTick, t)] }
              else .ok st
        else .ok st
      | .ign =>
        if cfg.useRests ∧ tok.rest ≠ none then
          match tok.rest with
          | some r =>
            let ct := max st.previousNoteEnd st.currentTick
            let currentTick := ct + durationToTicks r p.timeDivision
            let realCurrentBar :=
              st.barAtLastTsChange + (currentTick - st.tickAtLastTsChange) / st.ticksPerBar
            let st := { st with currentTick := currentTick }
            if realCurrentBar > st.currentBar then
              let cb := if st.currentBar = -1 then (0 : Int) else st.currentBar
              .ok { st with
                tickAtCurrentBar :=
                  st.tickAtCurrentBar + (realCurrentBar - cb) * st.ticksPerBar,
                currentBar := realCurrentBar }
            else .ok st
          | none => .ok st
        else .ok st
    .ok { st' with previousNoteEnd := max st'.previousNoteEnd st'.currentTick }
  | .padNone => .ok st

/-- The initial time-signature scan over the first sequence
(`CPWord._tokens_to_midi` lines 419-434): the `TimeSig` sub-token of the
first compound token when that token is a `Bar`, scanning over other
`Metric` tokens and stopping at the first non-`Metric` token. -/
def scanSeqFirstTS : List CPTok → Except String (Option (Nat × Nat))
  | [] => .ok none
  | tok :: rest =>
    match tok.family with
    | .metric =>
      match tok.barPos with
      | .bar =>
        match tok.timeSig with
        | none => .error "ValueError: invalid time-signature token"
        | some nd => .ok (some nd)
      | _ => scanSeqFirstTS rest
    | _ => .ok none

/-- Decoding of one token sequence (`si`-th iteration of the sequence loop
of `CPWord._tokens_to_midi`). -/
def decodeSeq (cfg : Config) (p : Params) (progs : Option (List (Int × Bool)))
    (oneStream : Bool) (si : Nat) (st : DecState) (seq : List CPTok) :
    Except String DecState := do
  -- first sequence: seed the time-signature list
  let st ←
    if si = 0 then do
      let st ←
        if cfg.useTimeSignatures then do
          let r ← scanSeqFirstTS seq
          match r with
          | some nd =>
            pure { st with timeSigChanges := st.timeSigChanges ++ [(0, nd.1, nd.2)] }
          | none => pure st
        else pure st
      pure
        (if st.timeSigChanges = [] then
          { st with
            timeSigChanges := [(0, timeSignatureDefault.1, timeSignatureDefault.2)] }
        else st)
    else pure st
  -- current_time_sig = time_signature_changes[0]
  let cts ←
    match st.timeSigChanges.head? with
    | none => Except.error "IndexError: time_signature_changes"
    | some c => pure c
  let st :=
    { st with currentTimeSig := cts,
              ticksPerBar := computeTicksPerBar cts.2.1 cts.2.2 p.timeDivision }
  -- track / time state reset in multi-sequence mode
  let st ←
    if ¬ oneStream then do
      let pr ←
        match progs with
        | none => pure (st.currentProgram, false)
        | some l =>
          match l.get? si with
          | none => Except.error "IndexError: programs"
          | some pi => pure pi
      pure { st with currentTick := 0, tickAtLastTsChange := 0, tickAtCurrentBar := 0,
                     currentBar := -1, barAtLastTsChange := 0, previousNoteEnd := 0,
                     currentProgram := pr.1, curIsDrum := pr.2, curNotes := [] }
    else pure st
  let st ← seq.foldlM (decodeStep cfg p oneStream (si = 0)) st
  if ¬ oneStream then
    pure { st with outTracks := st.outTracks ++ [⟨st.currentProgram, st.curIsDrum, st.curNotes⟩] }
  else pure st

/-- The sequence loop of `CPWord._tokens_to_midi`. -/
def decodeSeqs (cfg : Config) (p : Params) (progs : Option (List (Int × Bool)))
    (oneStream : Bool) : DecState → Nat → List (List CPTok) → Except String DecState
  | st, _, [] => .ok st
  | st, si, s :: rest => do
    let st' ← decodeSeq cfg p progs oneStream si st s
    decodeSeqs cfg p progs oneStream st' (si + 1) rest

/-- Initial state of `CPWord._tokens_to_midi` (lines 395-414): note the
mocked first tempo entry whose tempo is overwritten to `-1`. -/
def initDecState : DecState :=
  { tracks := [], tempoChanges := [(-1, -1)], timeSigChanges := [],
    currentTick := 0, tickAtLastTsChange := 0, tickAtCurrentBar := 0,
    currentBar := -1, barAtLastTsChange := 0, currentProgram := 0,
    curIsDrum := false, curNotes := [], previousNoteEnd := 0,
    currentTimeSig := (0, timeSignatureDefault.1, timeSignatureDefault.2),
    ticksPerBar := 0, outTracks := [] }

/-- Post-processing of the tempo list (`CPWord._tokens_to_midi`
lines 557-566): delete the mocked entry, then fix up the first real
entry against the default tempo. -/
def finishTempos (p : Params) (tcs : List (Int × ℚ)) : List (Int × ℚ) :=
  let tcs := tcs.drop 1
  match tcs with
  | [] => [(0, p.defaultTempo)]
  | first :: rest =>
    if first.1 ≠ 0 ∧ round2 first.2 ≠ p.defaultTempo then
      (0, p.defaultTempo) :: first :: rest
    else if round2 first.2 = p.defaultTempo then (0, first.2) :: rest
    else first :: rest

/-- Turn the one-token-stream `tracks` dict into symusic tracks (program
`-1` becomes the drum track). -/
def tracksOfDict (l : List (Int × List Note)) : List Track :=
  l.map fun e => if e.1 = -1 then ⟨0, true, e.2⟩ else ⟨e.1, false, e.2⟩

/-- `CPWord._tokens_to_midi`. `oneStream` is `self.one_token_stream`
(in which case the source wraps the single sequence in a list, i.e.
`seqs` has exactly one element); `progs` is the `programs` argument. -/
def cpTokensToMidi (cfg : Config) (p : Params) (progs : Option (List (Int × Bool)))
    (oneStream : Bool) (seqs : List (List CPTok)) : Except String Score := do
  if p.timeDivision % p.maxBeatRes ≠ 0 then
    Except.error "ValueError: invalid time division"
  else do
    let st ← decodeSeqs cfg p progs oneStream initDecState 0 seqs
    let tracks := if oneStream then tracksOfDict st.tracks else st.outTracks
    .ok { tracks := tracks, tempos := finishTempos p st.tempoChanges,
          timeSigs := st.timeSigChanges }

/-! ## CPWord token-types graph and validator
(`CPWord._create_token_types_graph`, `CPWord._tokens_errors`) -/

/-- Python dict assignment `d[k] = v`: overwrite in place, or insert at the
end when the key is new. -/
def dictSet (d : List (String × List String)) (k : String) (v : List String) :
    List (String × List String) :=
  if (d.lookup k).isSome then d.map (fun e => if e.1 = k then (e.1, v) else e)
  else d ++ [(k, v)]

/-- Python `d[k] += vs` (key assumed present). -/
def dictAppend (d : List (String × List String)) (k : String) (vs : List String) :
    List (String × List String) :=
  d.map fun e => if e.1 = k then (e.1, e.2 ++ vs) else e

/-- `CPWord._create_token_types_graph`: legal token-type successions,
parameterized by the enabled optional fields (note the `use_chords` entry
for `Rest` is overwritten when `use_rests` is also set, and `"Rest"` is
appended to `Pitch`'s successors once per flag, exactly as in the
source). -/
def cpTokenTypesGraph (cfg : Config) : List (String × List String) :=
  let dic : List (String × List String) :=
    [("Bar", ["Position", "Bar"]), ("Position", ["Pitch"]),
     ("Pitch", ["Pitch", "Bar", "Position"])]
  let dic :=
    if cfg.useChords then
      dictAppend (dictSet dic "Rest" ["Rest", "Position"]) "Pitch" ["Rest"]
    else dic
  let dic :=
    if cfg.useRests then
      dictAppend (dictSet dic "Rest" ["Rest", "Position", "Bar"]) "Pitch" ["Rest"]
    else dic
  let dic :=
    if cfg.useTempos then
      let dic := dictAppend dic "Position" ["Position", "Bar"]
      if cfg.useRests then
        dictAppend (dictAppend dic "Position" ["Rest"]) "Rest" ["Position"]
      else dic
    else dic
  let keys := dic.map Prod.fst
  let dic := dic.map fun e => (e.1, e.2 ++ ["Ignore"])
  dic ++ [("Ignore", keys)]

/-- The `"Type"` names of a compound token's sub-token slots 1.., in list
order (slot 0, the family, is handled separately; optional slots exist
only under their config flag, as in the Python list). -/
def cpFieldNames (cfg : Config) (t : CPTok) : List String :=
  [(match t.barPos with
    | .ign => "Ignore"
    | .bar => "Bar"
    | .pos _ => "Position"),
   if t.pitch.isSome then "Pitch" else "Ignore",
   if t.vel.isSome then "Velocity" else "Ignore",
   if t.dur.isSome then "Duration" else "Ignore"]
  ++ (if cfg.usePrograms then [if t.program.isSome then "Program" else "Ignore"] else [])
  ++ (if cfg.useChords then [if t.chord.isSome then "Chord" else "Ignore"] else [])
  ++ (if cfg.useRests then [if t.rest.isSome then "Rest" else "Ignore"] else [])
  ++ (if cfg.useTempos then [if t.tempo.isSome then "Tempo" else "Ignore"] else [])
  ++ (if cfg.useTimeSignatures then [if t.timeSig.isSome then "TimeSig" else "Ignore"] else [])

/-- `cp_token_type` inside `CPWord._tokens_errors`: the type (and, for
`Position` / `Pitch`, the integer value) of a compound token; for a
`Metric` token with an `Ignore` slot 1, scan the last four slots
(`tok[-i]`, `i = 1..4`) for the first non-`Ignore` type. -/
def cpTokenType (cfg : Config) (t : CPTok) : Except String (String × Option Int) :=
  match t.family with
  | .note =>
    match t.pitch with
    | some pv => .ok ("Pitch", some pv)
    | none => .ok ("Ignore", none)
  | .metric =>
    match t.barPos with
    | .bar => .ok ("Bar", none)
    | .pos v => .ok ("Position", some v)
    | .ign =>
      match ((cpFieldNames cfg t).reverse.take 4).find? (fun s => s != "Ignore") with
      | some nm => .ok (nm, none)
      | none => .error "RuntimeError: no token type found"
  | .padNone => .ok ("PAD", none)

/-- Validator state of `CPWord._tokens_errors`: error count, previous
token type, current position, current program and the per-program
active-pitch dict (keys = `config.programs`). -/
structure CPVState where
  err : Nat
  previousType : String
  currentPos : Int
  program : Int
  currentPitches : List (Int × List Int)

/-- `current_pitches = {p: [] for p in self.config.programs}`. -/
def pitchesReset (cfg : Config) : List (Int × List Int) :=
  cfg.programs.map fun pr => (pr, [])

/-- `current_pitches[program]` (a missing key is a Python `KeyError`). -/
def pitchesGet (l : List (Int × List Int)) (k : Int) : Except String (List Int) :=
  match l.lookup k with
  | some v => .ok v
  | none => .error "KeyError: program"

/-- `current_pitches[program].append(pitch)`. -/
def pitchesAppend (l : List (Int × List Int)) (k : Int) (v : Int) :
    List (Int × List Int) :=
  l.map fun e => if e.1 = k then (e.1, e.2 ++ [v]) else e

/-- One iteration of the `CPWord._tokens_errors` loop over `tokens[1:]`.
(When `use_programs` is set, the source recovers the program number from
the token's `Program` slot through the vocabulary; this is modelled as
reading the slot's value, `none` being an error.) -/
def cpErrStep (cfg : Config) (vst : CPVState) (tok : CPTok) : Except String CPVState := do
  let tv ← cpTokenType cfg tok
  let succ ←
    match (cpTokenTypesGraph cfg).lookup vst.previousType with
    | some s => pure s
    | none => Except.error "KeyError: token types graph"
  if tv.1 ∈ succ then
    if tv.1 = "Bar" then
      pure { vst with previousType := tv.1, currentPos := -1,
                      currentPitches := pitchesReset cfg }
    else if cfg.removeDuplicatedNotes ∧ tv.1 = "Pitch" then do
      let vst ←
        if cfg.usePrograms then
          match tok.program with
          | some pr => pure { vst with program := pr }
          | none => Except.error "ValueError: program token"
        else pure vst
      let pv ←
        match tv.2 with
        | some v => pure v
        | none => Except.error "ValueError: pitch value"
      let cur ← pitchesGet vst.currentPitches vst.program
      if pv ∈ cur then pure { vst with err := vst.err + 1, previousType := tv.1 }
      else
        pure { vst with previousType := tv.1,
                        currentPitches := pitchesAppend vst.currentPitches vst.program pv }
    else if tv.1 = "Position" then do
      let pv ←
        match tv.2 with
        | some v => pure v
        | none => Except.error "ValueError: position value"
      if pv ≤ vst.currentPos ∧ vst.previousType ≠ "Rest" then
        pure { vst with err := vst.err + 1, previousType := tv.1 }
      else
        pure { vst with previousType := tv.1, currentPos := pv,
                        currentPitches := pitchesReset cfg }
    else pure { vst with previousType := tv.1 }
  else pure { vst with err := vst.err + 1, previousType := tv.1 }

/-- `CPWord._tokens_errors` (an empty sequence raises an `IndexError` at
`tokens[0]`). -/
def cpTokensErrors (cfg : Config) (toks : List CPTok) : Except String Nat :=
  match toks with
  | [] => .error "IndexError: empty token sequence"
  | t0 :: rest => do
    let tv ← cpTokenType cfg t0
    let vst ← rest.foldlM (cpErrStep cfg) ⟨0, tv.1, -1, 0, pitchesReset cfg⟩
    pure vst.err

/-! ## MuMIDI (`src/miditok/tokenizations/mumidi.py`) -/

/-- Slot 0 of a MuMIDI pooled token: `Pitch` / `DrumPitch` / `Bar` /
`Position` / `Program` (or a `PAD` / `MASK` special token). A token such
as `"Pitch_None"` carries `none` as its value. -/
inductive MuHead
  | pitchH (pv : Option Int)
  | drumPitchH (pv : Option Int)
  | barH
  | positionH (v : Int)
  | programH (pr : Int)
  | padH
  | maskH
deriving DecidableEq, Repr

/-- The `"Type"` half of the slot-0 token string. -/
def MuHead.typeStr : MuHead → String
  | .pitchH _ => "Pitch"
  | .drumPitchH _ => "DrumPitch"
  | .barH => "Bar"
  | .positionH _ => "Position"
  | .programH _ => "Program"
  | .padH => "PAD"
  | .maskH => "MASK"

/-- The integer value of a slot-0 token, when it has one. -/
def MuHead.val : MuHead → Option Int
  | .pitchH pv => pv
  | .drumPitchH pv => pv
  | .positionH v => some v
  | .programH pr => some pr
  | _ => none

/-- A MuMIDI pooled token. The Python token is a variable-length string
list `[slot0, BarPosEnc, PositionPosEnc (, Tempo)(, Velocity, Duration)]`;
here every possible slot is a field (`none` for `..._None` values and for
slots the token kind does not carry), so `time_step[3]`, `time_step[-2]`
and `time_step[-1]` are the `tempo`, `vel` and `dur` fields. -/
structure MuTok where
  head : MuHead
  barPE : Option Int
  posPE : Option Int
  tempo : Option ℚ
  vel : Option Int
  dur : Option DurTriple
deriving DecidableEq, Repr

/-- Input piece for `MuMIDI._midi_to_tokens`: tracks plus the global tempo
changes (the only global list MuMIDI reads: `use_time_signatures` and
`use_rests` are forced off by `_tweak_config_before_creating_voc`). -/
structure MuPiece where
  tracks : List Track
  tempos : List (Int × ℚ)
deriving DecidableEq, Repr

/-- A pre-insertion note token of `MuMIDI._track_to_tokens`: the
`[Event(Pitch/DrumPitch, value, time, desc), Velocity_v, Duration_d]`
triple (`desc` is the track program, `-1` for drums). -/
structure MuPre where
  isDrum : Bool
  pitch : Int
  time : Int
  desc : Int
  vel : Int
  dur : DurTriple
deriving DecidableEq, Repr

/-- `MuMIDI._track_to_tokens` (the `use_chords` branch is fixed to its
disabled state in this embedding: chord detection is an out-of-scope
external collaborator, spec §1). -/
def muTrackToTokens (p : Params) (tr : Track) : List MuPre :=
  tr.notes.map fun n =>
    let d := nearestDurTriple p n.dur
    if tr.isDrum then ⟨true, n.pitch, n.start, -1, n.vel, d⟩
    else ⟨false, n.pitch, n.start, tr.program, n.vel, d⟩

/-- The sort key of `MuMIDI._midi_to_tokens`:
`key=lambda x: (x[0].time, x[0].desc)` (sort by time then track). -/
def muLe (a b : MuPre) : Bool :=
  decide (a.time < b.time ∨ (a.time = b.time ∧ a.desc ≤ b.desc))

/-- Loop state of `MuMIDI._midi_to_tokens`. -/
structure MuEncState where
  currentTick : Int
  currentBar : Int
  currentPos : Int
  currentTrack : Int
  tempoIdx : Nat
  currentTempo : ℚ
deriving DecidableEq, Repr

/-- The incoming-tempo loop of `MuMIDI._midi_to_tokens` (lines 126-136)
over the slice `midi.tempos[current_tempo_idx + 1:]`: consume the changes
at or before the current time, stop at the first one beyond it. -/
def muTempoLoop (now : Int) : Nat → ℚ → List (Int × ℚ) → Nat × ℚ
  | idx, cur, [] => (idx, cur)
  | idx, cur, tc :: rest =>
    if tc.1 ≤ now then muTempoLoop now (idx + 1) (round2 tc.2) rest
    else (idx, cur)

/-- One iteration of the note-token loop of `MuMIDI._midi_to_tokens`
(lines 123-183): update the tempo, emit `Bar` / `Position` / `Program`
tokens as needed, then the note token with its positional-encoding
fields. `tpb` is `ticks_per_bar = midi.ticks_per_quarter * 4`. -/
def muStep (useTempos : Bool) (p : Params) (tpb : Int) (tempos : List (Int × ℚ))
    (st : MuEncState) (nt : MuPre) : MuEncState × List MuTok :=
  let st :=
    if useTempos ∧ st.tempoIdx + 1 < tempos.length then
      let r := muTempoLoop nt.time (st.tempoIdx) (st.currentTempo) (tempos.drop (st.tempoIdx + 1))
      { st with tempoIdx := r.1, currentTempo := r.2 }
    else st
  let (st, toks1) :=
    if nt.time ≠ st.currentTick then
      let posIdx := (nt.time % tpb) / tpsOf p
      let st := { st with currentTick := nt.time, currentPos := posIdx, currentTrack := -2 }
      let (st, barToks) :=
        if st.currentBar < st.currentTick / tpb then
          let num := st.currentTick / tpb - st.currentBar
          let toks := (List.range num.toNat).map fun i : Nat =>
            ({ head := .barH, barPE := some (st.currentBar + (i : Int) + 1), posPE := none,
               tempo := if useTempos then some st.currentTempo else none,
               vel := none, dur := none } : MuTok)
          ({ st with currentBar := st.currentBar + num }, toks)
        else (st, [])
      let posTok : MuTok :=
        { head := .positionH st.currentPos, barPE := some st.currentBar,
          posPE := some st.currentPos,
          tempo := if useTempos then some st.currentTempo else none,
          vel := none, dur := none }
      (st, barToks ++ [posTok])
    else (st, [])
  let (st, toks2) :=
    if nt.desc ≠ st.currentTrack then
      let st := { st with currentTrack := nt.desc }
      (st,
       [({ head := .programH st.currentTrack, barPE := some st.currentBar,
           posPE := some st.currentPos,
           tempo := if useTempos then some st.currentTempo else none,
           vel := none, dur := none } : MuTok)])
    else (st, [])
  let noteTok : MuTok :=
    { head := if nt.isDrum then .drumPitchH (some nt.pitch) else .pitchH (some nt.pitch),
      barPE := some st.currentBar, posPE := some st.currentPos,
      tempo := if useTempos then some st.currentTempo else none,
      vel := some nt.vel, dur := some nt.dur }
  (st, toks1 ++ toks2 ++ [noteTok])

/-- The note-token loop of `MuMIDI._midi_to_tokens`. -/
def muGo (useTempos : Bool) (p : Params) (tpb : Int) (tempos : List (Int × ℚ)) :
    MuEncState → List MuPre → List MuTok
  | _, [] => []
  | st, nt :: rest =>
    let r := muStep useTempos p tpb tempos st nt
    r.2 ++ muGo useTempos p tpb tempos r.1 rest

/-- `MuMIDI._midi_to_tokens` (token generation; the `BarPosEnc` vocabulary
growth of lines 94-101 is `growBarPosEnc` below and does not influence
the emitted tokens). The input MIDI's `ticks_per_quarter` is the
tokenizer's `time_division`. Reading `midi.tempos[0]` on a piece without
tempo changes is a Python `IndexError`. -/
def muMidiToTokens (cfg : Config) (p : Params) (piece : MuPiece) :
    Except String (List MuTok) := do
  let pre :=
    (piece.tracks.filter fun tr => tr.program ∈ cfg.programs).flatMap (muTrackToTokens p)
  let sorted := pre.mergeSort muLe
  let tpb := p.timeDivision * 4
  let t0 ←
    match piece.tempos.head? with
    | none => Except.error "IndexError: tempos"
    | some t => pure t
  pure (muGo cfg.useTempos p tpb piece.tempos ⟨-1, -1, -1, -2, 0, round2 t0.2⟩ sorted)

/-- Modelled from the spec (§4.5): `add_to_vocab` (base class, not under
`src/`) appends one token string to the end of a sub-vocabulary and never
renumbers existing entries. `MuMIDI._midi_to_tokens` lines 94-101: when a
piece has more bars than `max_bar_embedding`, append
`BarPosEnc_{max_bar_embedding}` .. `BarPosEnc_{num_bars - 1}` to
sub-vocabulary 1 and raise `max_bar_embedding` to `num_bars`. -/
def growBarPosEnc (vocab : List String) (maxBarEmbedding numBars : Nat) :
    List String × Nat :=
  if maxBarEmbedding < numBars then
    (vocab ++ (List.range (numBars - maxBarEmbedding)).map
        (fun i => "BarPosEnc_" ++ toString (maxBarEmbedding + i)),
     numBars)
  else (vocab, maxBarEmbedding)

/-- Loop state of `MuMIDI._tokens_to_midi`. -/
structure MuDecState where
  tempos : List (Int × ℚ)
  tracks : List (Int × List Note)
  currentTick : Int
  currentBar : Int
  currentTrack : Int
deriving DecidableEq, Repr

/-- The tempo-decoding tail of the `MuMIDI._tokens_to_midi` loop
(lines 336-339), run for every token that was not skipped by the
malformed-note `continue`. -/
def muTempoBlock (cfg : Config) (st : MuDecState) (tok : MuTok) :
    Except String MuDecState :=
  if cfg.useTempos then
    match tok.tempo with
    | none => Except.error "ValueError: float"
    | some tv =>
      match st.tempos.getLast? with
      | none => Except.error "IndexError: tempos"
      | some last =>
        if tv ≠ last.2 then .ok { st with tempos := st.tempos ++ [(st.currentTick, tv)] }
        else .ok st
  else .ok st

/-- One iteration of the token loop of `MuMIDI._tokens_to_midi`
(lines 306-339). A note token with a `"None"` velocity or duration hits
`continue`, skipping both the note and the tempo-decoding tail; a note
token with a `"None"` pitch value reaches `int(tok_val)`, a Python
`ValueError`; a note token whose current track has not been announced by
a `Program` token is a Python `KeyError`. -/
def muDecodeStep (cfg : Config) (p : Params) (st : MuDecState) (tok : MuTok) :
    Except String MuDecState := do
  match tok.head with
  | .pitchH pv | .drumPitchH pv =>
    match tok.vel, tok.dur with
    | some v, some d =>
      match pv with
      | none => Except.error "ValueError: int"
      | some pitch => do
        let duration := durationToTicks d p.timeDivision
        let st' ←
          match st.tracks.lookup st.currentTrack with
          | none => Except.error "KeyError: tracks"
          | some _ =>
            pure { st with
              tracks := assocAppendNote st.tracks st.currentTrack
                ⟨st.currentTick, duration, pitch, v⟩ }
        muTempoBlock cfg st' tok
    | _, _ => pure st
  | .barH => do
    let cb := st.currentBar + 1
    muTempoBlock cfg { st with currentBar := cb, currentTick := cb * p.timeDivision * 4 } tok
  | .positionH v => do
    let cb := if st.currentBar = -1 then 0 else st.currentBar
    muTempoBlock cfg
      { st with currentBar := cb,
                currentTick := cb * p.timeDivision * 4 + v * tpsOf p } tok
  | .programH pr => do
    muTempoBlock cfg
      { st with currentTrack := pr,
                tracks := if (st.tracks.lookup pr).isSome then st.tracks
                          else st.tracks ++ [(pr, [])] } tok
  | .padH => muTempoBlock cfg st tok
  | .maskH => muTempoBlock cfg st tok

/-- `MuMIDI._tokens_to_midi`. -/
def muTokensToMidi (cfg : Config) (p : Params) (toks : List MuTok) :
    Except String Score := do
  if p.timeDivision % p.maxBeatRes ≠ 0 then
    Except.error "ValueError: invalid time division"
  else do
    let firstTempo ←
      if cfg.useTempos ∧ toks ≠ [] then
        match toks.head? with
        | some t =>
          match t.tempo with
          | some tv => pure tv
          | none => Except.error "ValueError: float"
        | none => pure p.defaultTempo
      else pure p.defaultTempo
    let st ← toks.foldlM (muDecodeStep cfg p) ⟨[(0, firstTempo)], [], 0, -1, 0⟩
    pure { tracks := st.tracks.map fun e =>
             if e.1 = -1 then ⟨0, true, e.2⟩ else ⟨e.1, false, e.2⟩,
           tempos := st.tempos, timeSigs := [] }

/-! ## MuMIDI token-types graph and validator -/

/-- `MuMIDI._create_token_types_graph`. -/
def muTokenTypesGraph (cfg : Config) : List (String × List String) :=
  let dic : List (String × List String) :=
    [("Bar", ["Bar", "Position"]), ("Position", ["Program"]),
     ("Program", ["Pitch", "DrumPitch"]),
     ("Pitch", ["Pitch", "Program", "Bar", "Position"]),
     ("DrumPitch", ["DrumPitch", "Program", "Bar", "Position"])]
  if cfg.useChords then dictSet (dictAppend dic "Program" ["Chord"]) "Chord" ["Pitch"]
  else dic

/-- Validator state of `MuMIDI._tokens_errors`. -/
structure MuVState where
  err : Nat
  previousType : String
  currentPitches : List Int
  currentBar : Int
  currentPos : Int
deriving DecidableEq, Repr

/-- One iteration of the `MuMIDI._tokens_errors` loop over `tokens[1:]`.
`int(token[1].split("_")[1])` on a `"..._None"` slot 1 is a Python
`ValueError`; the `PAD`/`MASK` test is modelled on the slot-0 token (the
only slot our structured tokens keep special values for) and skips the
`previous_type` update, like the source's `continue`. -/
def muErrStep (cfg : Config) (vst : MuVState) (tok : MuTok) : Except String MuVState := do
  let barValue ←
    match tok.barPE with
    | some b => pure b
    | none => Except.error "ValueError: int"
  let posValue : Int := match tok.posPE with | some v => v | none => -1
  let tokenType := tok.head.typeStr
  if tokenType = "PAD" ∨ tokenType = "MASK" then
    pure { vst with err := vst.err + 1 }
  else do
    let succ ←
      match (muTokenTypesGraph cfg).lookup vst.previousType with
      | some s => pure s
      | none => Except.error "KeyError: token types graph"
    if tokenType ∈ succ then do
      let vst ←
        if tokenType = "Bar" then
          pure { vst with currentBar := vst.currentBar + 1, currentPos := -1,
                          currentPitches := [] }
        else if cfg.removeDuplicatedNotes ∧ tokenType = "Pitch" then do
          let pv ←
            match tok.head.val with
            | some v => pure v
            | none => Except.error "ValueError: int"
          if pv ∈ vst.currentPitches then pure { vst with err := vst.err + 1 }
          else pure { vst with currentPitches := vst.currentPitches ++ [pv] }
        else if tokenType = "Position" then do
          let pv ←
            match tok.head.val with
            | some v => pure v
            | none => Except.error "ValueError: int"
          if pv ≤ vst.currentPos ∨ pv ≠ posValue then pure { vst with err := vst.err + 1 }
          else pure { vst with currentPos := pv, currentPitches := [] }
        else if tokenType = "Program" then pure { vst with currentPitches := [] }
        else pure vst
      let vst :=
        if posValue < vst.currentPos ∨ barValue < vst.currentBar then
          { vst with err := vst.err + 1 }
        else vst
      pure { vst with previousType := tokenType }
    else pure { vst with err := vst.err + 1, previousType := tokenType }

/-- `MuMIDI._tokens_errors`. -/
def muTokensErrors (cfg : Config) (toks : List MuTok) : Except String Nat :=
  match toks with
  | [] => .error "IndexError: empty token sequence"
  | t0 :: rest => do
    let cb ←
      match t0.barPE with
      | some b => pure b
      | none => Except.error "ValueError: int"
    let cp : Int := match t0.posPE with | some v => v | none => -1
    let vst ← rest.foldlM (muErrStep cfg) ⟨0, t0.head.typeStr, [], cb, cp⟩
    pure vst.err

/-! ## Shared concrete instances for the claims -/

/-- CPWord configuration with every optional field disabled
(`use_programs = use_chords = use_rests = use_tempos =
use_time_signatures = False`), duplicate-note removal on, programs
`[0]`. -/
def cfgMin : Config := ⟨false, false, false, false, false, true, [0]⟩

/-- CPWord configuration with time signatures enabled and everything else
off. -/
def cfgTS : Config := ⟨false, false, false, false, true, false, [0]⟩

/-- Parameters with `time_division = 8` ticks per quarter note,
`max(beat_res) = 8` (one tick per position sample), an
eighth/quarter/half duration table and a quarter/half rest table — the
setting of the spec's scenarios. -/
def pStd : Params := ⟨8, 8, [⟨0, 4, 8⟩, ⟨1, 0, 8⟩, ⟨2, 0, 8⟩], [⟨1, 0, 8⟩, ⟨2, 0, 8⟩], 8, 120⟩

/-- Parameters exhibiting a coarse time grid: `time_division = 8` with
`max(beat_res) = 4`, so `ticks_per_sample = 2` and odd start ticks are off
the sampling grid. The single duration-table entry is one beat (8 ticks). -/
def pMu : Params := ⟨8, 4, [⟨1, 0, 4⟩], [], 0, 120⟩

/-- Modelled from the spec (§4.2): the event normalizer (base class, not
under `src/`) turns a track's notes into a time-ordered stream of
`Pitch → Velocity → Duration` triples (fixed ordering), the `Duration`
value quantized to the nearest duration-table entry and the `Pitch`
event's `desc` holding the note's end tick. -/
def eventsOfNotes (p : Params) (notes : List Note) : List Event :=
  notes.flatMap fun n =>
    [.pitchE n.pitch n.start (n.start + n.dur), .velocityE n.vel n.start,
     .durationE (nearestDurTriple p n.dur) n.start]

/-- CPWord configuration with tempos enabled and everything else off. -/
def cfgT : Config := ⟨false, false, false, true, false, false, [0]⟩

/-- CPWord configuration with rests enabled and everything else off. -/
def cfgR : Config := ⟨false, false, true, false, false, false, [0]⟩

/-- The events of the spec's time-signature scenario: a 3/4 time-signature
change at tick 32 (the start of bar 1 of the default 4/4 grid at
`time_division = 8`) followed by a quarter note at tick 40. -/
def evC9 : List Event :=
  [.timeSigE 3 4 32, .pitchE 60 40 48, .velocityE 100 40, .durationE ⟨1, 0, 8⟩ 40]

/-- The four-token input on which `MuMIDI._tokens_errors` counts five
errors: a `Program` token whose `PositionPosEnc` is 5, followed three
times by the same pitch at `PositionPosEnc` 0. -/
def muC3Tokens : List MuTok :=
  [⟨.programH 0, some 0, some 5, none, none, none⟩,
   ⟨.pitchH (some 60), some 0, some 0, none, some 100, some ⟨1, 0, 4⟩⟩,
   ⟨.pitchH (some 60), some 0, some 0, none, some 100, some ⟨1, 0, 4⟩⟩,
   ⟨.pitchH (some 60), some 0, some 0, none, some 100, some ⟨1, 0, 4⟩⟩]

/-- A CPWord `Note`-family compound token whose pitch slot is the absent
placeholder. -/
def cpNoneTok : CPTok :=
  ⟨0, .note, .ign, none, some 100, some ⟨1, 0, 8⟩, none, none, none, none, none⟩

/-- A MuMIDI note token whose velocity slot is the absent placeholder. -/
def muNoneTok : MuTok :=
  ⟨.pitchH (some 60), some 0, some 0, none, none, some ⟨1, 0, 8⟩⟩

/-- A concrete MuMIDI decoder state. -/
def muSt0 : MuDecState := ⟨[(0, 120)], [], 0, -1, 0⟩

/-- CPWord configuration with tempos and time signatures enabled. -/
def cfg6 : Config := ⟨false, false, false, true, true, false, [0]⟩

/-- A first token sequence: one bar in 4/4, tempo 110, one note. -/
def s0w : List CPTok :=
  [mkBarTok 0 (some (4, 4)), mkPosTok 0 0 none (some 110),
   mkNoteTok 0 60 100 ⟨1, 0, 8⟩ none]

/-- Later token sequences carrying a different time signature (3/4) and
tempo (95) that multi-sequence decoding must ignore. -/
def restw : List (List CPTok) :=
  [[mkBarTok 0 (some (3, 4)), mkPosTok 4 4 none (some 95),
    mkNoteTok 4 62 90 ⟨1, 0, 8⟩ none]]

/-- The decoded score of `s0w :: restw`: the second sequence contributes
its notes but neither its tempo nor its time signature. -/
def mW : Score :=
  ⟨[⟨0, false, [⟨0, 8, 60, 100⟩]⟩, ⟨0, false, [⟨4, 8, 62, 90⟩]⟩],
   [(0, 110)], [(0, 4, 4)]⟩

/-! ## Claims -/

/-- C5: once a `BarPosEnc_i` label has an index, the append-only growth of
`MuMIDI._midi_to_tokens` (lines 94-101) never changes the string at any
existing index: the old sub-vocabulary is a prefix of the grown one and
every existing index keeps its string. (Growth is triggered only by
`_midi_to_tokens`; `muTokensToMidi` takes no vocabulary at all, so decode
never grows it.) -/
theorem growBarPosEnc_append_only (vocab : List String) (maxB numB i : Nat)
    (h : i < vocab.length) :
    vocab <+: (growBarPosEnc vocab maxB numB).1 ∧
      (growBarPosEnc vocab maxB numB).1[i]? = vocab[i]? := by
  unfold growBarPosEnc
  split
  · exact ⟨List.prefix_append _ _, List.getElem?_append_left h⟩
  · exact ⟨List.prefix_refl _, rfl⟩

/-- Witness for C5 at the concrete sub-vocabulary `[BarPosEnc_0]`,
`max_bar_embedding = 1`, growing to 3 bars. -/
theorem growBarPosEnc_append_only_witness :
    0 < (["BarPosEnc_0"] : List String).length ∧
      (["BarPosEnc_0"] : List String) <+: (growBarPosEnc ["BarPosEnc_0"] 1 3).1 ∧
      (growBarPosEnc ["BarPosEnc_0"] 1 3).1[0]? = (["BarPosEnc_0"] : List String)[0]? :=
  ⟨by decide, growBarPosEnc_append_only ["BarPosEnc_0"] 1 3 0 (by decide)⟩

/-- C9: in the 4/4 → 3/4 change-at-tick-32 scenario (`time_division = 8`),
the encoder emits two `Bar` tokens and then assigns the note at tick 40
to bar 1 at position 16; after the change `ticks_per_bar = 24`; and
decoding the produced tokens reproduces the note at tick 40 (pitch 60,
velocity 100, 8 ticks), with the decoder also in bar 1 with a 24-tick
bar. -/
theorem timesig_change_scenario :
    addTimeEvents cfgTS pStd evC9 =
      [mkBarTok 0 (some (3, 4)), mkBarTok 24 (some (3, 4)),
       mkPosTok 40 16 none none, mkNoteTok 40 60 100 ⟨1, 0, 8⟩ none] ∧
    (addTimeEventsGo cfgTS pStd (initEncState cfgTS pStd evC9) evC9).1.ticksPerBar = 24 ∧
    (addTimeEventsGo cfgTS pStd (initEncState cfgTS pStd evC9) evC9).1.currentBar = 1 ∧
    cpTokensToMidi cfgTS pStd (some [(0, false)]) false [addTimeEvents cfgTS pStd evC9] =
      .ok ⟨[⟨0, false, [⟨40, 8, 60, 100⟩]⟩], [(0, 120)], [(0, 3, 4)]⟩ ∧
    (decodeSeq cfgTS pStd (some [(0, false)]) false 0 initDecState
        (addTimeEvents cfgTS pStd evC9)).map (fun st => (st.currentBar, st.ticksPerBar)) =
      .ok (1, 24) := by
  decide

/-- C3: `MuMIDI._tokens_errors` can add two errors for a single token (one
from the duplicated-pitch check, one from the positional-encoding
regression check), so — contrary to its own docstring "no more than one
per token" / "should not be higher than the number of tokens" — it
returns 5 errors on this 4-token sequence. -/
theorem mumidi_errors_not_capped :
    muTokensErrors ⟨true, false, false, false, false, true, [0]⟩ muC3Tokens = .ok 5 ∧
      muC3Tokens.length = 4 := by
  decide

/-- C4 counterexample: a MuMIDI `Note`-family token whose pitch sub-field
carries the absent placeholder (`Pitch_None`) is not skipped silently —
`MuMIDI._tokens_to_midi` only screens velocity and duration, then hits
`int("None")`, a `ValueError`. -/
theorem mumidi_pitch_none_not_skipped :
    muTokensToMidi ⟨true, false, false, false, false, false, [0]⟩
      ⟨8, 4, [⟨1, 0, 4⟩], [], 0, 120⟩
      [⟨.pitchH none, some 0, some 0, none, some 100, some ⟨1, 0, 4⟩⟩] =
      .error "ValueError: int" := by
  decide

/-- C4 (amended): a `Note`-family compound token with an absent required
sub-field is skipped silently with the decoder state unchanged — for
CPWord when any of pitch / velocity / duration (and program, when
programs are used) is absent; for MuMIDI when velocity or duration is
absent (an absent MuMIDI pitch instead raises, see the
counterexample). -/
theorem note_none_subfield_skipped
    (cfg : Config) (p : Params) (oneStream first : Bool) (st : DecState) (tok : CPTok)
    (mst : MuDecState) (mtok : MuTok) (pv : Option Int)
    (hfam : tok.family = .note)
    (hnone : tok.pitch = none ∨ tok.vel = none ∨ tok.dur = none ∨
      (cfg.usePrograms = true ∧ tok.program = none))
    (hhead : mtok.head = .pitchH pv ∨ mtok.head = .drumPitchH pv)
    (hmnone : mtok.vel = none ∨ mtok.dur = none) :
    decodeStep cfg p oneStream first st tok = .ok st ∧
      muDecodeStep cfg p mst mtok = .ok mst := by
  constructor
  · unfold decodeStep
    rw [hfam]
    rcases hp : tok.pitch with _ | pv1 <;> rcases hv : tok.vel with _ | vv <;>
        rcases hd : tok.dur with _ | dv <;> simp
    rcases hnone with h | h | h | h
    · simp [hp] at h
    · simp [hv] at h
    · simp [hd] at h
    · simp [h.1, h.2]
  · rcases hhead with h | h <;> unfold muDecodeStep <;> rw [h] <;>
      rcases hv : mtok.vel with _ | vv <;> rcases hd : mtok.dur with _ | dv <;>
      simp <;> first
      | rfl
      | simp [hv, hd] at hmnone

/-- Witness for C4 at a CPWord note token with absent pitch and a MuMIDI
note token with absent velocity. -/
theorem note_none_subfield_skipped_witness :
    cpNoneTok.family = CPFam.note ∧ cpNoneTok.pitch = none ∧ muNoneTok.vel = none ∧
      decodeStep cfgMin pStd false true initDecState cpNoneTok = .ok initDecState ∧
      muDecodeStep cfgMin pStd muSt0 muNoneTok = .ok muSt0 :=
  ⟨rfl, rfl, rfl,
   (note_none_subfield_skipped cfgMin pStd false true initDecState cpNoneTok muSt0 muNoneTok
      (some 60) rfl (Or.inl rfl) (Or.inl rfl) (Or.inl rfl)).1,
   (note_none_subfield_skipped cfgMin pStd false true initDecState cpNoneTok muSt0 muNoneTok
      (some 60) rfl (Or.inl rfl) (Or.inl rfl) (Or.inl rfl)).2⟩

/-- C7: during CPWord decoding, the tempo carried by a `Position` token is
appended to the tempo-change list exactly when its value differs from the
(rounded) last recorded tempo and its tick differs from the last recorded
tick; otherwise the list is unchanged. -/
theorem position_tempo_dedup
    (cfg : Config) (p : Params) (oneStream : Bool) (st : DecState) (tok : CPTok)
    (v : Int) (t : ℚ) (last : Int × ℚ)
    (hfam : tok.family = .metric) (hbp : tok.barPos = .pos v) (htp : tok.tempo = some t)
    (hcfg : cfg.useTempos = true)
    (hlast : st.tempoChanges.getLast? = some last) :
    (decodeStep cfg p oneStream true st tok).map DecState.tempoChanges =
      .ok (if t ≠ round2 last.2 ∧ st.tickAtCurrentBar + v * tpsOf p ≠ last.1 then
             st.tempoChanges ++ [(st.tickAtCurrentBar + v * tpsOf p, t)]
           else st.tempoChanges) := by
  unfold decodeStep
  rw [hfam, hbp]
  simp [htp, hcfg, hlast]
  split <;> rfl

/-- Witness for C7: a `Position` token carrying tempo 110 against the
mocked `(-1, -1)` last entry appends `(0, 110)`. -/
theorem position_tempo_dedup_witness :
    (mkPosTok 0 0 none (some 110)).family = CPFam.metric ∧
      cfgT.useTempos = true ∧
      initDecState.tempoChanges.getLast? = some (-1, -1) ∧
      (decodeStep cfgT pStd false true initDecState (mkPosTok 0 0 none (some 110))).map
          DecState.tempoChanges =
        .ok (if (110 : ℚ) ≠ round2 (-1, (-1 : ℚ)).2 ∧
               initDecState.tickAtCurrentBar + 0 * tpsOf pStd ≠ (-1, (-1 : ℚ)).1 then
               initDecState.tempoChanges ++ [(initDecState.tickAtCurrentBar + 0 * tpsOf pStd, 110)]
             else initDecState.tempoChanges) :=
  ⟨rfl, rfl, rfl,
   position_tempo_dedup cfgT pStd false initDecState (mkPosTok 0 0 none (some 110))
     0 110 (-1, -1) rfl rfl rfl rfl rfl⟩

/-- The `barAtLastTsChange`, `tickAtLastTsChange`, `ticksPerBar`,
`currentTimeSig` and `previousNoteEnd` fields are untouched by the rest
phase of the encoder. -/
theorem restPhase_grid_fields (cfg : Config) (p : Params) (st : EncState) (t : Int) :
    (restPhase cfg p st t).1.barAtLastTsChange = st.barAtLastTsChange ∧
    (restPhase cfg p st t).1.tickAtLastTsChange = st.tickAtLastTsChange ∧
    (restPhase cfg p st t).1.ticksPerBar = st.ticksPerBar ∧
    (restPhase cfg p st t).1.currentTimeSig = st.currentTimeSig ∧
    (restPhase cfg p st t).1.previousNoteEnd = st.previousNoteEnd := by
  unfold restPhase
  split
  · dsimp only
    refine ⟨?_, ?_, ?_, ?_, ?_⟩ <;> (repeat' split) <;> rfl
  · simp

/-- Every token emitted by the rest phase is a `Rest` compound token
(slot 1 carries `Ignore_None`, in particular it is not a `Bar` and not a
`Position` token). -/
theorem restPhase_toks_rest (cfg : Config) (p : Params) (st : EncState) (t : Int) :
    ∀ tok ∈ (restPhase cfg p st t).2, tok.barPos = CPBarPos.ign := by
  unfold restPhase
  split
  · have key : ∀ (l : List (DurTriple × Int)) (a : Int) (acc : List CPTok),
        (∀ tok ∈ acc, tok.barPos = CPBarPos.ign) →
        ∀ tok ∈ (l.foldl
            (fun (acc : Int × List CPTok) dv => (acc.1 + dv.2, acc.2 ++ [mkRestTok acc.1 dv.1]))
            (a, acc)).2, tok.barPos = CPBarPos.ign := by
      intro l
      induction l with
      | nil => intro a acc h; simpa using h
      | cons hd tl ih =>
        intro a acc h
        simp only [List.foldl_cons]
        refine ih _ _ ?_
        intro tok htok
        rcases List.mem_append.mp htok with h1 | h1
        · exact h tok h1
        · simp at h1; subst h1; rfl
    split <;> exact fun tok htok => key _ _ _ (by simp) tok htok
  · simp

/-- The `barAtLastTsChange`, `tickAtLastTsChange`, `ticksPerBar` and
`previousNoteEnd` fields are untouched by the bar phase of the
encoder. -/
theorem barPhase_fields (cfg : Config) (st : EncState) (ev : Event) :
    (barPhase cfg st ev).1.barAtLastTsChange = st.barAtLastTsChange ∧
    (barPhase cfg st ev).1.tickAtLastTsChange = st.tickAtLastTsChange ∧
    (barPhase cfg st ev).1.ticksPerBar = st.ticksPerBar ∧
    (barPhase cfg st ev).1.previousNoteEnd = st.previousNoteEnd := by
  unfold barPhase
  dsimp only
  refine ⟨?_, ?_, ?_, ?_⟩ <;> (repeat' split) <;> rfl

/-- Every token emitted by the bar phase is a `Bar` compound token. -/
theorem barPhase_toks_bar (cfg : Config) (st : EncState) (ev : Event) :
    ∀ tok ∈ (barPhase cfg st ev).2, tok.barPos = CPBarPos.bar := by
  unfold barPhase
  dsimp only
  split
  · intro tok htok
    simp only [List.mem_map] at htok
    obtain ⟨i, _, rfl⟩ := htok
    rfl
  · simp

/-- Characterization of one encoder step on a `TimeSig` event at a new
tick: rest and bar phases run first (under the old grid), no `Position`
token is emitted, then the grid state is updated and `previousTick` is
set to the event tick and decremented. -/
theorem stepEnc_timeSig (cfg : Config) (p : Params) (st : EncState) (n d : Nat) (t : Int)
    (la : Option (Int × DurTriple)) (hne : t ≠ st.previousTick) :
    stepEnc cfg p st (.timeSigE n d t) la =
      ({ tsUpdatePhase p
           { (barPhase cfg (restPhase cfg p st t).1 (.timeSigE n d t)).1 with previousTick := t }
           (.timeSigE n d t) with
         previousNoteEnd :=
           max (tsUpdatePhase p
             { (barPhase cfg (restPhase cfg p st t).1 (.timeSigE n d t)).1 with previousTick := t }
             (.timeSigE n d t)).previousNoteEnd t },
       (restPhase cfg p st t).2 ++ (barPhase cfg (restPhase cfg p st t).1 (.timeSigE n d t)).2) := by
  unfold stepEnc
  simp only [Event.time, posPhase, Event.isTimeSig]
  rw [if_pos hne]
  simp

/-- C8: an encoder step on a `TimeSig` event emits no `Position` token,
leaves `previousTick` at the event tick minus one, and only after the
bar/position emission for the event's own tick has run (so the bar
accumulation divides by the old `ticks_per_bar`, and `currentBar` /
`tickAtCurrentBar` are exactly the bar phase's results under the old
grid) updates the grid to the new signature. -/
theorem timesig_event_step
    (cfg : Config) (p : Params) (st : EncState) (n d : Nat) (t : Int)
    (la : Option (Int × DurTriple)) (hne : t ≠ st.previousTick) :
    (∀ tok ∈ (stepEnc cfg p st (.timeSigE n d t) la).2, ∀ v, tok.barPos ≠ CPBarPos.pos v) ∧
    (stepEnc cfg p st (.timeSigE n d t) la).1.previousTick = t - 1 ∧
    (stepEnc cfg p st (.timeSigE n d t) la).1.tickAtLastTsChange = t ∧
    (stepEnc cfg p st (.timeSigE n d t) la).1.currentTimeSig = (n, d) ∧
    (stepEnc cfg p st (.timeSigE n d t) la).1.ticksPerBar =
      computeTicksPerBar n d p.timeDivision ∧
    (stepEnc cfg p st (.timeSigE n d t) la).1.barAtLastTsChange =
      st.barAtLastTsChange + (t - st.tickAtLastTsChange) / st.ticksPerBar ∧
    (stepEnc cfg p st (.timeSigE n d t) la).1.currentBar =
      (barPhase cfg (restPhase cfg p st t).1 (.timeSigE n d t)).1.currentBar ∧
    (stepEnc cfg p st (.timeSigE n d t) la).1.tickAtCurrentBar =
      (barPhase cfg (restPhase cfg p st t).1 (.timeSigE n d t)).1.tickAtCurrentBar := by
  have hrest := restPhase_grid_fields cfg p st t
  have hbar := barPhase_fields cfg (restPhase cfg p st t).1 (Event.timeSigE n d t)
  rw [stepEnc_timeSig cfg p st n d t la hne]
  refine ⟨?_, ?_, ?_, ?_, ?_, ?_, ?_, ?_⟩
  · intro tok htok v
    rcases List.mem_append.mp htok with h1 | h1
    · rw [restPhase_toks_rest cfg p st t tok h1]; simp
    · rw [barPhase_toks_bar _ _ _ tok h1]; simp
  · simp [tsUpdatePhase]
  · simp [tsUpdatePhase]
  · simp [tsUpdatePhase]
  · simp [tsUpdatePhase]
  · simp [tsUpdatePhase, hbar.1, hbar.2.1, hbar.2.2.1, hrest.1, hrest.2.1, hrest.2.2.1]
  · simp [tsUpdatePhase]
  · simp [tsUpdatePhase]

/-- Witness for C8 at the initial encoder state and a 3/4 change at
tick 32. -/
theorem timesig_event_step_witness :
    (32 : Int) ≠ (initEncState cfgTS pStd []).previousTick ∧
    ((∀ tok ∈ (stepEnc cfgTS pStd (initEncState cfgTS pStd []) (.timeSigE 3 4 32) none).2,
        ∀ v, tok.barPos ≠ CPBarPos.pos v) ∧
     (stepEnc cfgTS pStd (initEncState cfgTS pStd []) (.timeSigE 3 4 32) none).1.previousTick = 31 ∧
     (stepEnc cfgTS pStd (initEncState cfgTS pStd []) (.timeSigE 3 4 32) none).1.tickAtLastTsChange = 32 ∧
     (stepEnc cfgTS pStd (initEncState cfgTS pStd []) (.timeSigE 3 4 32) none).1.currentTimeSig = (3, 4) ∧
     (stepEnc cfgTS pStd (initEncState cfgTS pStd []) (.timeSigE 3 4 32) none).1.ticksPerBar =
       computeTicksPerBar 3 4 pStd.timeDivision ∧
     (stepEnc cfgTS pStd (initEncState cfgTS pStd []) (.timeSigE 3 4 32) none).1.barAtLastTsChange =
       (initEncState cfgTS pStd []).barAtLastTsChange +
         (32 - (initEncState cfgTS pStd []).tickAtLastTsChange) /
           (initEncState cfgTS pStd []).ticksPerBar ∧
     (stepEnc cfgTS pStd (initEncState cfgTS pStd []) (.timeSigE 3 4 32) none).1.currentBar =
       (barPhase cfgTS (restPhase cfgTS pStd (initEncState cfgTS pStd []) 32).1
         (.timeSigE 3 4 32)).1.currentBar ∧
     (stepEnc cfgTS pStd (initEncState cfgTS pStd []) (.timeSigE 3 4 32) none).1.tickAtCurrentBar =
       (barPhase cfgTS (restPhase cfgTS pStd (initEncState cfgTS pStd []) 32).1
         (.timeSigE 3 4 32)).1.tickAtCurrentBar) := by
  have h32 : (32 : Int) ≠ (initEncState cfgTS pStd []).previousTick := by decide
  have happ := timesig_event_step cfgTS pStd (initEncState cfgTS pStd []) 3 4 32 none h32
  have h31 : (32 : Int) - 1 = 31 := by decide
  exact ⟨h32, happ.1, h31 ▸ happ.2.1, happ.2.2.1, happ.2.2.2.1, happ.2.2.2.2.1,
    happ.2.2.2.2.2.1, happ.2.2.2.2.2.2⟩

/-- The emitted-token list of the rest fold, projected to the `Rest`
slot: one token per consumed table entry, in order. -/
theorem restFold_rests (l : List (DurTriple × Int)) (a : Int) (acc : List CPTok) :
    (l.foldl (fun (acc : Int × List CPTok) dv => (acc.1 + dv.2, acc.2 ++ [mkRestTok acc.1 dv.1]))
      (a, acc)).2.map CPTok.rest = acc.map CPTok.rest ++ l.map (fun dv => some dv.1) := by
  induction l generalizing a acc with
  | nil => simp
  | cons hd tl ih =>
    simp only [List.foldl_cons, ih, List.map_append, List.map_cons, List.map_nil]
    simp [mkRestTok, createCPToken]

/-- The rest fold advances `previous_tick` by the sum of the consumed
entries' tick lengths. -/
theorem restFold_fst (l : List (DurTriple × Int)) (a : Int) (acc : List CPTok) :
    (l.foldl (fun (acc : Int × List CPTok) dv => (acc.1 + dv.2, acc.2 ++ [mkRestTok acc.1 dv.1]))
      (a, acc)).1 = a + (l.map Prod.snd).sum := by
  induction l generalizing a acc with
  | nil => simp
  | cons hd tl ih => simp [ih]; ring

/-- The greedy-pick fold returns an entry at least as long as its
accumulator and as any qualifying (`≤ gap`) table member. -/
theorem pick_fold_dom (gap : Int) (l : List (DurTriple × Int)) :
    ∀ (acc : Option (DurTriple × Int)) (e : DurTriple × Int),
      (acc = some e ∨ (e ∈ l ∧ e.2 ≤ gap)) →
      ∃ r, (l.foldl
        (fun acc e =>
          if e.2 ≤ gap then
            match acc with
            | none => some e
            | some b => if e.2 > b.2 then some e else some b
          else acc) acc) = some r ∧ e.2 ≤ r.2 := by
  induction l with
  | nil =>
    intro acc e h
    rcases h with h | h
    · exact ⟨e, by simp [h], le_refl _⟩
    · simp at h
  | cons hd tl ih =>
    intro acc e h
    simp only [List.foldl_cons]
    rcases h with h | ⟨hmem, hle⟩
    · subst h
      have hres : ∃ c, (if hd.2 ≤ gap then
            match some e with
            | none => some hd
            | some b => if hd.2 > b.2 then some hd else some b
          else some e) = some c ∧ e.2 ≤ c.2 := by
        by_cases h1 : hd.2 ≤ gap
        · rw [if_pos h1]
          by_cases h2 : hd.2 > e.2
          · exact ⟨hd, by simp [h2], le_of_lt h2⟩
          · exact ⟨e, by simp [h2], le_refl _⟩
        · exact ⟨e, by rw [if_neg h1], le_refl _⟩
      obtain ⟨c, hc, hec⟩ := hres
      rw [hc]
      obtain ⟨r, hr, hcr⟩ := ih (some c) c (Or.inl rfl)
      exact ⟨r, hr, le_trans hec hcr⟩
    · rcases List.mem_cons.mp hmem with heq | hmemtl
      · subst heq
        have hres : ∃ c, (if e.2 ≤ gap then
              match acc with
              | none => some e
              | some b => if e.2 > b.2 then some e else some b
            else acc) = some c ∧ e.2 ≤ c.2 := by
          rw [if_pos hle]
          cases acc with
          | none => exact ⟨e, rfl, le_refl _⟩
          | some b =>
            by_cases h2 : e.2 > b.2
            · exact ⟨e, by simp [h2], le_refl _⟩
            · exact ⟨b, by simp [h2], le_of_not_lt h2⟩
        obtain ⟨c, hc, hec⟩ := hres
        rw [hc]
        obtain ⟨r, hr, hcr⟩ := ih (some c) c (Or.inl rfl)
        exact ⟨r, hr, le_trans hec hcr⟩
      · exact ih _ e (Or.inr ⟨hmemtl, hle⟩)

/-- When a table entry fits the gap, the greedy pick returns an at least
as long entry. -/
theorem pickLargestLE_some (tbl : List (DurTriple × Int)) (gap : Int) (e : DurTriple × Int)
    (he : e ∈ tbl) (hle : e.2 ≤ gap) :
    ∃ r, pickLargestLE tbl gap = some r ∧ e.2 ≤ r.2 :=
  pick_fold_dom gap tbl none e (Or.inr ⟨he, hle⟩)

/-- With a positive fitting table entry and fuel, the greedy decomposition
is nonempty. -/
theorem greedyDecompose_ne_nil (tbl : List (DurTriple × Int)) (gap : Int) (fuel : Nat)
    (e : DurTriple × Int) (he : e ∈ tbl) (hpos : 0 < e.2) (hle : e.2 ≤ gap)
    (hfuel : 0 < fuel) :
    greedyDecompose tbl fuel gap ≠ [] := by
  obtain ⟨f, rfl⟩ : ∃ f, fuel = f + 1 := ⟨fuel - 1, by omega⟩
  obtain ⟨r, hr, her⟩ := pickLargestLE_some tbl gap e he hle
  unfold greedyDecompose
  rw [hr]
  have hnr : ¬ r.2 ≤ 0 := by omega
  simp [hnr]

/-- C10: with rests enabled (and a positive rest-table entry at most the
minimum-rest threshold, which holds for any real rest table since
`_min_rest` is itself a table value), the rest phase emits nothing and
leaves the state untouched when the gap between the event's tick and the
previous note's end is below the threshold; when the gap reaches the
threshold, it emits at least one `Rest` token, exactly one token per
greedy-table entry consumed (in table-consumption order), never a `Bar`
token, consumes the gap starting from the previous note's end, and moves
the `currentBar` cursor to the bar reached by the consumed rests. (The
rest phase runs inside `stepEnc` only on a tick change from the previous
event.) -/
theorem rest_emission
    (cfg : Config) (p : Params) (st : EncState) (t : Int)
    (hr : cfg.useRests = true)
    (htbl : ∃ e ∈ restsTicksTable p, 0 < e.2 ∧ e.2 ≤ p.minRest)
    (hmin : 0 < p.minRest) :
    ((t - st.previousNoteEnd < p.minRest) → restPhase cfg p st t = (st, [])) ∧
    ((p.minRest ≤ t - st.previousNoteEnd) →
      ((restPhase cfg p st t).2 ≠ [] ∧
       (restPhase cfg p st t).2.map CPTok.rest =
         (ticksToRestTokens p (t - st.previousNoteEnd)).map (fun dv => some dv.1) ∧
       (∀ tok ∈ (restPhase cfg p st t).2, tok.barPos = CPBarPos.ign) ∧
       (restPhase cfg p st t).1.previousTick =
         st.previousNoteEnd + ((ticksToRestTokens p (t - st.previousNoteEnd)).map Prod.snd).sum ∧
       (restPhase cfg p st t).1.currentBar =
         max st.currentBar
           (st.barAtLastTsChange +
             ((restPhase cfg p st t).1.previousTick - st.tickAtLastTsChange) / st.ticksPerBar))) := by
  constructor
  · intro hlt
    unfold restPhase
    rw [if_neg]
    intro hcond
    omega
  · intro hge
    have hcond : (cfg.useRests : Prop) ∧ t - st.previousNoteEnd ≥ p.minRest := by
      constructor
      · simp [hr]
      · exact hge
    have hne := restPhase_toks_rest cfg p st t
    have hmap :
        (restPhase cfg p st t).2.map CPTok.rest =
          (ticksToRestTokens p (t - st.previousNoteEnd)).map (fun dv => some dv.1) := by
      unfold restPhase
      rw [if_pos hcond]
      dsimp only
      have := restFold_rests (ticksToRestTokens p (t - st.previousNoteEnd)) st.previousNoteEnd []
      simpa using this
    have hnonnil : (restPhase cfg p st t).2 ≠ [] := by
      intro hnil
      rw [hnil] at hmap
      obtain ⟨e, he, hpos, hle⟩ := htbl
      have hnn : ticksToRestTokens p (t - st.previousNoteEnd) ≠ [] := by
        apply greedyDecompose_ne_nil _ _ _ e he hpos (by omega)
        omega
      simp at hmap
      exact hnn hmap
    have hpt :
        (restPhase cfg p st t).1.previousTick =
          st.previousNoteEnd + ((ticksToRestTokens p (t - st.previousNoteEnd)).map Prod.snd).sum := by
      unfold restPhase
      rw [if_pos hcond]
      dsimp only
      have := restFold_fst (ticksToRestTokens p (t - st.previousNoteEnd)) st.previousNoteEnd []
      split <;> simpa using this
    refine ⟨hnonnil, hmap, hne, hpt, ?_⟩
    rw [hpt]
    unfold restPhase
    rw [if_pos hcond]
    dsimp only
    rw [restFold_fst]
    split
    · next hgt =>
      simp only []
      rw [max_eq_right (le_of_lt hgt)]
    · next hgt =>
      rw [max_eq_left (le_of_not_lt hgt)]

/-- Witness for C10 at the initial encoder state and an event at tick 16
(a two-quarter-note gap, `min_rest = 8` ticks). -/
theorem rest_emission_witness :
    cfgR.useRests = true ∧ 0 < pStd.minRest ∧
    (((16 : Int) - (initEncState cfgR pStd []).previousNoteEnd < pStd.minRest →
        restPhase cfgR pStd (initEncState cfgR pStd []) 16 = (initEncState cfgR pStd [], [])) ∧
     (pStd.minRest ≤ (16 : Int) - (initEncState cfgR pStd []).previousNoteEnd →
       ((restPhase cfgR pStd (initEncState cfgR pStd []) 16).2 ≠ [] ∧
        (restPhase cfgR pStd (initEncState cfgR pStd []) 16).2.map CPTok.rest =
          (ticksToRestTokens pStd (16 - (initEncState cfgR pStd []).previousNoteEnd)).map
            (fun dv => some dv.1) ∧
        (∀ tok ∈ (restPhase cfgR pStd (initEncState cfgR pStd []) 16).2,
          tok.barPos = CPBarPos.ign) ∧
        (restPhase cfgR pStd (initEncState cfgR pStd []) 16).1.previousTick =
          (initEncState cfgR pStd []).previousNoteEnd +
            ((ticksToRestTokens pStd (16 - (initEncState cfgR pStd []).previousNoteEnd)).map
              Prod.snd).sum ∧
        (restPhase cfgR pStd (initEncState cfgR pStd []) 16).1.currentBar =
          max (initEncState cfgR pStd []).currentBar
            ((initEncState cfgR pStd []).barAtLastTsChange +
              ((restPhase cfgR pStd (initEncState cfgR pStd []) 16).1.previousTick -
                (initEncState cfgR pStd []).tickAtLastTsChange) /
                (initEncState cfgR pStd []).ticksPerBar)))) :=
  ⟨rfl, by decide,
   rest_emission cfgR pStd (initEncState cfgR pStd []) 16 rfl (by decide) (by decide)⟩

/-- A CPWord decode step of a non-first sequence (`si > 0`) never touches
the tempo-change or time-signature-change accumulators. -/
theorem decodeStep_not_first (cfg : Config) (p : Params) (oneStream : Bool)
    (st : DecState) (tok : CPTok) (st' : DecState)
    (h : decodeStep cfg p oneStream false st tok = .ok st') :
    st'.tempoChanges = st.tempoChanges ∧ st'.timeSigChanges = st.timeSigChanges := by
  obtain ⟨time, fam, bp, pitch, vel, dur, prog, chord, rst, tmp, ts⟩ := tok
  cases fam
  case padNone =>
    simp only [decodeStep] at h
    cases h; exact ⟨rfl, rfl⟩
  case note =>
    cases pitch <;> cases vel <;> cases dur <;> simp only [decodeStep] at h
    case none.none.none => cases h; exact ⟨rfl, rfl⟩
    case none.none.some => cases h; exact ⟨rfl, rfl⟩
    case none.some.none => cases h; exact ⟨rfl, rfl⟩
    case none.some.some => cases h; exact ⟨rfl, rfl⟩
    case some.none.none => cases h; exact ⟨rfl, rfl⟩
    case some.none.some => cases h; exact ⟨rfl, rfl⟩
    case some.some.none => cases h; exact ⟨rfl, rfl⟩
    case some.some.some =>
      by_cases hpn : (cfg.usePrograms : Prop) ∧ prog = none
      · rw [if_pos hpn] at h
        cases h; exact ⟨rfl, rfl⟩
      · rw [if_neg hpn] at h
        cases h
        constructor <;> (repeat' split) <;> rfl
  case metric =>
    cases bp
    case ign =>
      cases rst <;> simp only [decodeStep] at h
      case none =>
        rw [if_neg (by rintro ⟨-, hc⟩; exact hc rfl)] at h
        cases h; exact ⟨rfl, rfl⟩
      case some =>
        split at h
        · split at h <;> (cases h; exact ⟨rfl, rfl⟩)
        · cases h; exact ⟨rfl, rfl⟩
    case bar =>
      cases ts <;> simp only [decodeStep] at h
      case none =>
        split at h
        · cases h
        · cases h; exact ⟨rfl, rfl⟩
      case some =>
        split at h
        · split at h <;> (cases h; exact ⟨rfl, rfl⟩)
        · cases h; exact ⟨rfl, rfl⟩
    case pos =>
      simp only [decodeStep] at h
      split at h
      · next hcond => simp at hcond
      · cases h; exact ⟨rfl, rfl⟩

/-- Bind on an `Except.ok` reduces to the continuation. -/
theorem exceptOk_bind {e a b : Type} (x : a) (f : a → Except e b) :
    (Except.ok x : Except e a) >>= f = f x := rfl

/-- Bind on an `Except.error` is that error. -/
theorem exceptError_bind {e a b : Type} (err : e) (f : a → Except e b) :
    (Except.error err : Except e a) >>= f = Except.error err := rfl

/-- The token fold of a non-first sequence preserves the tempo and
time-signature accumulators. -/
theorem decodeFold_not_first (cfg : Config) (p : Params) (oneStream : Bool)
    (first : Bool) (hfirst : first = false) :
    ∀ (toks : List CPTok) (st st' : DecState),
      List.foldlM (decodeStep cfg p oneStream first) st toks = .ok st' →
      st'.tempoChanges = st.tempoChanges ∧ st'.timeSigChanges = st.timeSigChanges := by
  subst hfirst
  intro toks
  induction toks with
  | nil => intro st st' h; cases h; exact ⟨rfl, rfl⟩
  | cons hd tl ih =>
    intro st st' h
    rw [List.foldlM_cons] at h
    cases hstep : decodeStep cfg p oneStream false st hd with
    | error e => rw [hstep] at h; cases h
    | ok st1 =>
      rw [hstep] at h
      obtain ⟨h1, h2⟩ := decodeStep_not_first cfg p oneStream st hd st1 hstep
      obtain ⟨h3, h4⟩ := ih st1 st' h
      exact ⟨h3.trans h1, h4.trans h2⟩

/-- Decoding a whole non-first sequence preserves the tempo and
time-signature accumulators. -/
theorem decodeSeq_not_first (cfg : Config) (p : Params)
    (progs : Option (List (Int × Bool))) (oneStream : Bool) (si : Nat)
    (st : DecState) (seq : List CPTok) (st' : DecState)
    (hsi : si ≠ 0)
    (h : decodeSeq cfg p progs oneStream si st seq = .ok st') :
    st'.tempoChanges = st.tempoChanges ∧ st'.timeSigChanges = st.timeSigChanges := by
  unfold decodeSeq at h
  rw [if_neg hsi] at h
  simp only [pure_bind] at h
  cases hh : st.timeSigChanges.head? with
  | none =>
    rw [hh] at h
    cases h
  | some c =>
    rw [hh] at h
    simp only [pure_bind] at h
    by_cases hos : (oneStream : Prop)
    · rw [if_neg (by simp [hos])] at h
      cases hfold : List.foldlM (decodeStep cfg p oneStream (decide (si = 0)))
          { st with currentTimeSig := c,
                    ticksPerBar := computeTicksPerBar c.2.1 c.2.2 p.timeDivision } seq with
      | error e => rw [hfold] at h; cases h
      | ok st1 =>
        rw [hfold] at h
        simp only [exceptOk_bind] at h
        rw [if_neg (by simp [hos])] at h
        cases h
        have := decodeFold_not_first cfg p oneStream (decide (si = 0))
          (by simp [hsi]) seq _ _ hfold
        exact this
    · rw [if_pos (by simpa using hos)] at h
      cases hpr : progs with
      | none =>
        rw [hpr] at h
        simp only [] at h
        cases hfold : List.foldlM (decodeStep cfg p oneStream (decide (si = 0)))
            { st with currentTimeSig := c,
                      ticksPerBar := computeTicksPerBar c.2.1 c.2.2 p.timeDivision,
                      currentTick := 0, tickAtLastTsChange := 0, tickAtCurrentBar := 0,
                      currentBar := -1, barAtLastTsChange := 0, previousNoteEnd := 0,
                      currentProgram := st.currentProgram, curIsDrum := false,
                      curNotes := [] } seq with
        | error e => rw [hfold] at h; cases h
        | ok st1 =>
          rw [hfold] at h
          simp only [exceptOk_bind] at h
          rw [if_pos (by simpa using hos)] at h
          cases h
          have := decodeFold_not_first cfg p oneStream (decide (si = 0))
            (by simp [hsi]) seq _ _ hfold
          exact this
      | some l =>
        rw [hpr] at h
        simp only [] at h
        cases hg : l.get? si with
        | none => rw [hg] at h; simp only [] at h; cases h
        | some pi =>
          rw [hg] at h
          simp only [pure_bind] at h
          cases hfold : List.foldlM (decodeStep cfg p oneStream (decide (si = 0)))
              { st with currentTimeSig := c,
                        ticksPerBar := computeTicksPerBar c.2.1 c.2.2 p.timeDivision,
                        currentTick := 0, tickAtLastTsChange := 0, tickAtCurrentBar := 0,
                        currentBar := -1, barAtLastTsChange := 0, previousNoteEnd := 0,
                        currentProgram := pi.1, curIsDrum := pi.2,
                        curNotes := [] } seq with
          | error e => rw [hfold] at h; cases h
          | ok st1 =>
            rw [hfold] at h
            simp only [exceptOk_bind] at h
            rw [if_pos (by simpa using hos)] at h
            cases h
            have := decodeFold_not_first cfg p oneStream (decide (si = 0))
              (by simp [hsi]) seq _ _ hfold
            exact this

/-- The sequence loop, started past the first sequence, preserves the
tempo and time-signature accumulators. -/
theorem decodeSeqs_not_first (cfg : Config) (p : Params)
    (progs : Option (List (Int × Bool))) (oneStream : Bool) :
    ∀ (seqs : List (List CPTok)) (si : Nat) (st st' : DecState), si ≠ 0 →
      decodeSeqs cfg p progs oneStream st si seqs = .ok st' →
      st'.tempoChanges = st.tempoChanges ∧ st'.timeSigChanges = st.timeSigChanges := by
  intro seqs
  induction seqs with
  | nil =>
    intro si st st' _ h
    cases h; exact ⟨rfl, rfl⟩
  | cons s rest ih =>
    intro si st st' hsi h
    unfold decodeSeqs at h
    cases hstep : decodeSeq cfg p progs oneStream si st s with
    | error e => rw [hstep] at h; cases h
    | ok st1 =>
      rw [hstep] at h
      simp only [exceptOk_bind] at h
      obtain ⟨h1, h2⟩ := decodeSeq_not_first cfg p progs oneStream si st s st1 hsi hstep
      obtain ⟨h3, h4⟩ := ih (si + 1) st1 st' (by omega) h
      exact ⟨h3.trans h1, h4.trans h2⟩

/-- C6: when CPWord decodes multiple token sequences (multi-stream mode),
the output's tempo-change and time-signature-change lists are exactly
those obtained from the first sequence alone: sequences with index
greater than 0 add no entries. -/
theorem multiseq_tempo_timesig_from_first_only
    (cfg : Config) (p : Params) (progs : Option (List (Int × Bool)))
    (s0 : List CPTok) (rest : List (List CPTok)) (m : Score)
    (h : cpTokensToMidi cfg p progs false (s0 :: rest) = .ok m) :
    ∃ m0, cpTokensToMidi cfg p progs false [s0] = .ok m0 ∧
      m.tempos = m0.tempos ∧ m.timeSigs = m0.timeSigs := by
  unfold cpTokensToMidi at h ⊢
  split at h
  · cases h
  · next hdiv =>
    rw [if_neg hdiv]
    unfold decodeSeqs at h
    cases h0 : decodeSeq cfg p progs false 0 initDecState s0 with
    | error e => rw [h0] at h; cases h
    | ok st1 =>
      rw [h0] at h
      simp only [exceptOk_bind] at h
      cases h1 : decodeSeqs cfg p progs false st1 1 rest with
      | error e => rw [h1] at h; cases h
      | ok st2 =>
        rw [h1] at h
        simp only [exceptOk_bind] at h
        cases h
        obtain ⟨hT, hS⟩ :=
          decodeSeqs_not_first cfg p progs false rest 1 st1 st2 (by omega) h1
        refine ⟨⟨st1.outTracks, finishTempos p st1.tempoChanges, st1.timeSigChanges⟩, ?_, ?_, ?_⟩
        · unfold decodeSeqs
          rw [h0]
          simp only [exceptOk_bind]
          unfold decodeSeqs
          rfl
        · simp [hT]
        · simp [hS]

/-- Witness for C6: the concrete two-sequence decode where the second
sequence carries a 3/4 time signature and tempo 95 that do not reach the
output. -/
theorem multiseq_tempo_timesig_from_first_only_witness :
    cpTokensToMidi cfg6 pStd none false (s0w :: restw) = .ok mW ∧
      ∃ m0, cpTokensToMidi cfg6 pStd none false [s0w] = .ok m0 ∧
        mW.tempos = m0.tempos ∧ mW.timeSigs = m0.timeSigs :=
  ⟨by decide,
   multiseq_tempo_timesig_from_first_only cfg6 pStd none s0w restw mW (by decide)⟩

/-- Successors of `"Bar"` in the minimal-configuration token-types graph. -/
theorem graph_min_bar :
    (cpTokenTypesGraph cfgMin).lookup "Bar" = some ["Position", "Bar", "Ignore"] := by decide

/-- Successors of `"Position"` in the minimal-configuration token-types graph. -/
theorem graph_min_pos :
    (cpTokenTypesGraph cfgMin).lookup "Position" = some ["Pitch", "Ignore"] := by decide

/-- Successors of `"Pitch"` in the minimal-configuration token-types graph. -/
theorem graph_min_pitch :
    (cpTokenTypesGraph cfgMin).lookup "Pitch" =
      some ["Pitch", "Bar", "Position", "Ignore"] := by decide

/-- A validator step on a `Bar` compound token from a `Bar` or `Pitch`
predecessor: legal succession, position and active pitches reset. -/
theorem cpErrStep_bar (vst : CPVState) (tok : CPTok)
    (hprev : vst.previousType = "Bar" ∨ vst.previousType = "Pitch")
    (hf : tok.family = .metric) (hb : tok.barPos = .bar) :
    cpErrStep cfgMin vst tok =
      .ok ⟨vst.err, "Bar", -1, vst.program, pitchesReset cfgMin⟩ := by
  obtain ⟨ti, fam, bp, pi, ve, du, pr, ch, re, te, ts⟩ := tok
  simp only at hf hb
  subst hf; subst hb
  obtain ⟨e, pt, cp, pg, cps⟩ := vst
  simp only at hprev
  rcases hprev with h | h <;> subst h <;> rfl

/-- A validator step on a `Position` compound token from a `Bar` or `Pitch`
predecessor with a strictly larger position value: legal, no error. -/
theorem cpErrStep_pos (vst : CPVState) (t v : Int)
    (hprev : vst.previousType = "Bar" ∨ vst.previousType = "Pitch")
    (hgt : vst.currentPos < v) :
    cpErrStep cfgMin vst (mkPosTok t v none none) =
      .ok ⟨vst.err, "Position", v, vst.program, pitchesReset cfgMin⟩ := by
  obtain ⟨e, pt, cp, pg, cps⟩ := vst
  simp only at hprev hgt
  rcases hprev with h | h <;> subst h <;>
  · unfold cpErrStep
    simp [cpTokenType, mkPosTok, createCPToken, exceptOk_bind,
      graph_min_bar, graph_min_pitch, not_le.mpr hgt]
    try rfl

/-- A validator step on a `Pitch` compound token from a `Position` or `Pitch`
predecessor whose pitch is not active yet: the pitch is recorded, no error. -/
theorem cpErrStep_note (vst : CPVState) (t pt v : Int) (d : DurTriple)
    (plist : List Int)
    (hprev : vst.previousType = "Position" ∨ vst.previousType = "Pitch")
    (hcps : vst.currentPitches = [(0, plist)]) (hpg : vst.program = 0)
    (hnd : pt ∉ plist) :
    cpErrStep cfgMin vst (mkNoteTok t pt v d none) =
      .ok ⟨vst.err, "Pitch", vst.currentPos, 0, [(0, plist ++ [pt])]⟩ := by
  obtain ⟨e, pv, cp, pg, cps⟩ := vst
  simp only at hprev hcps hpg
  subst hcps; subst hpg
  rcases hprev with h | h <;> subst h <;>
  · unfold cpErrStep
    simp [cpTokenType, mkNoteTok, createCPToken, exceptOk_bind,
      graph_min_pos, graph_min_pitch, pitchesGet, pitchesAppend, hnd]
    try rfl

/-- With `use_rests` disabled the rest phase is a no-op. -/
theorem restPhase_disabled (cfg : Config) (p : Params) (st : EncState) (t : Int)
    (h : cfg.useRests = false) : restPhase cfg p st t = (st, []) := by
  unfold restPhase
  rw [if_neg]
  simp [h]

/-- The bar phase emits nothing when no new bar has elapsed. -/
theorem barPhase_no_bars (cfg : Config) (st : EncState) (ev : Event)
    (hnum : st.barAtLastTsChange + (ev.time - st.tickAtLastTsChange) / st.ticksPerBar
      - st.currentBar < 1) :
    barPhase cfg st ev = (st, []) := by
  unfold barPhase
  rw [if_neg (not_le.mpr hnum)]

/-- The bar phase on a non-`TimeSig` event without `use_time_signatures`:
one bare `Bar` token per elapsed bar and the advanced grid cursor. -/
theorem barPhase_bars (cfg : Config) (st : EncState) (ev : Event)
    (hnum : 1 ≤ st.barAtLastTsChange + (ev.time - st.tickAtLastTsChange) / st.ticksPerBar
      - st.currentBar)
    (hcfg : cfg.useTimeSignatures = false) (hts : ¬ ev.isTimeSig) :
    barPhase cfg st ev =
      ({ st with
         currentBar := st.currentBar +
           (st.barAtLastTsChange + (ev.time - st.tickAtLastTsChange) / st.ticksPerBar
             - st.currentBar),
         tickAtCurrentBar := st.tickAtLastTsChange +
           (st.currentBar +
             (st.barAtLastTsChange + (ev.time - st.tickAtLastTsChange) / st.ticksPerBar
               - st.currentBar) - st.barAtLastTsChange) * st.ticksPerBar },
       (List.range (st.barAtLastTsChange + (ev.time - st.tickAtLastTsChange) / st.ticksPerBar
           - st.currentBar).toNat).map
         fun i : Nat => mkBarTok ((st.currentBar + (i : Int) + 1) * st.ticksPerBar) none) := by
  unfold barPhase
  rw [if_pos hnum]
  dsimp only
  congr 1
  exact List.map_congr_left fun i hi => by simp [hts, hcfg]

/-- The `currentProgram`, `previousTick` and `currentTempo` fields are
untouched by the bar phase. -/
theorem barPhase_aux_fields (cfg : Config) (st : EncState) (ev : Event) :
    (barPhase cfg st ev).1.currentProgram = st.currentProgram ∧
    (barPhase cfg st ev).1.previousTick = st.previousTick ∧
    (barPhase cfg st ev).1.currentTempo = st.currentTempo := by
  unfold barPhase
  dsimp only
  refine ⟨?_, ?_, ?_⟩ <;> (repeat' split) <;> rfl

/-- One minimal-configuration encoder step on a `Pitch` event at a fresh
tick: bar tokens for the elapsed bars, then a `Position` token at the
intra-bar offset, then the `Pitch` compound token. -/
theorem stepEnc_pitch_new (p : Params) (st : EncState) (pt t ne v : Int) (d : DurTriple)
    (hne : t ≠ st.previousTick) :
    stepEnc cfgMin p st (.pitchE pt t ne) (some (v, d)) =
      ({ (barPhase cfgMin st (.pitchE pt t ne)).1 with
           previousTick := t, previousNoteEnd := max st.previousNoteEnd ne },
       (barPhase cfgMin st (.pitchE pt t ne)).2 ++
         [mkPosTok t (t - (barPhase cfgMin st (.pitchE pt t ne)).1.tickAtCurrentBar) none none,
          mkNoteTok t pt v d st.currentProgram]) := by
  obtain ⟨-, -, -, h4⟩ := barPhase_fields cfgMin st (.pitchE pt t ne)
  obtain ⟨hpr, -, -⟩ := barPhase_aux_fields cfgMin st (.pitchE pt t ne)
  unfold stepEnc
  simp only [Event.time]
  rw [restPhase_disabled cfgMin p st t rfl]
  rw [if_pos hne]
  simp only [posPhase, Event.isTimeSig, Event.chordVal, tsUpdatePhase]
  simp [h4, hpr, Event.time, show cfgMin.useTempos = false from rfl]

/-- One minimal-configuration encoder step on a `Pitch` event at the
previous tick: only the `Pitch` compound token is emitted. -/
theorem stepEnc_pitch_same (p : Params) (st : EncState) (pt t ne v : Int) (d : DurTriple)
    (heq : t = st.previousTick) :
    stepEnc cfgMin p st (.pitchE pt t ne) (some (v, d)) =
      ({ st with previousNoteEnd := max st.previousNoteEnd ne },
       [mkNoteTok t pt v d st.currentProgram]) := by
  unfold stepEnc
  simp only [Event.time]
  rw [if_neg (by simpa using heq)]
  rfl

/-- An encoder step on a `Velocity` event at the previous tick emits
nothing and leaves the state unchanged. -/
theorem stepEnc_vel_same (cfg : Config) (p : Params) (st : EncState) (v t : Int)
    (la : Option (Int × DurTriple)) (heq : t = st.previousTick) :
    stepEnc cfg p st (.velocityE v t) la = (st, []) := by
  unfold stepEnc
  simp only [Event.time]
  rw [if_neg (by simpa using heq)]
  rfl

/-- An encoder step on a `Duration` event at the previous tick emits
nothing and leaves the state unchanged. -/
theorem stepEnc_dur_same (cfg : Config) (p : Params) (st : EncState) (d : DurTriple)
    (t : Int) (la : Option (Int × DurTriple)) (heq : t = st.previousTick) :
    stepEnc cfg p st (.durationE d t) la = (st, []) := by
  unfold stepEnc
  simp only [Event.time]
  rw [if_neg (by simpa using heq)]
  rfl

/-- Unfolding of the encoder loop over the three events of one note of a
normalizer-shaped stream (the look-ahead of the `Pitch` event is its own
velocity / duration pair). -/
theorem goNotes_cons (cfg : Config) (p : Params) (st : EncState) (n : Note)
    (ns : List Note) :
    addTimeEventsGo cfg p st (eventsOfNotes p (n :: ns)) =
      ((addTimeEventsGo cfg p
          (stepEnc cfg p
            (stepEnc cfg p
              (stepEnc cfg p st (.pitchE n.pitch n.start (n.start + n.dur))
                (some (n.vel, nearestDurTriple p n.dur))).1
              (.velocityE n.vel n.start) none).1
            (.durationE (nearestDurTriple p n.dur) n.start) none).1
          (eventsOfNotes p ns)).1,
       (stepEnc cfg p st (.pitchE n.pitch n.start (n.start + n.dur))
          (some (n.vel, nearestDurTriple p n.dur))).2 ++
        ((stepEnc cfg p
            (stepEnc cfg p st (.pitchE n.pitch n.start (n.start + n.dur))
              (some (n.vel, nearestDurTriple p n.dur))).1
            (.velocityE n.vel n.start) none).2 ++
          ((stepEnc cfg p
              (stepEnc cfg p
                (stepEnc cfg p st (.pitchE n.pitch n.start (n.start + n.dur))
                  (some (n.vel, nearestDurTriple p n.dur))).1
                (.velocityE n.vel n.start) none).1
              (.durationE (nearestDurTriple p n.dur) n.start) none).2 ++
            (addTimeEventsGo cfg p
              (stepEnc cfg p
                (stepEnc cfg p
                  (stepEnc cfg p st (.pitchE n.pitch n.start (n.start + n.dur))
                    (some (n.vel, nearestDurTriple p n.dur))).1
                  (.velocityE n.vel n.start) none).1
                (.durationE (nearestDurTriple p n.dur) n.start) none).1
              (eventsOfNotes p ns)).2))) := by
  cases ns <;> rfl

/-- Folding the validator over a run of `Bar` compound tokens from a `Bar`
or `Pitch` predecessor accumulates no error and ends bar-reset. -/
theorem cpErrFold_bars (bl : List CPTok) (vst : CPVState)
    (hprev : vst.previousType = "Bar" ∨ vst.previousType = "Pitch")
    (hbl : ∀ tok ∈ bl, tok.family = .metric ∧ tok.barPos = .bar) :
    List.foldlM (cpErrStep cfgMin) vst bl =
      .ok (if bl.isEmpty then vst
           else ⟨vst.err, "Bar", -1, vst.program, pitchesReset cfgMin⟩) := by
  induction bl generalizing vst with
  | nil => rfl
  | cons b bs ih =>
    obtain ⟨hf, hb⟩ := hbl b (List.mem_cons_self b bs)
    rw [List.foldlM_cons, cpErrStep_bar vst b hprev hf hb, exceptOk_bind]
    rw [ih ⟨vst.err, "Bar", -1, vst.program, pitchesReset cfgMin⟩ (Or.inl rfl)
      (fun tok h => hbl tok (List.mem_cons_of_mem b h))]
    cases bs <;> simp

/-- Folding the validator over one encoder emission group
`Bar* Position Pitch` accumulates no error, provided the position value
exceeds the running position (when no `Bar` intervenes) or `-1` (after a
bar reset). -/
theorem cpErrFold_group (bl : List CPTok) (vst : CPVState) (t posv tn ptn vn : Int)
    (d : DurTriple)
    (hprev : vst.previousType = "Bar" ∨ vst.previousType = "Pitch")
    (hbl : ∀ tok ∈ bl, tok.family = .metric ∧ tok.barPos = .bar)
    (hpg : vst.program = 0)
    (hpos1 : bl = [] → vst.currentPos < posv)
    (hpos2 : bl ≠ [] → -1 < posv) :
    List.foldlM (cpErrStep cfgMin) vst
        (bl ++ [mkPosTok t posv none none, mkNoteTok tn ptn vn d none]) =
      .ok ⟨vst.err, "Pitch", posv, 0, [(0, [ptn])]⟩ := by
  cases bl with
  | nil =>
    rw [List.nil_append, List.foldlM_cons, cpErrStep_pos vst t posv hprev (hpos1 rfl),
      exceptOk_bind]
    rw [List.foldlM_cons,
      cpErrStep_note ⟨vst.err, "Position", posv, vst.program, pitchesReset cfgMin⟩
        tn ptn vn d [] (Or.inl rfl) rfl hpg (List.not_mem_nil ptn), exceptOk_bind]
    rfl
  | cons b bs =>
    rw [List.foldlM_append, cpErrFold_bars (b :: bs) vst hprev hbl, exceptOk_bind]
    simp only [List.isEmpty_cons, Bool.false_eq_true, if_false]
    rw [List.foldlM_cons,
      cpErrStep_pos ⟨vst.err, "Bar", -1, vst.program, pitchesReset cfgMin⟩ t posv
        (Or.inl rfl) (hpos2 (List.cons_ne_nil b bs)), exceptOk_bind]
    rw [List.foldlM_cons,
      cpErrStep_note ⟨vst.err, "Position", posv, vst.program, pitchesReset cfgMin⟩
        tn ptn vn d [] (Or.inl rfl) rfl hpg (List.not_mem_nil ptn), exceptOk_bind]
    rfl

/-- The velocity / duration events of a note emit nothing once the pitch
event has aligned `previousTick`, collapsing the loop to one step per
note. -/
theorem goNotes_step (cfg : Config) (p : Params) (st : EncState) (n : Note)
    (ns : List Note)
    (hpt : (stepEnc cfg p st (.pitchE n.pitch n.start (n.start + n.dur))
        (some (n.vel, nearestDurTriple p n.dur))).1.previousTick = n.start) :
    addTimeEventsGo cfg p st (eventsOfNotes p (n :: ns)) =
      ((addTimeEventsGo cfg p
          (stepEnc cfg p st (.pitchE n.pitch n.start (n.start + n.dur))
            (some (n.vel, nearestDurTriple p n.dur))).1
          (eventsOfNotes p ns)).1,
       (stepEnc cfg p st (.pitchE n.pitch n.start (n.start + n.dur))
          (some (n.vel, nearestDurTriple p n.dur))).2 ++
         (addTimeEventsGo cfg p
           (stepEnc cfg p st (.pitchE n.pitch n.start (n.start + n.dur))
             (some (n.vel, nearestDurTriple p n.dur))).1
           (eventsOfNotes p ns)).2) := by
  rw [goNotes_cons]
  rw [stepEnc_vel_same cfg p _ n.vel n.start none hpt.symm]
  dsimp only
  rw [stepEnc_dur_same cfg p _ (nearestDurTriple p n.dur) n.start none hpt.symm]
  dsimp only
  simp only [List.nil_append, List.append_nil]

/-- Invariant induction for C2: from any encoder / validator state pair
that is grid-consistent (the validator just consumed a `Pitch` token whose
position mirrors `previous_tick`, with the already-emitted same-tick
pitches strictly below every upcoming same-tick pitch), the tokens the
minimal-configuration encoder emits for a sorted note list fold through
the validator without any error. -/
theorem c2_main (p : Params)
    (htpb : 0 < computeTicksPerBar 4 4 p.timeDivision) (notes : List Note) :
    ∀ (st : EncState) (vst : CPVState) (plist : List Int),
    st.barAtLastTsChange = 0 →
    st.tickAtLastTsChange = 0 →
    st.ticksPerBar = computeTicksPerBar 4 4 p.timeDivision →
    st.currentProgram = none →
    0 ≤ st.previousTick →
    st.currentBar = st.previousTick / computeTicksPerBar 4 4 p.timeDivision →
    st.tickAtCurrentBar = st.currentBar * computeTicksPerBar 4 4 p.timeDivision →
    vst.err = 0 →
    vst.previousType = "Pitch" →
    vst.currentPos = st.previousTick - st.tickAtCurrentBar →
    vst.program = 0 →
    vst.currentPitches = [(0, plist)] →
    List.Chain' (fun a b => a.start < b.start ∨ (a.start = b.start ∧ a.pitch < b.pitch)) notes →
    (∀ m ∈ notes, 0 ≤ m.start) →
    (∀ n1 ∈ notes.head?, st.previousTick ≤ n1.start) →
    (∀ q ∈ plist, ∀ n1 ∈ notes.head?, n1.start = st.previousTick → q < n1.pitch) →
    ∃ vst', List.foldlM (cpErrStep cfgMin) vst
        (addTimeEventsGo cfgMin p st (eventsOfNotes p notes)).2 = .ok vst' ∧ vst'.err = 0 := by
  induction notes with
  | nil =>
    intro st vst plist _ _ _ _ _ _ _ hverr _ _ _ _ _ _ _ _
    exact ⟨vst, rfl, hverr⟩
  | cons n ns ih =>
    intro st vst plist hb0 ht0 htpbf hprog hpt0 hcb htacb hverr hvprev hvpos hvpg hvcps
      hchain hnn hhead hpl
    obtain ⟨hR, hchain2⟩ := List.chain'_cons'.mp hchain
    obtain ⟨cb, b0, pvt, pne, t0, tacb, cts, ctem, cprog, tpb2⟩ := st
    obtain ⟨ve, vprev, vpos, vpg, vcps⟩ := vst
    simp only at hb0 ht0 htpbf hprog hpt0 hcb htacb hverr hvprev hvpos hvpg hvcps hhead hpl
    subst hb0; subst ht0; subst htpbf; subst hprog; subst hcb; subst htacb
    subst hverr; subst hvprev; subst hvpos; subst hvpg; subst hvcps
    by_cases hsame : n.start = pvt
    · -- same tick: a lone Pitch token
      have hpt : (stepEnc cfgMin p
          ⟨pvt / computeTicksPerBar 4 4 p.timeDivision, 0, pvt, pne, 0,
            pvt / computeTicksPerBar 4 4 p.timeDivision * computeTicksPerBar 4 4 p.timeDivision,
            cts, ctem, none, computeTicksPerBar 4 4 p.timeDivision⟩
          (.pitchE n.pitch n.start (n.start + n.dur))
          (some (n.vel, nearestDurTriple p n.dur))).1.previousTick = n.start := by
        rw [stepEnc_pitch_same p _ n.pitch n.start (n.start + n.dur) n.vel
          (nearestDurTriple p n.dur) hsame]
        exact hsame.symm
      rw [goNotes_step cfgMin p _ n ns hpt]
      rw [stepEnc_pitch_same p _ n.pitch n.start (n.start + n.dur) n.vel
        (nearestDurTriple p n.dur) hsame]
      dsimp only
      have hnd : n.pitch ∉ plist := fun hmem =>
        lt_irrefl n.pitch (hpl n.pitch hmem n rfl hsame)
      rw [List.singleton_append, List.foldlM_cons,
        cpErrStep_note ⟨0, "Pitch", pvt - pvt / computeTicksPerBar 4 4 p.timeDivision *
            computeTicksPerBar 4 4 p.timeDivision, 0, [(0, plist)]⟩
          n.start n.pitch n.vel (nearestDurTriple p n.dur) plist
          (Or.inr rfl) rfl rfl hnd, exceptOk_bind]
      apply ih
      · rfl
      · rfl
      · rfl
      · rfl
      · exact hpt0
      · rfl
      · rfl
      · rfl
      · rfl
      · rfl
      · rfl
      · rfl
      · exact hchain2
      · exact fun m hm => hnn m (List.mem_cons_of_mem n hm)
      · intro n1 h1
        have hr := hR n1 h1
        have hle : n.start ≤ n1.start := by
          rcases hr with h | h
          · exact le_of_lt h
          · exact le_of_eq h.1
        show pvt ≤ n1.start
        omega
      · intro q hq n1 h1 hst
        have hr := hR n1 h1
        have hst2 : n1.start = pvt := hst
        have hsep : n.pitch < n1.pitch := by
          rcases hr with h | h
          · exfalso; omega
          · exact h.2
        rcases List.mem_append.mp hq with hq1 | hq1
        · exact lt_trans (hpl q hq1 n rfl hsame) hsep
        · rw [List.mem_singleton.mp hq1]
          exact hsep
    · -- new tick
      have hlt : pvt < n.start :=
        lt_of_le_of_ne (hhead n rfl) (fun h => hsame h.symm)
      have hmono : pvt / computeTicksPerBar 4 4 p.timeDivision ≤
          n.start / computeTicksPerBar 4 4 p.timeDivision :=
        Int.ediv_le_ediv htpb hlt.le
      have hpt : (stepEnc cfgMin p
          ⟨pvt / computeTicksPerBar 4 4 p.timeDivision, 0, pvt, pne, 0,
            pvt / computeTicksPerBar 4 4 p.timeDivision * computeTicksPerBar 4 4 p.timeDivision,
            cts, ctem, none, computeTicksPerBar 4 4 p.timeDivision⟩
          (.pitchE n.pitch n.start (n.start + n.dur))
          (some (n.vel, nearestDurTriple p n.dur))).1.previousTick = n.start := by
        rw [stepEnc_pitch_new p _ n.pitch n.start (n.start + n.dur) n.vel
          (nearestDurTriple p n.dur) hsame]
      rw [goNotes_step cfgMin p _ n ns hpt]
      rw [stepEnc_pitch_new p _ n.pitch n.start (n.start + n.dur) n.vel
        (nearestDurTriple p n.dur) hsame]
      by_cases hnum : pvt / computeTicksPerBar 4 4 p.timeDivision + 1 ≤
          n.start / computeTicksPerBar 4 4 p.timeDivision
      · -- at least one new bar
        have hnum2 : (1:Int) ≤ 0 + (n.start - 0) / computeTicksPerBar 4 4 p.timeDivision -
            pvt / computeTicksPerBar 4 4 p.timeDivision := by
          simp only [zero_add, sub_zero]; omega
        rw [barPhase_bars cfgMin _ (.pitchE n.pitch n.start (n.start + n.dur)) hnum2 rfl
          (fun h => h)]
        dsimp only [Event.time]
        simp only [zero_add, sub_zero]
        have e1 : pvt / computeTicksPerBar 4 4 p.timeDivision +
            (n.start / computeTicksPerBar 4 4 p.timeDivision -
              pvt / computeTicksPerBar 4 4 p.timeDivision) =
            n.start / computeTicksPerBar 4 4 p.timeDivision := by omega
        rw [e1]
        rw [List.foldlM_append]
        have hblf : ∀ tok ∈ (List.range ((n.start / computeTicksPerBar 4 4 p.timeDivision -
              pvt / computeTicksPerBar 4 4 p.timeDivision)).toNat).map
              (fun i : Nat => mkBarTok ((pvt / computeTicksPerBar 4 4 p.timeDivision +
                (i : Int) + 1) * computeTicksPerBar 4 4 p.timeDivision) none),
            tok.family = CPFam.metric ∧ tok.barPos = CPBarPos.bar := by
          intro tok htok
          simp only [List.mem_map] at htok
          obtain ⟨i, -, rfl⟩ := htok
          exact ⟨rfl, rfl⟩
        rw [cpErrFold_group _ _ n.start
          (n.start - n.start / computeTicksPerBar 4 4 p.timeDivision *
            computeTicksPerBar 4 4 p.timeDivision)
          n.start n.pitch n.vel (nearestDurTriple p n.dur) (Or.inr rfl) hblf rfl
          (fun hnil => by
            exfalso
            have h2 := List.range_eq_nil.mp (List.map_eq_nil_iff.mp hnil)
            omega)
          (fun _ => by
            have hm := Int.emod_nonneg n.start (ne_of_gt htpb)
            have he : n.start - n.start / computeTicksPerBar 4 4 p.timeDivision *
                computeTicksPerBar 4 4 p.timeDivision =
                n.start % computeTicksPerBar 4 4 p.timeDivision := by
              rw [Int.emod_def]; ring
            rw [he]
            omega),
          exceptOk_bind]
        apply ih
        · rfl
        · rfl
        · rfl
        · rfl
        · exact hnn n (List.mem_cons_self n ns)
        · rfl
        · rfl
        · rfl
        · rfl
        · rfl
        · rfl
        · rfl
        · exact hchain2
        · exact fun m hm => hnn m (List.mem_cons_of_mem n hm)
        · intro n1 h1
          show n.start ≤ n1.start
          rcases hR n1 h1 with h | h
          · exact le_of_lt h
          · exact le_of_eq h.1
        · intro q hq n1 h1 hst
          have hst2 : n1.start = n.start := hst
          have hsep : n.pitch < n1.pitch := by
            rcases hR n1 h1 with h | h
            · exfalso; omega
            · exact h.2
          rw [List.mem_singleton.mp hq]
          exact hsep
      · -- same bar
        have hn0 : 0 + (n.start - 0) / computeTicksPerBar 4 4 p.timeDivision -
            pvt / computeTicksPerBar 4 4 p.timeDivision < 1 := by
          simp only [zero_add, sub_zero]; omega
        rw [barPhase_no_bars cfgMin _ (.pitchE n.pitch n.start (n.start + n.dur)) hn0]
        dsimp only [Event.time]
        rw [List.foldlM_append]
        rw [cpErrFold_group _ _ n.start
          (n.start - pvt / computeTicksPerBar 4 4 p.timeDivision *
            computeTicksPerBar 4 4 p.timeDivision)
          n.start n.pitch n.vel (nearestDurTriple p n.dur) (Or.inr rfl)
          (fun tok htok => absurd htok (List.not_mem_nil tok)) rfl
          (fun _ => by show pvt - pvt / computeTicksPerBar 4 4 p.timeDivision *
              computeTicksPerBar 4 4 p.timeDivision < _; omega)
          (fun h => absurd rfl h),
          exceptOk_bind]
        have hcb2 : pvt / computeTicksPerBar 4 4 p.timeDivision =
            n.start / computeTicksPerBar 4 4 p.timeDivision := by omega
        apply ih
        · rfl
        · rfl
        · rfl
        · rfl
        · exact hnn n (List.mem_cons_self n ns)
        · exact hcb2
        · rfl
        · rfl
        · rfl
        · rfl
        · rfl
        · rfl
        · exact hchain2
        · exact fun m hm => hnn m (List.mem_cons_of_mem n hm)
        · intro n1 h1
          show n.start ≤ n1.start
          rcases hR n1 h1 with h | h
          · exact le_of_lt h
          · exact le_of_eq h.1
        · intro q hq n1 h1 hst
          have hst2 : n1.start = n.start := hst
          have hsep : n.pitch < n1.pitch := by
            rcases hR n1 h1 with h | h
            · exfalso; omega
            · exact h.2
          rw [List.mem_singleton.mp hq]
          exact hsep

/-- C2 (amended to nonempty inputs): for every nonempty note list sorted
by `(start, pitch)` with strictly increasing pitches inside a tick and
nonnegative start ticks, the compound-token sequence built by
`CPWord._add_time_events` under the minimal configuration (with
`remove_duplicated_notes` set) passes the tokenizer's own grammar
validator `CPWord._tokens_errors` with zero errors: every token-type
succession is legal, positions strictly increase inside a bar, and no
duplicate pitch is flagged. -/
theorem encoder_output_validates
    (p : Params) (htpb : 0 < computeTicksPerBar 4 4 p.timeDivision)
    (notes : List Note) (hne : notes ≠ [])
    (hchain : List.Chain'
      (fun a b => a.start < b.start ∨ (a.start = b.start ∧ a.pitch < b.pitch)) notes)
    (hnn : ∀ m ∈ notes, 0 ≤ m.start) :
    cpTokensErrors cfgMin (addTimeEvents cfgMin p (eventsOfNotes p notes)) = .ok 0 := by
  cases notes with
  | nil => exact absurd rfl hne
  | cons n ns =>
    obtain ⟨hR, hchain2⟩ := List.chain'_cons'.mp hchain
    have h0 : (0:Int) ≤ n.start := hnn n (List.mem_cons_self n ns)
    have hne0 : n.start ≠ (-1 : Int) := by omega
    have hinit : initEncState cfgMin p (eventsOfNotes p (n :: ns)) =
        ⟨-1, 0, -1, 0, 0, 0, (4, 4), p.defaultTempo, none,
          computeTicksPerBar 4 4 p.timeDivision⟩ := rfl
    have hpt : (stepEnc cfgMin p
        ⟨-1, 0, -1, 0, 0, 0, (4, 4), p.defaultTempo, none,
          computeTicksPerBar 4 4 p.timeDivision⟩
        (.pitchE n.pitch n.start (n.start + n.dur))
        (some (n.vel, nearestDurTriple p n.dur))).1.previousTick = n.start := by
      rw [stepEnc_pitch_new p _ n.pitch n.start (n.start + n.dur) n.vel
        (nearestDurTriple p n.dur) hne0]
    unfold addTimeEvents
    rw [hinit]
    rw [goNotes_step cfgMin p _ n ns hpt]
    rw [stepEnc_pitch_new p _ n.pitch n.start (n.start + n.dur) n.vel
      (nearestDurTriple p n.dur) hne0]
    have hdividend : (0:Int) ≤ n.start / computeTicksPerBar 4 4 p.timeDivision :=
      Int.ediv_nonneg h0 htpb.le
    have hnum2 : (1:Int) ≤ 0 + (n.start - 0) / computeTicksPerBar 4 4 p.timeDivision -
        (-1) := by
      simp only [zero_add, sub_zero]; omega
    rw [barPhase_bars cfgMin _ (.pitchE n.pitch n.start (n.start + n.dur)) hnum2 rfl
      (fun h => h)]
    dsimp only [Event.time]
    simp only [zero_add, sub_zero]
    have e1 : (-1:Int) + (n.start / computeTicksPerBar 4 4 p.timeDivision - -1) =
        n.start / computeTicksPerBar 4 4 p.timeDivision := by omega
    rw [e1]
    have hbne : (List.range ((n.start / computeTicksPerBar 4 4 p.timeDivision -
          -1)).toNat).map
        (fun i : Nat => mkBarTok (((-1:Int) + (i : Int) + 1) *
          computeTicksPerBar 4 4 p.timeDivision) none) ≠ [] := by
      intro hnil
      have h2 := List.range_eq_nil.mp (List.map_eq_nil_iff.mp hnil)
      omega
    obtain ⟨b0, bl2, hbl2⟩ := List.exists_cons_of_ne_nil hbne
    have hmemfacts : ∀ tok ∈ (List.range ((n.start / computeTicksPerBar 4 4 p.timeDivision -
          -1)).toNat).map
        (fun i : Nat => mkBarTok (((-1:Int) + (i : Int) + 1) *
          computeTicksPerBar 4 4 p.timeDivision) none),
        tok.family = CPFam.metric ∧ tok.barPos = CPBarPos.bar := by
      intro tok htok
      simp only [List.mem_map] at htok
      obtain ⟨i, -, rfl⟩ := htok
      exact ⟨rfl, rfl⟩
    rw [hbl2]
    have hb0 : b0.family = CPFam.metric ∧ b0.barPos = CPBarPos.bar :=
      hmemfacts b0 (hbl2 ▸ List.mem_cons_self b0 bl2)
    have hbl2f : ∀ tok ∈ bl2, tok.family = CPFam.metric ∧ tok.barPos = CPBarPos.bar :=
      fun tok htok => hmemfacts tok (hbl2 ▸ List.mem_cons_of_mem b0 htok)
    rw [List.cons_append, List.cons_append]
    have htv : cpTokenType cfgMin b0 = .ok ("Bar", none) := by
      obtain ⟨ti, fam, bp, pi, velf, du, pr, ch, re, te, ts⟩ := b0
      simp only at hb0
      rw [hb0.1, hb0.2]
      rfl
    simp only [cpTokensErrors]
    rw [htv, exceptOk_bind]
    rw [List.foldlM_append]
    have hm := Int.emod_nonneg n.start (ne_of_gt htpb)
    have he : n.start - n.start / computeTicksPerBar 4 4 p.timeDivision *
        computeTicksPerBar 4 4 p.timeDivision =
        n.start % computeTicksPerBar 4 4 p.timeDivision := by
      rw [Int.emod_def]; ring
    rw [cpErrFold_group bl2 ⟨0, "Bar", -1, 0, pitchesReset cfgMin⟩ n.start
      (n.start - n.start / computeTicksPerBar 4 4 p.timeDivision *
        computeTicksPerBar 4 4 p.timeDivision)
      n.start n.pitch n.vel (nearestDurTriple p n.dur) (Or.inl rfl) hbl2f rfl
      (fun _ => by show (-1:Int) < _; rw [he]; omega)
      (fun _ => by rw [he]; omega),
      exceptOk_bind]
    obtain ⟨vst', hfold, herr⟩ := c2_main p htpb ns
      ⟨n.start / computeTicksPerBar 4 4 p.timeDivision, 0, n.start,
        max 0 (n.start + n.dur), 0,
        n.start / computeTicksPerBar 4 4 p.timeDivision *
          computeTicksPerBar 4 4 p.timeDivision,
        (4, 4), p.defaultTempo, none, computeTicksPerBar 4 4 p.timeDivision⟩
      ⟨0, "Pitch", n.start - n.start / computeTicksPerBar 4 4 p.timeDivision *
          computeTicksPerBar 4 4 p.timeDivision, 0, [(0, [n.pitch])]⟩
      [n.pitch] rfl rfl rfl rfl h0 rfl rfl rfl rfl rfl rfl rfl hchain2
      (fun m hm2 => hnn m (List.mem_cons_of_mem n hm2))
      (by
        intro n1 h1
        show n.start ≤ n1.start
        rcases hR n1 h1 with h | h
        · exact le_of_lt h
        · exact le_of_eq h.1)
      (by
        intro q hq n1 h1 hst
        have hst2 : n1.start = n.start := hst
        have hsep : n.pitch < n1.pitch := by
          rcases hR n1 h1 with h | h
          · exfalso; omega
          · exact h.2
        rw [List.mem_singleton.mp hq]
        exact hsep)
    rw [hfold, exceptOk_bind, herr]
    rfl

/-- C2 counterexample: the encoder output for an empty note stream is the
empty token sequence, on which `CPWord._tokens_errors` raises an
`IndexError` at `tokens[0]` instead of reporting zero errors. -/
theorem validator_rejects_empty_encoding :
    addTimeEvents cfgMin pStd (eventsOfNotes pStd []) = [] ∧
    cpTokensErrors cfgMin (addTimeEvents cfgMin pStd (eventsOfNotes pStd [])) =
      .error "IndexError: empty token sequence" := by decide

/-- Witness for C2: a three-note piece (a two-pitch chord at tick 0 and a
third note in bar 1) encodes to a token sequence the validator accepts
with zero errors. -/
theorem encoder_output_validates_witness :
    ((0:Int) < computeTicksPerBar 4 4 pStd.timeDivision ∧
     ([⟨0, 8, 60, 100⟩, ⟨0, 8, 64, 100⟩, ⟨36, 8, 62, 90⟩] : List Note) ≠ [] ∧
     List.Chain' (fun a b => a.start < b.start ∨ (a.start = b.start ∧ a.pitch < b.pitch))
       ([⟨0, 8, 60, 100⟩, ⟨0, 8, 64, 100⟩, ⟨36, 8, 62, 90⟩] : List Note) ∧
     (∀ m ∈ ([⟨0, 8, 60, 100⟩, ⟨0, 8, 64, 100⟩, ⟨36, 8, 62, 90⟩] : List Note),
       0 ≤ m.start)) ∧
    cpTokensErrors cfgMin (addTimeEvents cfgMin pStd
      (eventsOfNotes pStd [⟨0, 8, 60, 100⟩, ⟨0, 8, 64, 100⟩, ⟨36, 8, 62, 90⟩])) =
      .ok 0 :=
  ⟨⟨by decide, by decide, by norm_num [List.chain'_cons], by decide⟩,
   encoder_output_validates pStd (by decide) _ (by decide)
     (by norm_num [List.chain'_cons]) (by decide)⟩

end MidiTok

namespace MidiTok

theorem muDec_bar (p : Params) (st : MuDecState) (tok : MuTok)
    (h : tok.head = .barH) :
    muDecodeStep cfgMin p st tok =
      .ok { st with currentBar := st.currentBar + 1,
                    currentTick := (st.currentBar + 1) * p.timeDivision * 4 } := by
  obtain ⟨hd, bpe, ppe, te, ve, du⟩ := tok
  simp only at h
  subst h
  rfl

theorem muDec_pos (p : Params) (st : MuDecState) (tok : MuTok) (v : Int)
    (h : tok.head = .positionH v) :
    muDecodeStep cfgMin p st tok =
      .ok { st with
            currentBar := if st.currentBar = -1 then 0 else st.currentBar,
            currentTick := (if st.currentBar = -1 then 0 else st.currentBar) *
              p.timeDivision * 4 + v * tpsOf p } := by
  obtain ⟨hd, bpe, ppe, te, ve, du⟩ := tok
  simp only at h
  subst h
  rfl

theorem muDec_prog (p : Params) (st : MuDecState) (tok : MuTok) (pr : Int)
    (h : tok.head = .programH pr) :
    muDecodeStep cfgMin p st tok =
      .ok { st with currentTrack := pr,
                    tracks := if (st.tracks.lookup pr).isSome then st.tracks
                              else st.tracks ++ [(pr, [])] } := by
  obtain ⟨hd, bpe, ppe, te, ve, du⟩ := tok
  simp only at h
  subst h
  rfl

theorem muDec_note (p : Params) (st : MuDecState) (tok : MuTok) (pt v : Int)
    (d : DurTriple) (l : List Note)
    (h : tok.head = .pitchH (some pt)) (hv : tok.vel = some v) (hd : tok.dur = some d)
    (hlk : st.tracks.lookup st.currentTrack = some l) :
    muDecodeStep cfgMin p st tok =
      .ok { st with tracks := (assocAppendNote st.tracks st.currentTrack
              ⟨st.currentTick, durationToTicks d p.timeDivision, pt, v⟩) } := by
  obtain ⟨hd2, bpe, ppe, te, ve, du⟩ := tok
  simp only at h hv hd
  subst h; subst hv; subst hd
  simp only [muDecodeStep]
  rw [hlk]
  rfl

theorem muGo_cons (u : Bool) (p : Params) (tpb : Int) (tempos : List (Int × ℚ))
    (st : MuEncState) (nt : MuPre) (rest : List MuPre) :
    muGo u p tpb tempos st (nt :: rest) =
      (muStep u p tpb tempos st nt).2 ++
        muGo u p tpb tempos (muStep u p tpb tempos st nt).1 rest := rfl

theorem muStep_same (p : Params) (tpb : Int) (tempos : List (Int × ℚ))
    (st : MuEncState) (nt : MuPre)
    (heq : nt.time = st.currentTick) (htr : nt.desc = st.currentTrack)
    (hdr : nt.isDrum = false) :
    muStep false p tpb tempos st nt =
      (st, [⟨.pitchH (some nt.pitch), some st.currentBar, some st.currentPos,
             none, some nt.vel, some nt.dur⟩]) := by
  have h0 : ¬((false = true) ∧ st.tempoIdx + 1 < tempos.length) := fun hc => by
    simp at hc
  have h1 : ¬(nt.time ≠ st.currentTick) := fun hc => hc heq
  have h2 : ¬(nt.desc ≠ st.currentTrack) := fun hc => hc htr
  unfold muStep
  rw [if_neg h0]
  dsimp only
  rw [if_neg h1, if_neg h2]
  simp [hdr]

theorem muStep_new_bars (p : Params) (tpb : Int) (tempos : List (Int × ℚ))
    (st : MuEncState) (nt : MuPre)
    (hne : nt.time ≠ st.currentTick) (hdesc : nt.desc ≠ -2) (hdr : nt.isDrum = false)
    (hbar : st.currentBar < nt.time / tpb) :
    muStep false p tpb tempos st nt =
      (⟨nt.time, st.currentBar + (nt.time / tpb - st.currentBar),
        (nt.time % tpb) / tpsOf p, nt.desc, st.tempoIdx, st.currentTempo⟩,
       ((List.range (nt.time / tpb - st.currentBar).toNat).map fun i : Nat =>
          ⟨.barH, some (st.currentBar + (i : Int) + 1), none, none, none, none⟩) ++
        [⟨.positionH ((nt.time % tpb) / tpsOf p),
          some (st.currentBar + (nt.time / tpb - st.currentBar)),
          some ((nt.time % tpb) / tpsOf p), none, none, none⟩] ++
        [⟨.programH nt.desc,
          some (st.currentBar + (nt.time / tpb - st.currentBar)),
          some ((nt.time % tpb) / tpsOf p), none, none, none⟩] ++
        [⟨.pitchH (some nt.pitch),
          some (st.currentBar + (nt.time / tpb - st.currentBar)),
          some ((nt.time % tpb) / tpsOf p), none, some nt.vel, some nt.dur⟩]) := by
  have h0 : ¬((false = true) ∧ st.tempoIdx + 1 < tempos.length) := fun hc => by
    simp at hc
  unfold muStep
  rw [if_neg h0]
  dsimp only
  rw [if_pos hne]
  dsimp only
  rw [if_pos hbar]
  dsimp only
  rw [if_pos hdesc]
  simp [hdr]

theorem muStep_new_nobars (p : Params) (tpb : Int) (tempos : List (Int × ℚ))
    (st : MuEncState) (nt : MuPre)
    (hne : nt.time ≠ st.currentTick) (hdesc : nt.desc ≠ -2) (hdr : nt.isDrum = false)
    (hbar : ¬ st.currentBar < nt.time / tpb) :
    muStep false p tpb tempos st nt =
      (⟨nt.time, st.currentBar, (nt.time % tpb) / tpsOf p, nt.desc,
        st.tempoIdx, st.currentTempo⟩,
       [⟨.positionH ((nt.time % tpb) / tpsOf p), some st.currentBar,
         some ((nt.time % tpb) / tpsOf p), none, none, none⟩] ++
        [⟨.programH nt.desc, some st.currentBar,
          some ((nt.time % tpb) / tpsOf p), none, none, none⟩] ++
        [⟨.pitchH (some nt.pitch), some st.currentBar,
          some ((nt.time % tpb) / tpsOf p), none, some nt.vel, some nt.dur⟩]) := by
  have h0 : ¬((false = true) ∧ st.tempoIdx + 1 < tempos.length) := fun hc => by
    simp at hc
  unfold muStep
  rw [if_neg h0]
  dsimp only
  rw [if_pos hne]
  dsimp only
  rw [if_neg hbar]
  dsimp only
  rw [if_pos hdesc]
  simp [hdr]

end MidiTok

namespace MidiTok

theorem muDecFold_bars (p : Params) (bl : List MuTok) (dst : MuDecState)
    (hbl : ∀ tok ∈ bl, tok.head = .barH) :
    ∃ tk, List.foldlM (muDecodeStep cfgMin p) dst bl =
      .ok { dst with currentBar := dst.currentBar + (bl.length : Int),
                     currentTick := tk } := by
  induction bl generalizing dst with
  | nil =>
    refine ⟨dst.currentTick, ?_⟩
    simp
    rfl
  | cons b bs ih =>
    rw [List.foldlM_cons, muDec_bar p dst b (hbl b (List.mem_cons_self b bs)),
      exceptOk_bind]
    obtain ⟨tk, htk⟩ := ih
      { dst with currentBar := dst.currentBar + 1,
                 currentTick := (dst.currentBar + 1) * p.timeDivision * 4 }
      (fun tok htok => hbl tok (List.mem_cons_of_mem b htok))
    refine ⟨tk, ?_⟩
    rw [htk]
    have harith : dst.currentBar + 1 + (bs.length : Int) =
        dst.currentBar + ((b :: bs).length : Int) := by
      push_cast [List.length_cons]
      ring
    rw [harith]

theorem muDecFold_group (p : Params) (acc : List Note) (bl : List MuTok)
    (dst : MuDecState) (v pt vl : Int) (d : DurTriple) (bA pA bB pB bC pC : Option Int)
    (hbl : ∀ tok ∈ bl, tok.head = .barH)
    (hcb : ¬ dst.currentBar + (bl.length : Int) = -1)
    (htr : dst.tracks = [(0, acc)] ∨ (dst.tracks = [] ∧ acc = [])) :
    List.foldlM (muDecodeStep cfgMin p) dst
        (bl ++ [⟨.positionH v, bA, pA, none, none, none⟩] ++
          [⟨.programH 0, bB, pB, none, none, none⟩] ++
          [⟨.pitchH (some pt), bC, pC, none, some vl, some d⟩]) =
      .ok { dst with
            currentBar := dst.currentBar + (bl.length : Int),
            currentTick := (dst.currentBar + (bl.length : Int)) * p.timeDivision * 4 +
              v * tpsOf p,
            currentTrack := 0,
            tracks := [(0, acc ++ [⟨(dst.currentBar + (bl.length : Int)) *
              p.timeDivision * 4 + v * tpsOf p,
              durationToTicks d p.timeDivision, pt, vl⟩])] } := by
  rw [List.foldlM_append, List.foldlM_append, List.foldlM_append]
  obtain ⟨tk, htk⟩ := muDecFold_bars p bl dst hbl
  rw [htk]
  simp only [exceptOk_bind, List.foldlM_cons, List.foldlM_nil]
  rw [muDec_pos p _ ⟨.positionH v, bA, pA, none, none, none⟩ v rfl]
  simp only [exceptOk_bind, pure_bind]
  try dsimp only
  rw [if_neg hcb]
  rw [muDec_prog p _ ⟨.programH 0, bB, pB, none, none, none⟩ 0 rfl]
  simp only [exceptOk_bind, pure_bind]
  try dsimp only
  rcases htr with htr | ⟨htr, hacc⟩
  · rw [htr]
    split
    · rw [muDec_note p
        ⟨dst.tempos, [(0, acc)],
          (dst.currentBar + (bl.length : Int)) * p.timeDivision * 4 + v * tpsOf p,
          dst.currentBar + (bl.length : Int), 0⟩
        ⟨.pitchH (some pt), bC, pC, none, some vl, some d⟩ pt vl d acc
        rfl rfl rfl rfl]
      simp only [exceptOk_bind, pure_bind]
      simp [assocAppendNote]
      try rfl
    · next h => simp at h
  · subst hacc
    rw [htr]
    split
    · next h => simp at h
    · rw [muDec_note p
        ⟨dst.tempos, [] ++ [(0, [])],
          (dst.currentBar + (bl.length : Int)) * p.timeDivision * 4 + v * tpsOf p,
          dst.currentBar + (bl.length : Int), 0⟩
        ⟨.pitchH (some pt), bC, pC, none, some vl, some d⟩ pt vl d []
        rfl rfl rfl (by rfl)]
      simp only [exceptOk_bind, pure_bind]
      simp [assocAppendNote]
      try rfl

end MidiTok

namespace MidiTok

theorem neg_one_ediv (m : Int) (h : 2 ≤ m) : (-1 : Int) / m = -1 := by
  have h5 : -1 ≤ (-1 : Int) / m := by
    rw [Int.le_ediv_iff_mul_le (by omega : (0:Int) < m)]
    omega
  have h4 : (-1 : Int) / m < 0 := Int.ediv_neg' (by omega) (by omega)
  omega

theorem mu_main (p : Params) (htd0 : 0 < p.timeDivision) (htps : tpsOf p = 1)
    (tempos : List (Int × ℚ)) (notes : List Note) :
    ∀ (est : MuEncState) (dst : MuDecState) (acc : List Note),
    dst.currentBar = est.currentBar →
    est.currentBar = est.currentTick / (p.timeDivision * 4) →
    dst.currentTrack = 0 →
    dst.tempos = [(0, p.defaultTempo)] →
    ((dst.tracks = [(0, acc)] ∧ est.currentTrack = 0 ∧ dst.currentTick = est.currentTick) ∨
      (notes ≠ [] ∧ dst.tracks = [] ∧ acc = [] ∧ est.currentTrack = -2 ∧
        est.currentTick = -1)) →
    List.Chain' (fun a b => a.start ≤ b.start) notes →
    (∀ m ∈ notes, 0 ≤ m.start) →
    (∀ n1 ∈ notes.head?, est.currentTick ≤ n1.start) →
    ∃ dst', List.foldlM (muDecodeStep cfgMin p) dst
        (muGo false p (p.timeDivision * 4) tempos est
          (notes.map fun n => ⟨false, n.pitch, n.start, 0, n.vel, nearestDurTriple p n.dur⟩)) =
      .ok dst' ∧
      dst'.tracks = [(0, acc ++ notes.map fun n =>
        (⟨n.start, durationToTicks (nearestDurTriple p n.dur) p.timeDivision,
          n.pitch, n.vel⟩ : Note))] ∧
      dst'.tempos = [(0, p.defaultTempo)] := by
  induction notes with
  | nil =>
    intro est dst acc h1 h2 h3 h4 h5 _ _ _
    rcases h5 with ⟨htr, -, -⟩ | ⟨hne, -⟩
    · exact ⟨dst, rfl, by simpa using htr, h4⟩
    · exact absurd rfl hne
  | cons n ns ih =>
    intro est dst acc h1 h2 h3 h4 h5 hchain hnn hhead
    obtain ⟨hR, hchain2⟩ := List.chain'_cons'.mp hchain
    have hn0 : (0:Int) ≤ n.start := hnn n (List.mem_cons_self n ns)
    have htpb4 : (0:Int) < p.timeDivision * 4 := by omega
    obtain ⟨ect, ecb, epos, etrk, eti, etem⟩ := est
    obtain ⟨dte, dtr, dct, dcb, dtrk⟩ := dst
    simp only at h1 h2 h3 h4 h5 hhead
    subst h1; subst h2; subst h3; subst h4
    simp only [List.map_cons]
    rw [muGo_cons]
    by_cases hsame : n.start = ect
    · -- same tick, same track: lone note token
      rcases h5 with ⟨htr, hetrk, hdct⟩ | ⟨-, -, -, -, hect⟩
      swap
      · exfalso
        omega
      subst htr; subst hetrk; subst hdct; subst hsame
      rw [muStep_same p (p.timeDivision * 4) tempos _ _ rfl rfl rfl]
      dsimp only
      simp only [List.singleton_append]
      rw [List.foldlM_cons,
        muDec_note p _ ⟨.pitchH (some n.pitch), some (n.start / (p.timeDivision * 4)),
          some epos, none, some n.vel, some (nearestDurTriple p n.dur)⟩
          n.pitch n.vel (nearestDurTriple p n.dur) acc rfl rfl rfl (by rfl),
        exceptOk_bind]
      obtain ⟨dst', hfold, htr', hte'⟩ := ih
        ⟨n.start, n.start / (p.timeDivision * 4), epos, 0, eti, etem⟩
        ⟨[(0, p.defaultTempo)],
          assocAppendNote [(0, acc)] 0
            ⟨n.start, durationToTicks (nearestDurTriple p n.dur) p.timeDivision,
              n.pitch, n.vel⟩,
          n.start, n.start / (p.timeDivision * 4), 0⟩
        (acc ++ [⟨n.start, durationToTicks (nearestDurTriple p n.dur) p.timeDivision,
          n.pitch, n.vel⟩])
        rfl rfl rfl rfl
        (Or.inl ⟨by simp [assocAppendNote], rfl, rfl⟩)
        hchain2
        (fun m hm => hnn m (List.mem_cons_of_mem n hm))
        (fun n1 h1 => by
          have hr := hR n1 h1
          exact hr)
      refine ⟨dst', hfold, ?_, hte'⟩
      rw [htr']
      simp
    · -- new tick
      have hlt : ect < n.start := lt_of_le_of_ne (hhead n rfl) (fun h => hsame h.symm)
      have hmono : ect / (p.timeDivision * 4) ≤ n.start / (p.timeDivision * 4) :=
        Int.ediv_le_ediv htpb4 hlt.le
      have hq0 : (0:Int) ≤ n.start / (p.timeDivision * 4) := Int.ediv_nonneg hn0 htpb4.le
      have e2 : n.start / (p.timeDivision * 4) * p.timeDivision * 4 +
          n.start % (p.timeDivision * 4) = n.start := by
        have h := Int.ediv_add_emod n.start (p.timeDivision * 4)
        ring_nf
        ring_nf at h
        omega
      have htrG : dtr = [(0, acc)] ∨ (dtr = [] ∧ acc = []) := by
        rcases h5 with ⟨htr, -, -⟩ | ⟨-, htr, hacc, -, -⟩
        · exact Or.inl htr
        · exact Or.inr ⟨htr, hacc⟩
      by_cases hbar : ect / (p.timeDivision * 4) < n.start / (p.timeDivision * 4)
      · -- at least one Bar token
        rw [muStep_new_bars p (p.timeDivision * 4) tempos
          ⟨ect, ect / (p.timeDivision * 4), epos, etrk, eti, etem⟩
          ⟨false, n.pitch, n.start, 0, n.vel, nearestDurTriple p n.dur⟩
          hsame (show (0:Int) ≠ -2 by decide) rfl hbar]
        dsimp only
        rw [List.foldlM_append]
        have hblf : ∀ tok ∈ (List.range ((n.start / (p.timeDivision * 4) -
              ect / (p.timeDivision * 4))).toNat).map
            (fun i : Nat => (⟨.barH, some (ect / (p.timeDivision * 4) + (i : Int) + 1),
              none, none, none, none⟩ : MuTok)),
            tok.head = MuHead.barH := by
          intro tok htok
          simp only [List.mem_map] at htok
          obtain ⟨i, -, rfl⟩ := htok
          rfl
        have hcbf : ¬(ect / (p.timeDivision * 4) +
            (((List.range ((n.start / (p.timeDivision * 4) -
              ect / (p.timeDivision * 4))).toNat).map
              (fun i : Nat => (⟨.barH, some (ect / (p.timeDivision * 4) + (i : Int) + 1),
                none, none, none, none⟩ : MuTok))).length : Int) = -1) := by
          simp only [List.length_map, List.length_range]
          rw [Int.toNat_of_nonneg (by omega)]
          omega
        rw [muDecFold_group p acc _ _ _ n.pitch n.vel _ _ _ _ _ _ _ hblf hcbf htrG,
          exceptOk_bind]
        simp only [List.length_map, List.length_range]
        rw [Int.toNat_of_nonneg (show (0:Int) ≤ n.start / (p.timeDivision * 4) -
          ect / (p.timeDivision * 4) by omega)]
        have e1 : ect / (p.timeDivision * 4) + (n.start / (p.timeDivision * 4) -
            ect / (p.timeDivision * 4)) = n.start / (p.timeDivision * 4) := by omega
        rw [e1, htps]
        simp only [Int.ediv_one, mul_one]
        rw [e2]
        obtain ⟨dst', hfold, htr', hte'⟩ := ih
          ⟨n.start, n.start / (p.timeDivision * 4), n.start % (p.timeDivision * 4),
            0, eti, etem⟩
          ⟨[(0, p.defaultTempo)],
            [(0, acc ++ [⟨n.start,
              durationToTicks (nearestDurTriple p n.dur) p.timeDivision,
              n.pitch, n.vel⟩])],
            n.start, n.start / (p.timeDivision * 4), 0⟩
          (acc ++ [⟨n.start, durationToTicks (nearestDurTriple p n.dur) p.timeDivision,
            n.pitch, n.vel⟩])
          rfl rfl rfl rfl
          (Or.inl ⟨rfl, rfl, rfl⟩)
          hchain2
          (fun m hm => hnn m (List.mem_cons_of_mem n hm))
          (fun n1 h1 => hR n1 h1)
        refine ⟨dst', hfold, ?_, hte'⟩
        rw [htr']
        simp
      · -- same bar: no Bar token
        rcases h5 with ⟨htr, hetrk, hdct⟩ | ⟨-, -, -, -, hect⟩
        swap
        · exfalso
          subst hect
          rw [neg_one_ediv (p.timeDivision * 4) (by omega)] at hbar
          omega
        subst htr; subst hetrk
        have hcbeq : ect / (p.timeDivision * 4) = n.start / (p.timeDivision * 4) :=
          le_antisymm hmono (not_lt.mp hbar)
        have hcbne : ¬(ect / (p.timeDivision * 4) = -1) := by omega
        rw [muStep_new_nobars p (p.timeDivision * 4) tempos
          ⟨ect, ect / (p.timeDivision * 4), epos, 0, eti, etem⟩
          ⟨false, n.pitch, n.start, 0, n.vel, nearestDurTriple p n.dur⟩
          hsame (show (0:Int) ≠ -2 by decide) rfl hbar]
        dsimp only
        rw [List.foldlM_append, List.foldlM_append, List.foldlM_append]
        simp only [exceptOk_bind, List.foldlM_cons, List.foldlM_nil]
        rw [muDec_pos p _ ⟨.positionH (n.start % (p.timeDivision * 4) / tpsOf p),
          some (ect / (p.timeDivision * 4)),
          some (n.start % (p.timeDivision * 4) / tpsOf p), none, none, none⟩
          (n.start % (p.timeDivision * 4) / tpsOf p) rfl]
        simp only [exceptOk_bind, pure_bind]
        try dsimp only
        rw [if_neg hcbne]
        rw [muDec_prog p _ ⟨.programH 0, some (ect / (p.timeDivision * 4)),
          some (n.start % (p.timeDivision * 4) / tpsOf p), none, none, none⟩ 0 rfl]
        simp only [exceptOk_bind, pure_bind]
        try dsimp only
        split
        · rw [muDec_note p
            ⟨[(0, p.defaultTempo)], [(0, acc)],
              ect / (p.timeDivision * 4) * p.timeDivision * 4 +
                n.start % (p.timeDivision * 4) / tpsOf p * tpsOf p,
              ect / (p.timeDivision * 4), 0⟩
            ⟨.pitchH (some n.pitch), some (ect / (p.timeDivision * 4)),
              some (n.start % (p.timeDivision * 4) / tpsOf p), none,
              some n.vel, some (nearestDurTriple p n.dur)⟩
            n.pitch n.vel (nearestDurTriple p n.dur) acc rfl rfl rfl (by rfl)]
          simp only [exceptOk_bind, pure_bind]
          rw [hcbeq, htps]
          simp only [Int.ediv_one, mul_one]
          rw [e2]
          obtain ⟨dst', hfold, htr', hte'⟩ := ih
            ⟨n.start, ect / (p.timeDivision * 4), n.start % (p.timeDivision * 4),
              0, eti, etem⟩
            ⟨[(0, p.defaultTempo)],
              assocAppendNote [(0, acc)] 0
                ⟨n.start, durationToTicks (nearestDurTriple p n.dur) p.timeDivision,
                  n.pitch, n.vel⟩,
              n.start, n.start / (p.timeDivision * 4), 0⟩
            (acc ++ [⟨n.start,
              durationToTicks (nearestDurTriple p n.dur) p.timeDivision,
              n.pitch, n.vel⟩])
            (by rw [hcbeq]) (by rw [hcbeq]) rfl rfl
            (Or.inl ⟨by simp [assocAppendNote], rfl, rfl⟩)
            hchain2
            (fun m hm => hnn m (List.mem_cons_of_mem n hm))
            (fun n1 h1 => hR n1 h1)
          refine ⟨dst', ?_, ?_, hte'⟩
          · rw [← hfold]
            rw [hcbeq]
          · rw [htr']
            simp
        · next h => simp at h

end MidiTok

namespace MidiTok

theorem mu_roundtrip (p : Params) (htd0 : 0 < p.timeDivision)
    (htd : p.timeDivision = p.maxBeatRes)
    (notes : List Note) (hne : notes ≠ [])
    (hchain : List.Chain' (fun a b => a.start ≤ b.start) notes)
    (hnn : ∀ m ∈ notes, 0 ≤ m.start)
    (tc : Int × ℚ) (tcs : List (Int × ℚ)) :
    ∃ toks, muMidiToTokens cfgMin p ⟨[⟨0, false, notes⟩], tc :: tcs⟩ = .ok toks ∧
      muTokensToMidi cfgMin p toks =
        .ok ⟨[⟨0, false, notes.map fun n =>
          (⟨n.start, durationToTicks (nearestDurTriple p n.dur) p.timeDivision,
            n.pitch, n.vel⟩ : Note)⟩],
          [(0, p.defaultTempo)], []⟩ := by
  have hmr0 : p.maxBeatRes ≠ 0 := by omega
  have htps : tpsOf p = 1 := by
    unfold tpsOf
    rw [htd]
    exact Int.ediv_self hmr0
  have hsorted : ((notes.map fun n =>
      (⟨false, n.pitch, n.start, 0, n.vel, nearestDurTriple p n.dur⟩ : MuPre)).mergeSort
        muLe) =
      notes.map fun n =>
        (⟨false, n.pitch, n.start, 0, n.vel, nearestDurTriple p n.dur⟩ : MuPre) := by
    apply List.mergeSort_of_sorted
    haveI : IsTrans Note (fun a b => a.start ≤ b.start) :=
      ⟨fun a b c hab hbc => le_trans hab hbc⟩
    rw [List.chain'_iff_pairwise] at hchain
    rw [List.pairwise_map]
    refine hchain.imp ?_
    intro a b hab
    simp only [muLe]
    simp
    omega
  have henc : muMidiToTokens cfgMin p ⟨[⟨0, false, notes⟩], tc :: tcs⟩ =
      .ok (muGo false p (p.timeDivision * 4) (tc :: tcs) ⟨-1, -1, -1, -2, 0, round2 tc.2⟩
        (notes.map fun n =>
          (⟨false, n.pitch, n.start, 0, n.vel, nearestDurTriple p n.dur⟩ : MuPre))) := by
    unfold muMidiToTokens
    simp only [pure_bind]
    rw [show (([⟨0, false, notes⟩] : List Track).filter
        (fun tr => decide (tr.program ∈ cfgMin.programs))).flatMap (muTrackToTokens p) =
      notes.map fun n =>
        (⟨false, n.pitch, n.start, 0, n.vel, nearestDurTriple p n.dur⟩ : MuPre) from by
      simp [cfgMin, muTrackToTokens]]
    rw [hsorted]
    rfl
  obtain ⟨dst', hfold, htr', hte'⟩ := mu_main p htd0 htps (tc :: tcs) notes
    ⟨-1, -1, -1, -2, 0, round2 tc.2⟩
    ⟨[(0, p.defaultTempo)], [], 0, -1, 0⟩ []
    rfl (neg_one_ediv (p.timeDivision * 4) (by omega)).symm rfl rfl
    (Or.inr ⟨hne, rfl, rfl, rfl, rfl⟩)
    hchain hnn
    (fun n1 h1 => by
      have := hnn n1 (List.mem_of_mem_head? h1)
      show (-1 : Int) ≤ n1.start
      omega)
  refine ⟨_, henc, ?_⟩
  unfold muTokensToMidi
  rw [if_neg (show ¬(p.timeDivision % p.maxBeatRes ≠ 0) from fun hc =>
    hc (by rw [htd]; exact Int.emod_self))]
  rw [if_neg (show ¬(cfgMin.useTempos = true ∧
      muGo false p (p.timeDivision * 4) (tc :: tcs) ⟨-1, -1, -1, -2, 0, round2 tc.2⟩
        (notes.map fun n =>
          (⟨false, n.pitch, n.start, 0, n.vel, nearestDurTriple p n.dur⟩ : MuPre)) ≠ [])
    from fun hc => absurd hc.1 (by decide))]
  simp only [pure_bind]
  rw [hfold, exceptOk_bind]
  rw [htr', hte']
  simp
  try rfl

end MidiTok

namespace MidiTok

theorem cpDec_bar (p : Params) (first : Bool) (st : DecState) (tok : CPTok)
    (hf : tok.family = .metric) (hb : tok.barPos = .bar) :
    decodeStep cfgMin p true first st tok =
      .ok { st with
        currentBar := st.currentBar + 1,
        currentTick := (if st.currentBar + 1 > 0 then
          st.tickAtCurrentBar + st.ticksPerBar else st.currentTick),
        tickAtCurrentBar := (if st.currentBar + 1 > 0 then
          st.tickAtCurrentBar + st.ticksPerBar else st.currentTick),
        previousNoteEnd := max st.previousNoteEnd (if st.currentBar + 1 > 0 then
          st.tickAtCurrentBar + st.ticksPerBar else st.currentTick) } := by
  obtain ⟨ti, fam, bp, pi, ve, du, pr, ch, re, te, ts⟩ := tok
  simp only at hf hb
  subst hf; subst hb
  rfl

theorem cpDec_pos (p : Params) (first : Bool) (st : DecState) (tok : CPTok) (v : Int)
    (hf : tok.family = .metric) (hb : tok.barPos = .pos v) :
    decodeStep cfgMin p true first st tok =
      .ok { st with
        currentBar := (if st.currentBar = -1 then 0 else st.currentBar),
        currentTick := st.tickAtCurrentBar + v * tpsOf p,
        previousNoteEnd := max st.previousNoteEnd
          (st.tickAtCurrentBar + v * tpsOf p) } := by
  obtain ⟨ti, fam, bp, pi, ve, du, pr, ch, re, te, ts⟩ := tok
  simp only at hf hb
  subst hf; subst hb
  rfl

theorem cpDec_note (p : Params) (first : Bool) (st : DecState) (tok : CPTok)
    (pt v : Int) (d : DurTriple)
    (hf : tok.family = .note) (hp : tok.pitch = some pt) (hv : tok.vel = some v)
    (hd : tok.dur = some d) :
    decodeStep cfgMin p true first st tok =
      .ok { st with
        tracks := (assocAppendNote (checkInst st.tracks st.currentProgram)
          st.currentProgram
          ⟨st.currentTick, durationToTicks d p.timeDivision, pt, v⟩),
        previousNoteEnd := max st.previousNoteEnd
          (st.currentTick + durationToTicks d p.timeDivision) } := by
  obtain ⟨ti, fam, bp, pi, ve, du, pr, ch, re, te, ts⟩ := tok
  simp only at hf hp hv hd
  subst hf; subst hp; subst hv; subst hd
  rfl

theorem cpDecFold_bars (p : Params) (first : Bool) :
    ∀ (bl : List CPTok) (dst : DecState),
    (∀ tok ∈ bl, tok.family = .metric ∧ tok.barPos = .bar) →
    0 ≤ dst.currentBar →
    ∃ ct2 pne2, List.foldlM (decodeStep cfgMin p true first) dst bl =
      .ok { dst with
            currentBar := dst.currentBar + (bl.length : Int),
            tickAtCurrentBar := dst.tickAtCurrentBar +
              (bl.length : Int) * dst.ticksPerBar,
            currentTick := ct2,
            previousNoteEnd := pne2 } := by
  intro bl
  induction bl with
  | nil =>
    intro dst _ _
    refine ⟨dst.currentTick, dst.previousNoteEnd, ?_⟩
    simp
    rfl
  | cons b bs ih =>
    intro dst hbl hcb
    obtain ⟨hf, hb⟩ := hbl b (List.mem_cons_self b bs)
    rw [List.foldlM_cons, cpDec_bar p first dst b hf hb, exceptOk_bind]
    rw [if_pos (show (0:Int) < dst.currentBar + 1 by omega)]
    obtain ⟨ct2, pne2, hfold⟩ := ih
      { dst with
        currentBar := dst.currentBar + 1,
        currentTick := dst.tickAtCurrentBar + dst.ticksPerBar,
        tickAtCurrentBar := dst.tickAtCurrentBar + dst.ticksPerBar,
        previousNoteEnd := max dst.previousNoteEnd
          (dst.tickAtCurrentBar + dst.ticksPerBar) }
      (fun tok htok => hbl tok (List.mem_cons_of_mem b htok))
      (by show (0:Int) ≤ dst.currentBar + 1; omega)
    refine ⟨ct2, pne2, ?_⟩
    rw [hfold]
    have ha : dst.currentBar + 1 + (bs.length : Int) =
        dst.currentBar + ((b :: bs).length : Int) := by
      push_cast [List.length_cons]
      ring
    have hb2 : dst.tickAtCurrentBar + dst.ticksPerBar +
        (bs.length : Int) * dst.ticksPerBar =
        dst.tickAtCurrentBar + ((b :: bs).length : Int) * dst.ticksPerBar := by
      push_cast [List.length_cons]
      ring
    rw [ha, hb2]

end MidiTok

namespace MidiTok

theorem cpDecFold_group (p : Params) (first : Bool) (acc : List Note) (bl : List CPTok)
    (dst : DecState) (tP tN posv pt v : Int) (d : DurTriple)
    (hbl : ∀ tok ∈ bl, tok.family = .metric ∧ tok.barPos = .bar)
    (hcb : 0 ≤ dst.currentBar)
    (htr : dst.tracks = [(0, acc)] ∨ (dst.tracks = [] ∧ acc = []))
    (hpr : dst.currentProgram = 0) :
    ∃ pne2, List.foldlM (decodeStep cfgMin p true first) dst
        (bl ++ [mkPosTok tP posv none none, mkNoteTok tN pt v d none]) =
      .ok { dst with
            currentBar := dst.currentBar + (bl.length : Int),
            tickAtCurrentBar := dst.tickAtCurrentBar +
              (bl.length : Int) * dst.ticksPerBar,
            currentTick := dst.tickAtCurrentBar +
              (bl.length : Int) * dst.ticksPerBar + posv * tpsOf p,
            previousNoteEnd := pne2,
            tracks := [(0, acc ++ [⟨dst.tickAtCurrentBar +
              (bl.length : Int) * dst.ticksPerBar + posv * tpsOf p,
              durationToTicks d p.timeDivision, pt, v⟩])] } := by
  rw [List.foldlM_append]
  obtain ⟨ct2, pne2, hfoldB⟩ := cpDecFold_bars p first bl dst hbl hcb
  rw [hfoldB, exceptOk_bind]
  rw [List.foldlM_cons, cpDec_pos p first _ (mkPosTok tP posv none none) posv rfl rfl,
    exceptOk_bind]
  rw [if_neg (show ¬(dst.currentBar + (bl.length : Int) = -1) from by omega)]
  rw [List.foldlM_cons,
    cpDec_note p first _ (mkNoteTok tN pt v d none) pt v d rfl rfl rfl rfl,
    exceptOk_bind, List.foldlM_nil]
  rcases htr with htr | ⟨htr, hacc⟩
  · rw [htr, hpr]
    refine ⟨max (max pne2 (dst.tickAtCurrentBar + (bl.length : Int) * dst.ticksPerBar +
      posv * tpsOf p)) (dst.tickAtCurrentBar + (bl.length : Int) * dst.ticksPerBar +
      posv * tpsOf p + durationToTicks d p.timeDivision), ?_⟩
    simp only [checkInst, assocAppendNote]
    simp
    try rfl
  · subst hacc
    rw [htr, hpr]
    refine ⟨max (max pne2 (dst.tickAtCurrentBar + (bl.length : Int) * dst.ticksPerBar +
      posv * tpsOf p)) (dst.tickAtCurrentBar + (bl.length : Int) * dst.ticksPerBar +
      posv * tpsOf p + durationToTicks d p.timeDivision), ?_⟩
    simp only [checkInst, assocAppendNote]
    simp
    try rfl

end MidiTok

namespace MidiTok

theorem c1cp_main (p : Params)
    (htpb : 0 < computeTicksPerBar 4 4 p.timeDivision)
    (htps : tpsOf p = 1) (first : Bool) (notes : List Note) :
    ∀ (est : EncState) (dst : DecState) (acc : List Note),
    est.barAtLastTsChange = 0 →
    est.tickAtLastTsChange = 0 →
    est.ticksPerBar = computeTicksPerBar 4 4 p.timeDivision →
    est.currentProgram = none →
    est.currentBar = est.previousTick / computeTicksPerBar 4 4 p.timeDivision →
    dst.currentBar = est.currentBar →
    dst.tickAtCurrentBar = est.tickAtCurrentBar →
    dst.ticksPerBar = computeTicksPerBar 4 4 p.timeDivision →
    dst.currentProgram = 0 →
    dst.tempoChanges = [(-1, -1)] →
    dst.timeSigChanges = [(0, 4, 4)] →
    ((0 ≤ est.previousTick ∧
        est.tickAtCurrentBar = est.currentBar * computeTicksPerBar 4 4 p.timeDivision ∧
        dst.currentTick = est.previousTick ∧ dst.tracks = [(0, acc)]) ∨
      (est.previousTick = -1 ∧ est.currentBar = -1 ∧ est.tickAtCurrentBar = 0 ∧
        dst.currentTick = 0 ∧ dst.tracks = [] ∧ acc = [] ∧ notes ≠ [])) →
    List.Chain' (fun a b => a.start ≤ b.start) notes →
    (∀ m ∈ notes, 0 ≤ m.start) →
    (∀ n1 ∈ notes.head?, est.previousTick ≤ n1.start) →
    ∃ dst', List.foldlM (decodeStep cfgMin p true first) dst
        (addTimeEventsGo cfgMin p est (eventsOfNotes p notes)).2 = .ok dst' ∧
      dst'.tracks = [(0, acc ++ notes.map fun n =>
        (⟨n.start, durationToTicks (nearestDurTriple p n.dur) p.timeDivision,
          n.pitch, n.vel⟩ : Note))] ∧
      dst'.tempoChanges = [(-1, -1)] ∧ dst'.timeSigChanges = [(0, 4, 4)] := by
  induction notes with
  | nil =>
    intro est dst acc _ _ _ _ _ _ _ _ _ h10 h11 h12 _ _ _
    rcases h12 with ⟨-, -, -, htrk⟩ | ⟨-, -, -, -, -, -, hne⟩
    · exact ⟨dst, rfl, by simpa using htrk, h10, h11⟩
    · exact absurd rfl hne
  | cons n ns ih =>
    intro est dst acc h1 h2 h3 h4 h5 h6 h7 h8 h9 h10 h11 h12 hchain hnn hhead
    obtain ⟨hR, hchain2⟩ := List.chain'_cons'.mp hchain
    have hn0 : (0:Int) ≤ n.start := hnn n (List.mem_cons_self n ns)
    obtain ⟨ecb, eb0, pvt, epne, et0, etacb, ects, etem, ecprog, etpb⟩ := est
    obtain ⟨dtrk, dtc, dts, dct, dtl, dtacb, dcb, dbal, dcp, did, dcn, dpne, dcts,
      dtpb, dout⟩ := dst
    simp only at h1 h2 h3 h4 h5 h6 h7 h8 h9 h10 h11 h12 hhead
    subst h1; subst h2; subst h3; subst h4; subst h5; subst h6; subst h7
    subst h8; subst h9; subst h10; subst h11
    by_cases hsame : n.start = pvt
    · -- same tick: lone Pitch compound token
      rcases h12 with ⟨hpt0, htacb, hdct, htrk⟩ | ⟨hpv, -, -, -, -, -, -⟩
      swap
      · exfalso; omega
      subst htacb; subst hdct; subst htrk; subst hsame
      have hpt : (stepEnc cfgMin p
          ⟨n.start / computeTicksPerBar 4 4 p.timeDivision, 0, n.start, epne, 0,
            n.start / computeTicksPerBar 4 4 p.timeDivision *
              computeTicksPerBar 4 4 p.timeDivision,
            ects, etem, none, computeTicksPerBar 4 4 p.timeDivision⟩
          (.pitchE n.pitch n.start (n.start + n.dur))
          (some (n.vel, nearestDurTriple p n.dur))).1.previousTick = n.start := by
        rw [stepEnc_pitch_same p _ n.pitch n.start (n.start + n.dur) n.vel
          (nearestDurTriple p n.dur) rfl]
      rw [goNotes_step cfgMin p _ n ns hpt]
      rw [stepEnc_pitch_same p _ n.pitch n.start (n.start + n.dur) n.vel
        (nearestDurTriple p n.dur) rfl]
      dsimp only
      simp only [List.singleton_append]
      rw [List.foldlM_cons,
        cpDec_note p first _ (mkNoteTok n.start n.pitch n.vel
          (nearestDurTriple p n.dur) none) n.pitch n.vel (nearestDurTriple p n.dur)
          rfl rfl rfl rfl,
        exceptOk_bind]
      obtain ⟨dst', hfold, htr', htc', hts'⟩ := ih
        ⟨n.start / computeTicksPerBar 4 4 p.timeDivision, 0, n.start,
          max epne (n.start + n.dur), 0,
          n.start / computeTicksPerBar 4 4 p.timeDivision *
            computeTicksPerBar 4 4 p.timeDivision,
          ects, etem, none, computeTicksPerBar 4 4 p.timeDivision⟩
        ⟨assocAppendNote (checkInst [(0, acc)] 0) 0
            ⟨n.start, durationToTicks (nearestDurTriple p n.dur) p.timeDivision,
              n.pitch, n.vel⟩,
          [(-1, -1)], [(0, 4, 4)], n.start, dtl,
          n.start / computeTicksPerBar 4 4 p.timeDivision *
            computeTicksPerBar 4 4 p.timeDivision,
          n.start / computeTicksPerBar 4 4 p.timeDivision, dbal, 0, did, dcn,
          max dpne (n.start + durationToTicks (nearestDurTriple p n.dur) p.timeDivision),
          dcts, computeTicksPerBar 4 4 p.timeDivision, dout⟩
        (acc ++ [⟨n.start, durationToTicks (nearestDurTriple p n.dur) p.timeDivision,
          n.pitch, n.vel⟩])
        rfl rfl rfl rfl rfl rfl rfl rfl rfl rfl rfl
        (Or.inl ⟨hpt0, rfl, rfl, by simp [checkInst, assocAppendNote]⟩)
        hchain2
        (fun m hm => hnn m (List.mem_cons_of_mem n hm))
        (fun n1 h1 => hR n1 h1)
      refine ⟨dst', hfold, ?_, htc', hts'⟩
      rw [htr']
      simp
    · -- new tick
      have hlt : pvt < n.start := lt_of_le_of_ne (hhead n rfl) (fun h => hsame h.symm)
      have hmono : pvt / computeTicksPerBar 4 4 p.timeDivision ≤ n.start / computeTicksPerBar 4 4 p.timeDivision :=
        Int.ediv_le_ediv htpb hlt.le
      have hq0 : (0:Int) ≤ n.start / computeTicksPerBar 4 4 p.timeDivision := Int.ediv_nonneg hn0 htpb.le
      have hpt : (stepEnc cfgMin p
          ⟨pvt / computeTicksPerBar 4 4 p.timeDivision, 0, pvt, epne, 0, dtacb, ects, etem, none, computeTicksPerBar 4 4 p.timeDivision⟩
          (.pitchE n.pitch n.start (n.start + n.dur))
          (some (n.vel, nearestDurTriple p n.dur))).1.previousTick = n.start := by
        rw [stepEnc_pitch_new p _ n.pitch n.start (n.start + n.dur) n.vel
          (nearestDurTriple p n.dur) hsame]
      rw [goNotes_step cfgMin p _ n ns hpt]
      rw [stepEnc_pitch_new p _ n.pitch n.start (n.start + n.dur) n.vel
        (nearestDurTriple p n.dur) hsame]
      rcases h12 with ⟨hpt0, htacb, hdct, htrk⟩ | ⟨hpv, hcbm1, hta, hdct0, htrk0, hacc0, -⟩
      · -- mid-run state
        subst htacb; subst hdct; subst htrk
        by_cases hnum : dct / computeTicksPerBar 4 4 p.timeDivision + 1 ≤ n.start / computeTicksPerBar 4 4 p.timeDivision
        · -- at least one Bar token
          have hnum2 : (1:Int) ≤ 0 + (n.start - 0) / computeTicksPerBar 4 4 p.timeDivision - dct / computeTicksPerBar 4 4 p.timeDivision := by
            simp only [zero_add, sub_zero]; omega
          rw [barPhase_bars cfgMin _ (.pitchE n.pitch n.start (n.start + n.dur)) hnum2 rfl
            (fun h => h)]
          dsimp only [Event.time]
          simp only [zero_add, sub_zero]
          have e1 : dct / computeTicksPerBar 4 4 p.timeDivision + (n.start / computeTicksPerBar 4 4 p.timeDivision - dct / computeTicksPerBar 4 4 p.timeDivision) = n.start / computeTicksPerBar 4 4 p.timeDivision := by omega
          rw [e1]
          rw [List.foldlM_append]
          have hblf : ∀ tok ∈ (List.range ((n.start / computeTicksPerBar 4 4 p.timeDivision - dct / computeTicksPerBar 4 4 p.timeDivision)).toNat).map
              (fun i : Nat => mkBarTok ((dct / computeTicksPerBar 4 4 p.timeDivision + (i : Int) + 1) * computeTicksPerBar 4 4 p.timeDivision) none),
              tok.family = CPFam.metric ∧ tok.barPos = CPBarPos.bar := by
            intro tok htok
            simp only [List.mem_map] at htok
            obtain ⟨i, -, rfl⟩ := htok
            exact ⟨rfl, rfl⟩
          obtain ⟨pne2, hg⟩ := cpDecFold_group p first acc
            ((List.range ((n.start / computeTicksPerBar 4 4 p.timeDivision - dct / computeTicksPerBar 4 4 p.timeDivision)).toNat).map
              (fun i : Nat => mkBarTok ((dct / computeTicksPerBar 4 4 p.timeDivision + (i : Int) + 1) * computeTicksPerBar 4 4 p.timeDivision) none))
            ⟨[(0, acc)], [(-1, -1)], [(0, 4, 4)], dct, dtl, dct / computeTicksPerBar 4 4 p.timeDivision * computeTicksPerBar 4 4 p.timeDivision,
              dct / computeTicksPerBar 4 4 p.timeDivision, dbal, 0, did, dcn, dpne, dcts, computeTicksPerBar 4 4 p.timeDivision, dout⟩
            n.start n.start
            (n.start - n.start / computeTicksPerBar 4 4 p.timeDivision * computeTicksPerBar 4 4 p.timeDivision) n.pitch n.vel (nearestDurTriple p n.dur)
            hblf (Int.ediv_nonneg hpt0 htpb.le) (Or.inl rfl) rfl
          rw [hg, exceptOk_bind]
          simp only [List.length_map, List.length_range]
          rw [Int.toNat_of_nonneg (show (0:Int) ≤ n.start / computeTicksPerBar 4 4 p.timeDivision - dct / computeTicksPerBar 4 4 p.timeDivision by omega)]
          rw [e1]
          have e3 : dct / computeTicksPerBar 4 4 p.timeDivision * computeTicksPerBar 4 4 p.timeDivision + (n.start / computeTicksPerBar 4 4 p.timeDivision - dct / computeTicksPerBar 4 4 p.timeDivision) * computeTicksPerBar 4 4 p.timeDivision =
              n.start / computeTicksPerBar 4 4 p.timeDivision * computeTicksPerBar 4 4 p.timeDivision := by ring
          rw [e3, htps]
          simp only [mul_one]
          have e4 : n.start / computeTicksPerBar 4 4 p.timeDivision * computeTicksPerBar 4 4 p.timeDivision + (n.start - n.start / computeTicksPerBar 4 4 p.timeDivision * computeTicksPerBar 4 4 p.timeDivision) = n.start := by
            ring
          rw [e4]
          obtain ⟨dst', hfold, htr', htc', hts'⟩ := ih
            ⟨n.start / computeTicksPerBar 4 4 p.timeDivision, 0, n.start, max epne (n.start + n.dur), 0,
              n.start / computeTicksPerBar 4 4 p.timeDivision * computeTicksPerBar 4 4 p.timeDivision, ects, etem, none, computeTicksPerBar 4 4 p.timeDivision⟩
            ⟨[(0, acc ++ [⟨n.start,
                durationToTicks (nearestDurTriple p n.dur) p.timeDivision,
                n.pitch, n.vel⟩])],
              [(-1, -1)], [(0, 4, 4)], n.start, dtl, n.start / computeTicksPerBar 4 4 p.timeDivision * computeTicksPerBar 4 4 p.timeDivision,
              n.start / computeTicksPerBar 4 4 p.timeDivision, dbal, 0, did, dcn, pne2, dcts, computeTicksPerBar 4 4 p.timeDivision, dout⟩
            (acc ++ [⟨n.start, durationToTicks (nearestDurTriple p n.dur) p.timeDivision,
              n.pitch, n.vel⟩])
            rfl rfl rfl rfl rfl rfl rfl rfl rfl rfl rfl
            (Or.inl ⟨hn0, rfl, rfl, rfl⟩)
            hchain2
            (fun m hm => hnn m (List.mem_cons_of_mem n hm))
            (fun n1 h1 => by
              have hr := hR n1 h1
              show n.start ≤ n1.start
              omega)
          refine ⟨dst', hfold, ?_, htc', hts'⟩
          rw [htr']
          simp
        · -- no new bar
          have hnlt : 0 + (n.start - 0) / computeTicksPerBar 4 4 p.timeDivision - dct / computeTicksPerBar 4 4 p.timeDivision < 1 := by
            simp only [zero_add, sub_zero]; omega
          rw [barPhase_no_bars cfgMin _ (.pitchE n.pitch n.start (n.start + n.dur)) hnlt]
          dsimp only [Event.time]
          rw [List.foldlM_append]
          obtain ⟨pne2, hg⟩ := cpDecFold_group p first acc ([] : List CPTok)
            ⟨[(0, acc)], [(-1, -1)], [(0, 4, 4)], dct, dtl, dct / computeTicksPerBar 4 4 p.timeDivision * computeTicksPerBar 4 4 p.timeDivision,
              dct / computeTicksPerBar 4 4 p.timeDivision, dbal, 0, did, dcn, dpne, dcts, computeTicksPerBar 4 4 p.timeDivision, dout⟩
            n.start n.start
            (n.start - dct / computeTicksPerBar 4 4 p.timeDivision * computeTicksPerBar 4 4 p.timeDivision) n.pitch n.vel (nearestDurTriple p n.dur)
            (fun tok htok => absurd htok (List.not_mem_nil tok))
            (Int.ediv_nonneg hpt0 htpb.le) (Or.inl rfl) rfl
          rw [hg, exceptOk_bind]
          simp only [List.length_nil, Nat.cast_zero, zero_mul, add_zero]
          rw [htps]
          simp only [mul_one]
          have e4 : dct / computeTicksPerBar 4 4 p.timeDivision * computeTicksPerBar 4 4 p.timeDivision + (n.start - dct / computeTicksPerBar 4 4 p.timeDivision * computeTicksPerBar 4 4 p.timeDivision) = n.start := by ring
          rw [e4]
          have hcbeq : dct / computeTicksPerBar 4 4 p.timeDivision = n.start / computeTicksPerBar 4 4 p.timeDivision := le_antisymm hmono (by omega)
          obtain ⟨dst', hfold, htr', htc', hts'⟩ := ih
            ⟨dct / computeTicksPerBar 4 4 p.timeDivision, 0, n.start, max epne (n.start + n.dur), 0,
              dct / computeTicksPerBar 4 4 p.timeDivision * computeTicksPerBar 4 4 p.timeDivision, ects, etem, none, computeTicksPerBar 4 4 p.timeDivision⟩
            ⟨[(0, acc ++ [⟨n.start,
                durationToTicks (nearestDurTriple p n.dur) p.timeDivision,
                n.pitch, n.vel⟩])],
              [(-1, -1)], [(0, 4, 4)], n.start, dtl, dct / computeTicksPerBar 4 4 p.timeDivision * computeTicksPerBar 4 4 p.timeDivision,
              dct / computeTicksPerBar 4 4 p.timeDivision, dbal, 0, did, dcn, pne2, dcts, computeTicksPerBar 4 4 p.timeDivision, dout⟩
            (acc ++ [⟨n.start, durationToTicks (nearestDurTriple p n.dur) p.timeDivision,
              n.pitch, n.vel⟩])
            rfl rfl rfl rfl hcbeq rfl rfl rfl rfl rfl rfl
            (Or.inl ⟨hn0, rfl, rfl, rfl⟩)
            hchain2
            (fun m hm => hnn m (List.mem_cons_of_mem n hm))
            (fun n1 h1 => by
              have hr := hR n1 h1
              show n.start ≤ n1.start
              omega)
          refine ⟨dst', hfold, ?_, htc', hts'⟩
          rw [htr']
          simp
      · -- initial state: the first Bar token closes the mocked bar -1
        subst hpv; subst hta; subst hdct0; subst htrk0; subst hacc0
        rw [hcbm1]
        have hnum2 : (1:Int) ≤ 0 + (n.start - 0) / computeTicksPerBar 4 4 p.timeDivision - -1 := by
          simp only [zero_add, sub_zero]; omega
        rw [barPhase_bars cfgMin _ (.pitchE n.pitch n.start (n.start + n.dur)) hnum2 rfl
          (fun h => h)]
        dsimp only [Event.time]
        simp only [zero_add, sub_zero]
        have e1i : (-1 : Int) + (n.start / computeTicksPerBar 4 4 p.timeDivision - -1) = n.start / computeTicksPerBar 4 4 p.timeDivision := by omega
        rw [e1i]
        have hbne : (List.range ((n.start / computeTicksPerBar 4 4 p.timeDivision - -1)).toNat).map
            (fun i : Nat => mkBarTok (((-1 : Int) + (i : Int) + 1) * computeTicksPerBar 4 4 p.timeDivision) none) ≠ [] := by
          intro hnil
          have := List.range_eq_nil.mp (List.map_eq_nil_iff.mp hnil)
          omega
        obtain ⟨b0, bl2, hbl2⟩ := List.exists_cons_of_ne_nil hbne
        have hmf : ∀ tok ∈ (List.range ((n.start / computeTicksPerBar 4 4 p.timeDivision - -1)).toNat).map
            (fun i : Nat => mkBarTok (((-1 : Int) + (i : Int) + 1) * computeTicksPerBar 4 4 p.timeDivision) none),
            tok.family = CPFam.metric ∧ tok.barPos = CPBarPos.bar := by
          intro tok htok
          simp only [List.mem_map] at htok
          obtain ⟨i, -, rfl⟩ := htok
          exact ⟨rfl, rfl⟩
        have hb0 := hmf b0 (hbl2 ▸ List.mem_cons_self b0 bl2)
        have hbl2f : ∀ tok ∈ bl2, tok.family = CPFam.metric ∧ tok.barPos = CPBarPos.bar :=
          fun tok htok => hmf tok (hbl2 ▸ List.mem_cons_of_mem b0 htok)
        have hlen2 : (bl2.length : Int) = n.start / computeTicksPerBar 4 4 p.timeDivision := by
          have hlc := congrArg List.length hbl2
          simp only [List.length_map, List.length_range, List.length_cons] at hlc
          have ht : (((n.start / computeTicksPerBar 4 4 p.timeDivision - -1)).toNat : Int) = n.start / computeTicksPerBar 4 4 p.timeDivision - -1 :=
            Int.toNat_of_nonneg (by omega)
          omega
        rw [hbl2, List.cons_append, List.cons_append]
        rw [List.foldlM_cons, cpDec_bar p first _ b0 hb0.1 hb0.2, exceptOk_bind]
        rw [if_neg (show ¬((0:Int) < -1 + 1) by omega)]
        rw [show (-1 : Int) + 1 = 0 from by omega]
        rw [List.foldlM_append]
        obtain ⟨pne2, hg⟩ := cpDecFold_group p first ([] : List Note) bl2
          ⟨[], [(-1, -1)], [(0, 4, 4)], 0, dtl, 0, 0, dbal, 0, did, dcn,
            max dpne 0, dcts, computeTicksPerBar 4 4 p.timeDivision, dout⟩
          n.start n.start (n.start - n.start / computeTicksPerBar 4 4 p.timeDivision * computeTicksPerBar 4 4 p.timeDivision) n.pitch n.vel
          (nearestDurTriple p n.dur)
          hbl2f (le_refl (0 : Int)) (Or.inr ⟨rfl, rfl⟩) rfl
        rw [hg, exceptOk_bind]
        rw [hlen2, htps]
        simp only [zero_add, mul_one]
        have e4 : n.start / computeTicksPerBar 4 4 p.timeDivision * computeTicksPerBar 4 4 p.timeDivision + (n.start - n.start / computeTicksPerBar 4 4 p.timeDivision * computeTicksPerBar 4 4 p.timeDivision) = n.start := by
          ring
        rw [e4]
        simp only [List.nil_append]
        obtain ⟨dst', hfold, htr', htc', hts'⟩ := ih
          ⟨n.start / computeTicksPerBar 4 4 p.timeDivision, 0, n.start, max epne (n.start + n.dur), 0,
            n.start / computeTicksPerBar 4 4 p.timeDivision * computeTicksPerBar 4 4 p.timeDivision, ects, etem, none, computeTicksPerBar 4 4 p.timeDivision⟩
          ⟨[(0, [⟨n.start, durationToTicks (nearestDurTriple p n.dur) p.timeDivision,
              n.pitch, n.vel⟩])],
            [(-1, -1)], [(0, 4, 4)], n.start, dtl, n.start / computeTicksPerBar 4 4 p.timeDivision * computeTicksPerBar 4 4 p.timeDivision,
            n.start / computeTicksPerBar 4 4 p.timeDivision, dbal, 0, did, dcn, pne2, dcts, computeTicksPerBar 4 4 p.timeDivision, dout⟩
          [⟨n.start, durationToTicks (nearestDurTriple p n.dur) p.timeDivision,
            n.pitch, n.vel⟩]
          rfl rfl rfl rfl rfl rfl rfl rfl rfl rfl rfl
          (Or.inl ⟨hn0, rfl, rfl, rfl⟩)
          hchain2
          (fun m hm => hnn m (List.mem_cons_of_mem n hm))
          (fun n1 h1 => by
            have hr := hR n1 h1
            show n.start ≤ n1.start
            omega)
        refine ⟨dst', hfold, ?_, htc', hts'⟩
        rw [htr']
        simp

end MidiTok

namespace MidiTok

theorem cp_roundtrip (p : Params) (htd0 : 0 < p.timeDivision)
    (htd : p.timeDivision = p.maxBeatRes)
    (notes : List Note) (hne : notes ≠ [])
    (hchain : List.Chain' (fun a b => a.start ≤ b.start) notes)
    (hnn : ∀ m ∈ notes, 0 ≤ m.start) :
    cpTokensToMidi cfgMin p none true [addTimeEvents cfgMin p (eventsOfNotes p notes)] =
      .ok ⟨[⟨0, false, notes.map fun n =>
        (⟨n.start, durationToTicks (nearestDurTriple p n.dur) p.timeDivision,
          n.pitch, n.vel⟩ : Note)⟩],
        [(0, p.defaultTempo)], [(0, 4, 4)]⟩ := by
  have hD4 : computeTicksPerBar 4 4 p.timeDivision = 4 * p.timeDivision := by
    unfold computeTicksPerBar
    omega
  have htpb : (0:Int) < computeTicksPerBar 4 4 p.timeDivision := by omega
  have hmr0 : p.maxBeatRes ≠ 0 := by omega
  have htps : tpsOf p = 1 := by
    unfold tpsOf
    rw [htd]
    exact Int.ediv_self hmr0
  have hm1 : (-1 : Int) / computeTicksPerBar 4 4 p.timeDivision = -1 :=
    neg_one_ediv _ (by omega)
  have hinit : initEncState cfgMin p (eventsOfNotes p notes) =
      ⟨-1, 0, -1, 0, 0, 0, (4, 4), p.defaultTempo, none,
        computeTicksPerBar 4 4 p.timeDivision⟩ := rfl
  obtain ⟨dst', hfold, htr', htc', hts'⟩ := c1cp_main p htpb htps (decide ((0:Nat) = 0))
    notes
    ⟨-1, 0, -1, 0, 0, 0, (4, 4), p.defaultTempo, none,
      computeTicksPerBar 4 4 p.timeDivision⟩
    ⟨[], [(-1, -1)], [(0, 4, 4)], 0, 0, 0, -1, 0, 0, false, [], 0,
      (0, 4, 4), computeTicksPerBar 4 4 p.timeDivision, []⟩
    []
    rfl rfl rfl rfl hm1.symm rfl rfl rfl rfl rfl rfl
    (Or.inr ⟨rfl, rfl, rfl, rfl, rfl, rfl, hne⟩)
    hchain hnn
    (fun n1 h1 => by
      have := hnn n1 (List.mem_of_mem_head? h1)
      show (-1 : Int) ≤ n1.start
      omega)
  unfold cpTokensToMidi
  rw [if_neg (show ¬(p.timeDivision % p.maxBeatRes ≠ 0) from fun hc =>
    hc (by rw [htd]; exact Int.emod_self))]
  have hdss : decodeSeqs cfgMin p none true initDecState 0
      [addTimeEvents cfgMin p (eventsOfNotes p notes)] =
      decodeSeq cfgMin p none true 0 initDecState
        (addTimeEvents cfgMin p (eventsOfNotes p notes)) >>= fun st' =>
        decodeSeqs cfgMin p none true st' 1 [] := rfl
  rw [hdss]
  have hds : decodeSeq cfgMin p none true 0 initDecState
      (addTimeEvents cfgMin p (eventsOfNotes p notes)) =
      (addTimeEvents cfgMin p (eventsOfNotes p notes)).foldlM
        (decodeStep cfgMin p true (decide ((0:Nat) = 0)))
        ⟨[], [(-1, -1)], [(0, 4, 4)], 0, 0, 0, -1, 0, 0, false, [], 0,
          (0, 4, 4), computeTicksPerBar 4 4 p.timeDivision, []⟩ >>= fun st =>
        pure st := rfl
  rw [hds]
  unfold addTimeEvents
  rw [hinit]
  rw [hfold]
  simp only [exceptOk_bind, pure_bind]
  rw [show decodeSeqs cfgMin p none true dst' 1 [] = .ok dst' from rfl]
  simp only [exceptOk_bind, pure_bind]
  rw [htr', htc', hts']
  simp [tracksOfDict, finishTempos]
  try rfl

end MidiTok

namespace MidiTok


/-- C1 counterexample: with `time_division = 8` and `max(beat_res) = 4` (`ticks_per_sample = 2`), decoding the encoding does not reproduce start ticks exactly. MuMIDI quantizes the off-grid start tick 1 down to 0 (`(t % ticks_per_bar) / ticks_per_sample` discards the remainder), and CPWord decodes the grid-aligned start tick 2 to 4 because the encoder writes Position values in ticks while the decoder multiplies them by `ticks_per_sample` again. -/
theorem roundtrip_not_exact :
    ((muMidiToTokens cfgMin pMu ⟨[⟨0, false, [⟨1, 8, 60, 100⟩]⟩], [(0, 120)]⟩).bind
        (muTokensToMidi cfgMin pMu)).map
        (fun s => s.tracks.map fun tr => tr.notes.map Note.start) = .ok [[0]] ∧
    (0 : Int) ≠ 1 ∧
    (cpTokensToMidi cfgMin pMu none true
        [addTimeEvents cfgMin pMu (eventsOfNotes pMu [⟨2, 8, 60, 100⟩])]).map
        (fun s => s.tracks.map fun tr => tr.notes.map Note.start) = .ok [[4]] ∧
    (4 : Int) ≠ 2 := by
  have henc : muMidiToTokens cfgMin pMu ⟨[⟨0, false, [⟨1, 8, 60, 100⟩]⟩], [(0, 120)]⟩ =
      .ok (muGo false pMu 32 [(0, 120)] ⟨-1, -1, -1, -2, 0, round2 120⟩
        [⟨false, 60, 1, 0, 100, ⟨1, 0, 4⟩⟩]) := by
    unfold muMidiToTokens
    simp only [pure_bind]
    rw [show (([⟨0, false, [⟨1, 8, 60, 100⟩]⟩] : List Track).filter
        (fun tr => decide (tr.program ∈ cfgMin.programs))).flatMap (muTrackToTokens pMu) =
      [⟨false, 60, 1, 0, 100, ⟨1, 0, 4⟩⟩] from by decide]
    rw [show ([⟨false, 60, 1, 0, 100, ⟨1, 0, 4⟩⟩] : List MuPre).mergeSort muLe =
      [⟨false, 60, 1, 0, 100, ⟨1, 0, 4⟩⟩] from
      List.mergeSort_of_sorted (List.pairwise_singleton _ _)]
    rfl
  refine ⟨?_, by decide, by decide, by decide⟩
  rw [henc]
  decide

/-- C1 (amended): when `time_division = max(beat_res)` (so `ticks_per_sample = 1` and every tick is on the sampling grid), for every nonempty single-track piece whose notes are sorted by start tick with nonnegative starts, decoding the encoding (MuMIDI `_midi_to_tokens`/`_tokens_to_midi`, and likewise the pooled CPWord scheme) reproduces every note's pitch, velocity and start tick exactly, and its end tick to within the nearest duration-table entry. For coarser grids the claim fails: see the counterexample. -/
theorem roundtrip_exact (p : Params) (htd0 : 0 < p.timeDivision)
    (htd : p.timeDivision = p.maxBeatRes)
    (notes : List Note) (hne : notes ≠ [])
    (hchain : List.Chain' (fun a b => a.start ≤ b.start) notes)
    (hnn : ∀ m ∈ notes, 0 ≤ m.start)
    (tc : Int × ℚ) (tcs : List (Int × ℚ)) :
    (∃ toks, muMidiToTokens cfgMin p ⟨[⟨0, false, notes⟩], tc :: tcs⟩ = .ok toks ∧
      muTokensToMidi cfgMin p toks =
        .ok ⟨[⟨0, false, notes.map fun n =>
          (⟨n.start, durationToTicks (nearestDurTriple p n.dur) p.timeDivision,
            n.pitch, n.vel⟩ : Note)⟩],
          [(0, p.defaultTempo)], []⟩) ∧
    cpTokensToMidi cfgMin p none true [addTimeEvents cfgMin p (eventsOfNotes p notes)] =
      .ok ⟨[⟨0, false, notes.map fun n =>
        (⟨n.start, durationToTicks (nearestDurTriple p n.dur) p.timeDivision,
          n.pitch, n.vel⟩ : Note)⟩],
        [(0, p.defaultTempo)], [(0, 4, 4)]⟩ :=
  ⟨mu_roundtrip p htd0 htd notes hne hchain hnn tc tcs,
   cp_roundtrip p htd0 htd notes hne hchain hnn⟩

/-- Witness for C1 (amended): the two-note piece with starts 0 and 4 at `time_division = max(beat_res) = 8` round-trips exactly through both tokenizers. -/
theorem roundtrip_exact_witness :
    (0 : Int) < pStd.timeDivision ∧ pStd.timeDivision = pStd.maxBeatRes ∧
    ([⟨0, 8, 60, 100⟩, ⟨4, 8, 62, 90⟩] : List Note) ≠ [] ∧
    List.Chain' (fun a b => a.start ≤ b.start)
      ([⟨0, 8, 60, 100⟩, ⟨4, 8, 62, 90⟩] : List Note) ∧
    (∀ m ∈ ([⟨0, 8, 60, 100⟩, ⟨4, 8, 62, 90⟩] : List Note), 0 ≤ m.start) ∧
    ((∃ toks, muMidiToTokens cfgMin pStd
        ⟨[⟨0, false, [⟨0, 8, 60, 100⟩, ⟨4, 8, 62, 90⟩]⟩], [(0, 120)]⟩ = .ok toks ∧
      muTokensToMidi cfgMin pStd toks =
        .ok ⟨[⟨0, false, ([⟨0, 8, 60, 100⟩, ⟨4, 8, 62, 90⟩] : List Note).map fun n =>
          (⟨n.start, durationToTicks (nearestDurTriple pStd n.dur) pStd.timeDivision,
            n.pitch, n.vel⟩ : Note)⟩],
          [(0, pStd.defaultTempo)], []⟩) ∧
    cpTokensToMidi cfgMin pStd none true
        [addTimeEvents cfgMin pStd (eventsOfNotes pStd [⟨0, 8, 60, 100⟩, ⟨4, 8, 62, 90⟩])] =
      .ok ⟨[⟨0, false, ([⟨0, 8, 60, 100⟩, ⟨4, 8, 62, 90⟩] : List Note).map fun n =>
        (⟨n.start, durationToTicks (nearestDurTriple pStd n.dur) pStd.timeDivision,
          n.pitch, n.vel⟩ : Note)⟩],
        [(0, pStd.defaultTempo)], [(0, 4, 4)]⟩) :=
  ⟨by decide, by decide, by decide, by norm_num [List.chain'_cons], by decide,
   roundtrip_exact pStd (by decide) (by decide) _ (by decide)
     (by norm_num [List.chain'_cons]) (by decide) (0, 120) []⟩

end MidiTok
